import Mathlib

/-!
# Element-name map of `Data::ComplexGeoData` (src/App/ComplexGeoData.cpp)

A shallow embedding of the persistent element-naming map and of the member
functions of `ComplexGeoData` that read and write it, followed by theorems
about them.

Conventions of the embedding:

* a C string is the list of its characters (`Str`); a `const char *` that may
  be null is an `Option Str`; `std::string` comparison is `strLt`;
* the `boost::bimap` behind `ElementMap` is modelled by its two ordered
  indices: `left`, ordered by mapped name (a `set_of`), and `right`, ordered by
  original name (a `multiset_of`, equal keys kept in insertion order);
* a member function returns the value it returns (or the exception it throws)
  together with the host object as it is left behind;
* `Save` returns the text it sends to the stream of the writer; `Restore` takes
  the records that the reader hands over, as many as the `count` attribute
  says; the reader itself, which is not part of the file, is modelled on the
  text of one `ElementMap` block (`readElementMap`);
* an argument passed by reference that may refer to the host itself is a
  `HostRef`;
* where the identity of the map object matters, a host holds the address of a
  map in a heap of maps (`SharedHost`).
-/

namespace Data

/-! ## Strings -/

/-- A C string: its characters in order, the terminating NUL left out. -/
abbrev Str := List Char

/-- The order of `std::string::operator<`: lexicographic on the characters, a
proper initial segment being smaller. -/
def strLt : Str → Str → Bool
  | [], [] => false
  | [], _ :: _ => true
  | _ :: _, [] => false
  | a :: as, b :: bs =>
    if a < b then true else if b < a then false else strLt as bs

/-- The test `boost::starts_with(s, p)`. -/
def starts_with : Str → Str → Bool
  | _, [] => true
  | [], _ :: _ => false
  | a :: as, b :: bs => a == b && starts_with as bs

/-- The call `strchr(s, c)` as the offset of the first `c` in `s`, when there
is one. -/
def strchr (s : Str) (c : Char) : Option Nat :=
  match s with
  | [] => none
  | a :: as => if a = c then some 0 else (strchr as c).map (· + 1)

/-- The call `strrchr(s, c)` as the offset of the last `c` in `s`, when there
is one. -/
def strrchr (s : Str) (c : Char) : Option Nat :=
  match s with
  | [] => none
  | a :: as =>
    match strrchr as c with
    | some i => some (i + 1)
    | none => if a = c then some 0 else none

/-! ## String ids and the string hasher -/

/-- A reference to an entry of the string hasher's table, seen through
`StringID::value()`. -/
structure StringIDRef where
  value : Nat
  deriving DecidableEq, Repr

/-- Modelled from the spec: the `App::StringHasher` service, whose code is not
part of this file. It is a table of strings; the id of a string is its position
in the table counted from 1, identical strings yield the identical id, and a
string not yet in the table is appended to it. The hasher is shared by
reference: `addr` stands for the address of the object, so that two references
point at the same instance exactly when their `addr` agree. -/
structure StringHasher where
  table : List Str
  threshold : Int
  addr : Nat
  deriving DecidableEq, Repr

/-- Modelled from the spec: `StringHasher::getID(const char *)`, content
addressed and idempotent. Returns the reference and the hasher afterwards. -/
def StringHasher.getID (h : StringHasher) (s : Str) : StringIDRef × StringHasher :=
  if s ∈ h.table then (⟨h.table.indexOf s + 1⟩, h)
  else (⟨h.table.length + 1⟩, { h with table := h.table ++ [s] })

/-- Modelled from the spec: `StringHasher::getID(long)`, the reverse lookup by
numeric value that `Restore` uses; null when the table has no string with that
id. -/
def StringHasher.getID_long (h : StringHasher) (id : Int) : Option StringIDRef :=
  if 1 ≤ id ∧ id ≤ h.table.length then some ⟨id.toNat⟩ else none

/-! ## The bidirectional map -/

/-- One relation of the bimap: `first` is the left key (the mapped name),
`second` the right key (the original name), `info` the attached string ids. -/
structure Entry where
  first : Str
  second : Str
  info : List StringIDRef
  deriving DecidableEq, Repr

/-- Position of the first element whose key is not less than `k`, as the rest
of the index from there on (`lower_bound`). -/
def lowerBound (key : Entry → Str) (k : Str) : List Entry → List Entry
  | [] => []
  | x :: xs => if strLt (key x) k then lowerBound key k xs else x :: xs

/-- The lookup `find(k)` of an ordered index: the element at the lower bound,
if its key is equivalent to `k`. -/
def findBy (key : Entry → Str) (k : Str) (l : List Entry) : Option Entry :=
  match lowerBound key k l with
  | [] => none
  | x :: _ => if strLt k (key x) then none else some x

/-- The elements up to the first one whose key is greater than `k`. -/
def uptoUpper (key : Entry → Str) (k : Str) : List Entry → List Entry
  | [] => []
  | x :: xs => if strLt k (key x) then [] else x :: uptoUpper key k xs

/-- The range `equal_range(k)` of an ordered index, from the lower bound up to
the upper bound. -/
def equalRange (key : Entry → Str) (k : Str) (l : List Entry) : List Entry :=
  uptoUpper key k (lowerBound key k l)

/-- Linking a node into an ordered index: it goes before the first element with
a greater key, hence after every element with an equivalent key. -/
def insertBy (key : Entry → Str) (x : Entry) : List Entry → List Entry
  | [] => [x]
  | y :: ys => if strLt (key x) (key y) then x :: y :: ys else y :: insertBy key x ys

/-- The type `ElementMap`: a `boost::bimap` with a `set_of` left index, a
`multiset_of` right index and a vector of string ids as info. -/
structure ElementMap where
  left : List Entry
  right : List Entry
  deriving DecidableEq, Repr

namespace ElementMap

/-- A freshly constructed map. -/
def empty : ElementMap := ⟨[], []⟩

/-- The member `size()`. -/
def size (m : ElementMap) : Nat := m.left.length

/-- The lookup `left.find(k)`. -/
def left_find (m : ElementMap) (k : Str) : Option Entry := findBy Entry.first k m.left

/-- The lookup `right.find(e)`. -/
def right_find (m : ElementMap) (e : Str) : Option Entry := findBy Entry.second e m.right

/-- The range `right.equal_range(e)`. -/
def right_equal_range (m : ElementMap) (e : Str) : List Entry :=
  equalRange Entry.second e m.right

/-- The range from `left.lower_bound(p)` to `left.end()`. -/
def left_lower_bound (m : ElementMap) (p : Str) : List Entry :=
  lowerBound Entry.first p m.left

/-- The call `left.insert(value_type(name, element, sid))`: when the left key is
already present nothing changes and the existing relation is returned with
`false`; otherwise the relation is linked into both indices. -/
def left_insert (m : ElementMap) (x : Entry) : ElementMap × Entry × Bool :=
  match m.left_find x.first with
  | some y => (m, y, false)
  | none => (⟨insertBy Entry.first x m.left, insertBy Entry.second x m.right⟩, x, true)

/-- Unlinking nodes from both indices; a node is identified by its left key. -/
def eraseNodes (m : ElementMap) (nodes : List Entry) : ElementMap :=
  ⟨m.left.filter (fun x => !nodes.any (fun y => y.first == x.first)),
   m.right.filter (fun x => !nodes.any (fun y => y.first == x.first))⟩

/-- The call `left.erase(it)` for an iterator pointing at `it`. -/
def left_erase (m : ElementMap) (it : Entry) : ElementMap := m.eraseNodes [it]

/-- The call `right.erase(e)`: every relation of `right.equal_range(e)` goes. -/
def right_erase (m : ElementMap) (e : Str) : ElementMap :=
  m.eraseNodes (m.right_equal_range e)

/-- The representation invariant of the bimap: the left index is strictly
ascending in the mapped name, the right index is ascending in the original name,
and both hold the same relations. -/
def WF (m : ElementMap) : Prop :=
  m.left.Pairwise (fun a b => strLt a.first b.first = true) ∧
  m.right.Pairwise (fun a b => strLt b.second a.second = false) ∧
  m.right.Perm m.left

instance (m : ElementMap) : Decidable m.WF := by
  unfold WF; infer_instance

end ElementMap

/-! ## The host object -/

/-- The members of `ComplexGeoData` that the element map needs: the shared
pointer `_ElementMap` (null until the first write) and the hasher reference
`Hasher` (null when no hasher is configured). -/
structure ComplexGeoData where
  _ElementMap : Option ElementMap
  Hasher : Option StringHasher
  deriving DecidableEq, Repr

/-- The ways a member function ends without returning: a `Base::ValueError`
with its message, or the dereference of a null `_ElementMap`, which is
undefined behaviour. -/
inductive Error where
  | ValueError (msg : Str)
  | nullDeref
  deriving DecidableEq, Repr

/-- The end of a call on a host: what it returned or threw, and the host as the
call leaves it. -/
structure Outcome (α : Type) where
  ret : Except Error α
  self : ComplexGeoData

/-- The argument `const ComplexGeoData &data` of a member: a reference to the
host the member is called on, or to another host. -/
inductive HostRef where
  | itself
  | other (data : ComplexGeoData)

/-- The host that the reference points at, as it is when the members of the
host `self` are read through the reference. -/
def HostRef.deref (data : HostRef) (self : ComplexGeoData) : ComplexGeoData :=
  match data with
  | .itself => self
  | .other d => d

/-- The attributes of one `<Element/>` record of the persisted map: `key`,
`value` and, when present, the text of `sid`. -/
structure ElementRecord where
  key : Str
  value : Str
  sid : Option Str
  deriving DecidableEq, Repr

/-- The persisted form of the map as `Base::XMLReader` hands it to `Restore`: an
`<ElementMap>` element without `count` attribute, or one with a `count`
attribute and the `<Element/>` records that `Restore` reads under it, as many
as the attribute says. -/
inductive ElementMapXML where
  | selfClosing
  | counted (elements : List ElementRecord)
  deriving DecidableEq, Repr

/-- The constant returned by `elementMapPrefix()`. -/
def elementMapPrefix : Str := [';']

/-- The function `isMappedElement`: the rest of `name` after the marker when
`name` starts with it, null otherwise. -/
def isMappedElement (name : Option Str) : Option Str :=
  match name with
  | none => none
  | some n => if starts_with n elementMapPrefix then some (n.drop elementMapPrefix.length) else none

namespace ComplexGeoData

/-- The member `getElementMapSize`. -/
def getElementMapSize (self : ComplexGeoData) : Nat :=
  match self._ElementMap with
  | some m => m.size
  | none => 0

/-- The member `getElementName(name, reverse, sid)`. The accumulator `sid` is
null (`none`) or a vector; the vector afterwards is returned with the result. -/
def getElementName (self : ComplexGeoData) (name : Option Str) (reverse : Bool)
    (sid : Option (List StringIDRef)) : Option Str × Option (List StringIDRef) :=
  match name, self._ElementMap with
  | none, _ => (name, sid)
  | some _, none => (name, sid)
  | some n, some m =>
    if reverse then
      match m.right_find n with
      | none => (name, sid)
      | some it => (some it.first, sid.map (fun acc => acc ++ it.info))
    else
      match isMappedElement name with
      | none => (name, sid)
      | some txt =>
        let txt := match strchr txt '.' with
          | some dot => txt.take dot
          | none => txt
        match m.left_find txt with
        | none => (name, sid)
        | some it => (some it.second, sid.map (fun acc => acc ++ it.info))

/-- The member `getElementMappedNames(element, needUnmapped)`. -/
def getElementMappedNames (self : ComplexGeoData) (element : Str) (needUnmapped : Bool) :
    List (Str × List StringIDRef) :=
  let unmapped : List (Str × List StringIDRef) := if needUnmapped then [(element, [])] else []
  match self._ElementMap with
  | none => unmapped
  | some m =>
    let ret := m.right_equal_range element
    if ret.length ≠ 0 then ret.map (fun it => (it.first, it.info)) else unmapped

/-- The member `getElementNamesWithPrefix`; the argument is called `pfx`. -/
def getElementNamesWithPrefix (self : ComplexGeoData) (pfx : Option Str) : List (Str × Str) :=
  match pfx, self._ElementMap with
  | none, _ => []
  | some _, none => []
  | some p, some m =>
    if p = [] then []
    else
      let p := if starts_with p elementMapPrefix then p.drop elementMapPrefix.length else p
      ((m.left_lower_bound p).filter (fun it => starts_with it.first p)).map
        (fun it => (it.first, it.second))

/-- The member `hashElementName(type, name, sid)` as compiled without
`HASH_REDUCE`: returns the string and the vector `sid` afterwards. The digits of
`std::to_string` are those of `Nat.toDigits 10`. -/
def hashElementName (self : ComplexGeoData) (type : Char) (name : Option Str)
    (sid : List StringIDRef) : Outcome (Str × List StringIDRef) :=
  match name with
  | none => ⟨.error (.ValueError "invalid element name".toList), self⟩
  | some n =>
    match self.Hasher with
    | none => ⟨.ok (n, sid), self⟩
    | some h =>
      let r := h.getID n
      ⟨.ok ('#' :: type :: Nat.toDigits 10 r.1.value, sid ++ [r.1]), { self with Hasher := some r.2 }⟩

/-- The message of the exception thrown on a duplicate mapping. -/
def duplicateMessage (name element existing : Str) : Str :=
  "duplicate element mapping '".toList ++ name ++ "->".toList ++ element ++ ['/'] ++ existing

/-- The last step of `setElementName(element, name, sid, overwrite)`: the
relation is inserted into the map `m` of the host, an existing relation of the
same mapped name to another element being evicted first when `overwrite` is set
and reported as a duplicate otherwise. Returns the stored mapped name. -/
def insertRelation (self : ComplexGeoData) (m : ElementMap) (name element : Str)
    (sid : List StringIDRef) (overwrite : Bool) : Outcome Str :=
  let ret := m.left_insert ⟨name, element, sid⟩
  if ret.2.2 = false ∧ ret.2.1.second ≠ element then
    if overwrite then
      let ret2 := (ret.1.left_erase ret.2.1).left_insert ⟨name, element, sid⟩
      ⟨.ok ret2.2.1.first, { self with _ElementMap := some ret2.1 }⟩
    else
      ⟨.error (.ValueError (duplicateMessage name element ret.2.1.second)),
        { self with _ElementMap := some ret.1 }⟩
  else
    ⟨.ok ret.2.1.first, { self with _ElementMap := some ret.1 }⟩

/-- The member `setElementName(element, name, sid, overwrite)`. -/
def setElementName (self : ComplexGeoData) (element name : Option Str)
    (sid : Option (List StringIDRef)) (overwrite : Bool) : Outcome Str :=
  match element with
  | none => ⟨.error (.ValueError "Invalid input".toList), self⟩
  | some [] => ⟨.error (.ValueError "Invalid input".toList), self⟩
  | some (e0 :: es) =>
    let element : Str := e0 :: es
    match name with
    | none | some [] =>
      match self._ElementMap with
      | none => ⟨.error .nullDeref, self⟩
      | some m => ⟨.ok element, { self with _ElementMap := some (m.right_erase element) }⟩
    | some (n0 :: ns) =>
      let name : Str := match isMappedElement (some (n0 :: ns)) with
        | some mapped => mapped
        | none => n0 :: ns
      let m : ElementMap := match self._ElementMap with
        | some m => m
        | none => ElementMap.empty
      let self : ComplexGeoData := { self with _ElementMap := some m }
      if (sid = none ∨ sid = some []) ∧ self.Hasher ≠ none then
        let hashed := self.hashElementName e0 (some name) []
        match hashed.ret with
        | .error err => ⟨.error err, hashed.self⟩
        | .ok (name, sid) => hashed.self.insertRelation m name element sid overwrite
      else
        match sid with
        | none => self.insertRelation m name element [] overwrite
        | some sid => self.insertRelation m name element sid overwrite

/-- The statement `Hasher.reset(hasher)` after a call made with the hasher
swapped out: it is reached when the call has returned, not when it has
thrown. -/
def putBack (out : Outcome Str) (hasher : Option StringHasher) : Outcome Str :=
  match out.ret with
  | .error err => ⟨.error err, out.self⟩
  | .ok ret => ⟨.ok ret, { out.self with Hasher := hasher }⟩

/-- The end of `setElementName(element, name, prefix, postfix, sid, overwrite)`:
the assembled string `ss` is registered with the four-argument overload; when
the host has a hasher and `name` is empty the hasher is swapped out for the
call and put back after it has returned. -/
def registerAssembled (self : ComplexGeoData) (element ss name : Str)
    (sid : Option (List StringIDRef)) (overwrite : Bool) : Outcome Str :=
  if self.Hasher = none ∨ name ≠ [] then
    self.setElementName (some element) (some ss) sid overwrite
  else
    putBack (({ self with Hasher := none } : ComplexGeoData).setElementName
      (some element) (some ss) sid overwrite) self.Hasher

/-- The member `setElementName(element, name, prefix, postfix, sid, overwrite)`;
the affixes are called `pfx` and `sfx`. -/
def setElementNameAffix (self : ComplexGeoData) (element name pfx sfx : Option Str)
    (sid : Option (List StringIDRef)) (overwrite : Bool) : Outcome Str :=
  match element, name with
  | some (e0 :: es), some n =>
    if pfx = none ∧ sfx = none then
      self.setElementName element name sid overwrite
    else
      let head : Str := match pfx with
        | some p => p
        | none => []
      let tail : Str := match sfx with
        | some q => q
        | none => []
      if (sid = none ∨ sid = some []) ∧ self.Hasher ≠ none then
        let hashed := self.hashElementName e0 (some n) []
        match hashed.ret with
        | .error err => ⟨.error err, hashed.self⟩
        | .ok (token, _sid) =>
          hashed.self.registerAssembled (e0 :: es) (head ++ token ++ tail) [] (some _sid)
            overwrite
      else
        self.registerAssembled (e0 :: es) (head ++ n ++ tail) n sid overwrite
  | _, _ => self.setElementName element name sid overwrite

/-- The comparison `Hasher == data.Hasher` of two hasher references. -/
def sameHasher (a b : Option StringHasher) : Bool :=
  a.map StringHasher.addr == b.map StringHasher.addr

/-- The body of the loop of `copyElementMap` for the relation `v` of the
source. -/
def copyEntry (self data : ComplexGeoData) (pfx sfx : Option Str) (v : Entry) : Outcome Str :=
  if v.info.length ≠ 0 then
    if sameHasher self.Hasher data.Hasher = false then
      let name : Str := (match pfx with
        | some p => p
        | none => []) ++ v.first
      self.setElementNameAffix (some v.second) (some []) (some name) sfx none false
    else
      self.setElementNameAffix (some v.second) (some v.first) pfx sfx (some v.info) false
  else
    self.setElementNameAffix (some v.second) (some v.first) pfx sfx none false

/-- The loop of `copyElementMap` over the relations of the source that are
still to be copied; an exception ends it. -/
def copyLoop (self data : ComplexGeoData) (pfx sfx : Option Str) :
    List Entry → Outcome Unit
  | [] => ⟨.ok (), self⟩
  | v :: vs =>
    match (self.copyEntry data pfx sfx v).ret with
    | .error err => ⟨.error err, (self.copyEntry data pfx sfx v).self⟩
    | .ok _ => copyLoop (self.copyEntry data pfx sfx v).self data pfx sfx vs

/-- The member `copyElementMap(data, prefix, postfix)`. The argument `data` is a
reference and is read after `_ElementMap.reset()`: when it refers to the host
itself the map it shows is the one just dropped. -/
def copyElementMap (self : ComplexGeoData) (data : HostRef) (pfx sfx : Option Str) :
    Outcome Unit :=
  let self : ComplexGeoData := { self with _ElementMap := none }
  let data : ComplexGeoData := data.deref self
  match data._ElementMap with
  | none => ⟨.ok (), self⟩
  | some source =>
    let pfx := if pfx = some [] then none else pfx
    let sfx := if sfx = some [] then none else sfx
    let self : ComplexGeoData :=
      if self.Hasher = none then { self with Hasher := data.Hasher } else self
    copyLoop self data pfx sfx source.left

/-- The loop of `newElementName`: from the offset `c` backwards to the offset
after the previous `.`, or to the start of the string, which is not looked
at. -/
def segmentStart (s : Str) : Nat → Nat
  | 0 => 0
  | c + 1 => if s[c + 1]? = some '.' then c + 2 else segmentStart s c

/-- The static member `newElementName`. -/
def newElementName (name : Option Str) : Str :=
  match name with
  | none => []
  | some s =>
    match strrchr s '.' with
    | none => s
    | some 0 => s
    | some (dot + 1) =>
      match isMappedElement (some (s.drop (segmentStart s dot))) with
      | some _ => s.take (dot + 1)
      | none => s

/-- The member `getElementMap()`: a `std::map` filled from the left view in its
order, each mapped name with its original name. -/
def getElementMap (self : ComplexGeoData) : List (Str × Str) :=
  match self._ElementMap with
  | none => []
  | some m => m.left.map (fun v => (v.first, v.second))

/-- The loop of `setElementMap`: `setElementName(v.first, v.second)` for every
pair of the table; an exception ends it. -/
def setElementMapLoop (self : ComplexGeoData) : List (Str × Str) → Outcome Unit
  | [] => ⟨.ok (), self⟩
  | v :: vs =>
    match (self.setElementName (some v.1) (some v.2) none false).ret with
    | .error err => ⟨.error err, (self.setElementName (some v.1) (some v.2) none false).self⟩
    | .ok _ => setElementMapLoop (self.setElementName (some v.1) (some v.2) none false).self vs

/-- The member `setElementMap(map)`: a new map when there is none, the old one
cleared when there is one, then the loop over the table. -/
def setElementMap (self : ComplexGeoData) (map : List (Str × Str)) : Outcome Unit :=
  let self : ComplexGeoData :=
    match self._ElementMap with
    | none => { self with _ElementMap := some ElementMap.empty }
    | some _ => { self with _ElementMap := some ElementMap.empty }
  self.setElementMapLoop map

/-- The inner loop of `Save` over the string ids from the second on: a `.` and
the value of each. -/
def saveSidsTail : List StringIDRef → Str
  | [] => []
  | x :: xs => '.' :: Nat.toDigits 10 x.value ++ saveSidsTail xs

/-- What `Save` writes for the string ids of one relation that has some: the
opening of the `sid` attribute, the value of the first, then the others. -/
def saveSids : List StringIDRef → Str
  | [] => []
  | r :: rs => "\" sid=\"".toList ++ Nat.toDigits 10 r.value ++ saveSidsTail rs

/-- What `Save` writes for one relation of the left view. -/
def saveElement (v : Entry) : Str :=
  "<Element key=\"".toList ++ v.first ++ "\" value=\"".toList ++ v.second ++
    (if v.info.length ≠ 0 then saveSids v.info else []) ++ "\"/>".toList ++ ['\n']

/-- The member `Save(writer)`: the text sent to the stream of the writer, whose
current indentation is `ind`. -/
def Save (self : ComplexGeoData) (ind : Str) : Str :=
  ind ++ "<ElementMap".toList ++
    match self._ElementMap with
    | none => "/>".toList ++ ['\n']
    | some m =>
      if m.size = 0 then "/>".toList ++ ['\n']
      else
        " count=\"".toList ++ Nat.toDigits 10 m.left.length ++ "\">".toList ++ ['\n'] ++
          (m.left.map saveElement).flatten ++ ind ++ "</ElementMap>".toList ++ ['\n']

/-- The largest value of a `long`, on a platform where it has 64 bits. -/
def LONG_MAX : Int := 9223372036854775807

/-- The smallest value of a `long`. -/
def LONG_MIN : Int := -LONG_MAX - 1

/-- The blanks that a formatted stream extraction skips: `std::isspace` in the
classic locale. -/
def isspace (c : Char) : Bool :=
  c = ' ' || c = '\t' || c = '\n' || c = Char.ofNat 11 || c = Char.ofNat 12 || c = '\r'

/-- The value that `iss >> id` stores for a field with the given sign and
digits, when it fits a `long`; when it does not, the extraction fails. -/
def longOf (neg : Bool) (v : Nat) : Option Int :=
  let x : Int := if neg then -(v : Int) else (v : Int)
  if LONG_MIN ≤ x ∧ x ≤ LONG_MAX then some x else none

/-- Where the extraction loop of `Restore` stands in the text of a `sid`
attribute: `iss >> id` is skipping blanks, has read a sign, or is reading
digits, or `iss >> sep` is skipping blanks. -/
inductive ExtractState where
  | id
  | sign (neg : Bool)
  | digits (neg : Bool) (v : Nat)
  | sep
  deriving DecidableEq, Repr

/-- The extraction loop of `Restore` over the text of a `sid` attribute,
`while((iss >> id)) { ...; char sep; iss >> sep; }`, one character at a time.
`iss >> id` skips blanks, takes an optional sign and a run of decimal digits,
and fails when there is no digit or the value does not fit a `long`;
`iss >> sep` skips blanks and takes one character. The loop ends at the first
extraction of a number that fails, also when the text has come to its end.
`acc` holds the numbers read so far. -/
def readIds : Str → ExtractState → List Int → List Int
  | [], .digits neg v, acc =>
    match longOf neg v with
    | some x => acc ++ [x]
    | none => acc
  | [], _, acc => acc
  | c :: cs, .id, acc =>
    if isspace c then readIds cs .id acc
    else if c = '-' then readIds cs (.sign true) acc
    else if c = '+' then readIds cs (.sign false) acc
    else if c.isDigit then readIds cs (.digits false (c.toNat - '0'.toNat)) acc
    else acc
  | c :: cs, .sign neg, acc =>
    if c.isDigit then readIds cs (.digits neg (c.toNat - '0'.toNat)) acc else acc
  | c :: cs, .digits neg v, acc =>
    if c.isDigit then readIds cs (.digits neg (v * 10 + (c.toNat - '0'.toNat))) acc
    else
      match longOf neg v with
      | none => acc
      | some x => if isspace c then readIds cs .sep (acc ++ [x]) else readIds cs .id (acc ++ [x])
  | c :: cs, .sep, acc =>
    if isspace c then readIds cs .sep acc else readIds cs .id acc

/-- The string ids that `Restore` collects for one record: none without `sid`
attribute and none without hasher, else the references that `getID` finds for
the numbers of the attribute, in their order. -/
def restoreSids (self : ComplexGeoData) (sid : Option Str) : List StringIDRef :=
  match sid with
  | none => []
  | some txt =>
    match self.Hasher with
    | none => []
    | some h => (readIds txt .id []).filterMap h.getID_long

/-- Modelled from the spec: the member `resetElementMap()`, declared in the
header, which drops the map of the host. -/
def resetElementMap (self : ComplexGeoData) : ComplexGeoData :=
  { self with _ElementMap := none }

/-- The loop of `Restore` over the records still to be read: each is registered
with `setElementName(value, "", key, 0, &sids)`; an exception ends it. -/
def restoreLoop (self : ComplexGeoData) : List ElementRecord → Outcome Unit
  | [] => ⟨.ok (), self⟩
  | r :: rs =>
    match (self.setElementNameAffix (some r.value) (some []) (some r.key) none
        (some (self.restoreSids r.sid)) false).ret with
    | .error err =>
      ⟨.error err, (self.setElementNameAffix (some r.value) (some []) (some r.key) none
        (some (self.restoreSids r.sid)) false).self⟩
    | .ok _ =>
      restoreLoop (self.setElementNameAffix (some r.value) (some []) (some r.key) none
        (some (self.restoreSids r.sid)) false).self rs

/-- The member `Restore(reader)`. -/
def Restore (self : ComplexGeoData) (doc : ElementMapXML) : Outcome Unit :=
  let self := self.resetElementMap
  match doc with
  | .selfClosing => ⟨.ok (), self⟩
  | .counted elements => self.restoreLoop elements

end ComplexGeoData

/-! ## The reader

`Restore` takes its records from a `Base::XMLReader`, whose code is not part of
this file. The definitions of this section model the part of it that `Restore`
uses, on the text of one `ElementMap` block: start tags with attributes in
double quotes. `none` stands for a text that the reader refuses, or that lies
outside what is modelled here: references (`&...;`) are not resolved, and a
block must hold its `Element` records one after the other. -/

/-- Modelled from the spec: the white space of XML. -/
def xmlSpace (c : Char) : Bool :=
  c = ' ' || c = '\t' || c = '\n' || c = '\r'

/-- Modelled from the spec: the end-of-line handling of an XML reader, which
passes a carriage return, with the line feed that may follow it, as one line
feed. -/
def lineEnds : Str → Str
  | [] => []
  | [c] => [if c = '\r' then '\n' else c]
  | c :: d :: ds =>
    if c = '\r' then
      if d = '\n' then '\n' :: lineEnds ds else '\n' :: lineEnds (d :: ds)
    else c :: lineEnds (d :: ds)

/-- Modelled from the spec: the value of an attribute as the reader reports it
for the raw text between the quotes. A `<`, a `&` or a control character other
than white space is refused; each white space character becomes a space. -/
def attributeValue (raw : Str) : Option Str :=
  if raw.all (fun c => c != '<' && c != '&' && (decide (32 ≤ c.toNat) || xmlSpace c)) then
    some ((lineEnds raw).map (fun c => if xmlSpace c then ' ' else c))
  else none

/-- Modelled from the spec: the attributes of a start tag, read from the text
behind the tag name up to the closing `>` or `/>`, with the text that follows
the tag. An attribute stands behind white space and is a name, `=`, and a value
in double quotes. -/
def readAttributes : Nat → Str → Option (List (Str × Str) × Str)
  | 0, _ => none
  | fuel + 1, s =>
    let s1 := s.dropWhile xmlSpace
    if s1.take 2 = ['/', '>'] then some ([], s1.drop 2)
    else if s1.take 1 = ['>'] then some ([], s1.drop 1)
    else if s.head?.map xmlSpace ≠ some true then none
    else
      let name := s1.takeWhile (fun c => c != '=')
      let s2 := s1.dropWhile (fun c => c != '=')
      let raw := (s2.drop 2).takeWhile (fun c => c != '"')
      let s3 := (s2.drop 2).dropWhile (fun c => c != '"')
      if s2.take 2 = ['=', '"'] ∧ s3.take 1 = ['"'] then
        match attributeValue raw, readAttributes fuel (s3.drop 1) with
        | some v, some (attrs, rest) => some ((name, v) :: attrs, rest)
        | _, _ => none
      else none

/-- Modelled from the spec: the next start tag of the text, character data
before it being skipped: its name, its attributes, which must have distinct
names, and the text behind the tag. -/
def readStartTag (s : Str) : Option (Str × List (Str × Str) × Str) :=
  let s1 := (s.dropWhile (fun c => c != '<')).drop 1
  if (s.dropWhile (fun c => c != '<')).take 1 = ['<'] then
    match readAttributes s1.length
        (s1.dropWhile (fun c => !xmlSpace c && c != '/' && c != '>')) with
    | some (attrs, rest) =>
      if (attrs.map Prod.fst).Nodup then
        some (s1.takeWhile (fun c => !xmlSpace c && c != '/' && c != '>'), attrs, rest)
      else none
    | none => none
  else none

/-- Modelled from the spec: `getAttributeAsUnsigned` on the text of an
attribute, the number that its leading decimal digits denote. -/
def unsignedOf (txt : Str) : Nat :=
  (txt.takeWhile Char.isDigit).foldl (fun a c => a * 10 + (c.toNat - '0'.toNat)) 0

/-- Modelled from the spec: the calls `readElement("Element")`,
`getAttribute("value")`, `getAttribute("key")` and `hasAttribute("sid")` of
`Restore`, made `count` times: the records that `Restore` gets to see. -/
def readElements : Nat → Str → Option (List ElementRecord)
  | 0, _ => some []
  | count + 1, s =>
    match readStartTag s with
    | some (name, attrs, rest) =>
      if name = "Element".toList then
        match attrs.lookup "value".toList, attrs.lookup "key".toList, readElements count rest with
        | some value, some key, some records =>
          some (⟨key, value, attrs.lookup "sid".toList⟩ :: records)
        | _, _, _ => none
      else none
    | none => none

/-- Modelled from the spec: what the reader hands to `Restore` for the text of
an `ElementMap` block: `readElement("ElementMap")`, `hasAttribute("count")`,
`getAttributeAsUnsigned("count")` and the records. -/
def readElementMap (s : Str) : Option ElementMapXML :=
  match readStartTag s with
  | some (name, attrs, rest) =>
    if name = "ElementMap".toList then
      match attrs.lookup "count".toList with
      | none => some .selfClosing
      | some count => (readElements (unsignedOf count) rest).map .counted
    else none
  | none => none

/-! ## Reference definitions

Definitions that follow the words of the specification, to be compared with
the functions above. -/

/-- The decimal digits of `v`, most significant first, `0` for zero. -/
def decimal (v : Nat) : Str :=
  if v = 0 then ['0'] else ((Nat.digits 10 v).reverse.map Nat.digitChar)

/-- Reference definition of `hashElementName` for a non-null name: without
hasher the name and `sid` as they are; with a hasher whose `getID(name)` has the
value `v`, the string `#`, the type character and the decimal digits of `v`, and
`sid` with that one reference appended. -/
def hashElementName_spec (hasher : Option StringHasher) (type : Char) (name : Str)
    (sid : List StringIDRef) : Str × List StringIDRef :=
  match hasher with
  | none => (name, sid)
  | some h => ('#' :: type :: decimal (h.getID name).1.value, sid ++ [(h.getID name).1])

/-- Reference definition of the path-qualifier stripping: with `i` the position
of the last `.` of `s`, the final segment is the text between the previous `.`
before `i`, or the start of `s`, and `i`; when it begins with the marker the
result is `s` truncated before `i`, in every other case `s`. -/
def newElementName_spec (s : Str) : Str :=
  match strrchr s '.' with
  | none => s
  | some i =>
    let before := s.take i
    let segment := match strrchr before '.' with
      | some j => before.drop (j + 1)
      | none => before
    if starts_with segment elementMapPrefix then before else s

/-- Reference definition of the record of one relation: the key is the mapped
name, the value the original name, and the `sid` attribute is present exactly
when the relation has a string id, and is then the decimal values of its string
ids in stored order, joined by `.`. -/
def recordOf (v : Entry) : ElementRecord :=
  ⟨v.first, v.second,
    if v.info = [] then none
    else some (List.intercalate ['.'] (v.info.map (fun r => decimal r.value)))⟩

/-- Reference definition of the persisted form of a host: self-closing for an
absent or empty map, else one record per relation in ascending order of the
mapped names. -/
def savedRecords (self : ComplexGeoData) : ElementMapXML :=
  match self._ElementMap with
  | none => .selfClosing
  | some m => if m.left = [] then .selfClosing else .counted (m.left.map recordOf)

/-- The text of one `<Element/>` record. -/
def renderRecord (r : ElementRecord) : Str :=
  "<Element key=\"".toList ++ r.key ++ "\" value=\"".toList ++ r.value ++
    (match r.sid with
      | none => []
      | some txt => "\" sid=\"".toList ++ txt) ++ "\"/>".toList ++ ['\n']

/-- The text of the persisted form at indentation `ind`: a self-closing element
without `count`, or a header with the number of records as `count`, the records
one per line, and the closing tag. -/
def render (ind : Str) : ElementMapXML → Str
  | .selfClosing => ind ++ "<ElementMap/>".toList ++ ['\n']
  | .counted elements =>
    ind ++ "<ElementMap count=\"".toList ++ decimal elements.length ++ "\">".toList ++ ['\n'] ++
      (elements.map renderRecord).flatten ++ ind ++ "</ElementMap>".toList ++ ['\n']

/-- A character that an XML attribute in double quotes carries as it is: not
`"`, `<` or `&`, and not a control character. -/
def plainChar (c : Char) : Bool :=
  decide (32 ≤ c.toNat) && c != '"' && c != '<' && c != '&'

/-- A name made of such characters. -/
def plainText (s : Str) : Bool := s.all plainChar

/-- Reference definition: the string ends in a segment behind a segment that
begins with the marker: it is `p ++ ";a" ++ "." ++ z` where neither `a` nor `z`
holds a `.` and `p` is empty or ends in a `.` that is not the first character
of the string. -/
def EndsBehindMarker (r : Str) : Prop :=
  ∃ p a z : Str, r = p ++ ';' :: a ++ '.' :: z ∧ '.' ∉ a ∧ '.' ∉ z ∧
    (p = [] ∨ ∃ q : Str, q ≠ [] ∧ p = q ++ ['.'])

/-! ## Registration order -/

/-- Weakly ascending in `key`. -/
def SortedBy (key : Entry → Str) (l : List Entry) : Prop :=
  l.Pairwise (fun a b => strLt (key b) (key a) = false)

/-- The map that results from registering the relations of `log` one after the
other, earliest first, with `left.insert`. -/
def ofLog (log : List Entry) : ElementMap :=
  log.foldl (fun m x => (m.left_insert x).1) ElementMap.empty

/-- The relations of `log`, which have distinct mapped names, are those held by
`m`, and `m` was built by registering them in the order of `log`. -/
def Registered (log : List Entry) (m : ElementMap) : Prop :=
  (log.map Entry.first).Nodup ∧ m = ofLog log

instance (log : List Entry) (m : ElementMap) : Decidable (Registered log m) := by
  unfold Registered; infer_instance

/-- The host holds exactly the relations of `log`, registered in the order of
`log`; a host without a map holds none. -/
def ComplexGeoData.Holds (self : ComplexGeoData) (log : List Entry) : Prop :=
  match self._ElementMap with
  | none => log = []
  | some m => Registered log m

instance (self : ComplexGeoData) (log : List Entry) : Decidable (self.Holds log) := by
  unfold ComplexGeoData.Holds
  cases self._ElementMap <;> infer_instance

/-! ## Shared ownership

`_ElementMap` is a `std::shared_ptr`: the hosts below hold the address of a map
object instead of the map, so that two hosts can hold the same object. -/

/-- The `ElementMap` objects alive, addressed by their position. -/
abbrev Heap := List ElementMap

/-- A host whose `_ElementMap` is the address of an object of the heap, or
null. -/
structure SharedHost where
  _ElementMap : Option Nat
  Hasher : Option StringHasher
  deriving DecidableEq, Repr

/-- The host as its member functions see it: the pointer followed. -/
def SharedHost.view (h : SharedHost) (heap : Heap) : ComplexGeoData :=
  ⟨h._ElementMap.bind (fun a => heap[a]?), h.Hasher⟩

/-- The member `setElementName(element, name, sid, overwrite)` on a host that
holds a pointer: every write goes through `_ElementMap->`, so the object pointed
at is changed where it is, and only a null pointer is set to a new object
(`std::make_shared`). Nowhere is the object copied before a write. -/
def SharedHost.setElementName (h : SharedHost) (heap : Heap) (element name : Option Str)
    (sid : Option (List StringIDRef)) (overwrite : Bool) :
    Except Error Str × SharedHost × Heap :=
  let out := (h.view heap).setElementName element name sid overwrite
  match h._ElementMap, out.self._ElementMap with
  | some a, some m => (out.ret, ⟨some a, out.self.Hasher⟩, heap.set a m)
  | none, some m => (out.ret, ⟨some heap.length, out.self.Hasher⟩, heap ++ [m])
  | p, none => (out.ret, ⟨p, out.self.Hasher⟩, heap)

/-! ## Sequences of calls -/

/-- A call of one of the members that write the element map, with its
arguments. -/
inductive Call where
  | setElementName (element name : Option Str) (sid : Option (List StringIDRef))
      (overwrite : Bool)
  | setElementNameAffix (element name pfx sfx : Option Str)
      (sid : Option (List StringIDRef)) (overwrite : Bool)
  | setElementMap (map : List (Str × Str))
  | copyElementMap (data : HostRef) (pfx sfx : Option Str)
  | Restore (doc : ElementMapXML)

/-- The host as the call leaves it, whether it returned or threw. -/
def Call.run (self : ComplexGeoData) : Call → ComplexGeoData
  | .setElementName element name sid overwrite =>
    (self.setElementName element name sid overwrite).self
  | .setElementNameAffix element name pfx sfx sid overwrite =>
    (self.setElementNameAffix element name pfx sfx sid overwrite).self
  | .setElementMap map => (self.setElementMap map).self
  | .copyElementMap data pfx sfx => (self.copyElementMap data pfx sfx).self
  | .Restore doc => (self.Restore doc).self

/-- The host after the calls of `calls`, made one after the other. -/
def runCalls (self : ComplexGeoData) (calls : List Call) : ComplexGeoData :=
  calls.foldl Call.run self

/-- Every relation of the map of the host, in either index, has a non-empty
original name. -/
def ComplexGeoData.OriginalsNonEmpty (self : ComplexGeoData) : Prop :=
  match self._ElementMap with
  | none => True
  | some m => ∀ z, z ∈ m.left ∨ z ∈ m.right → z.second ≠ []

/-! ## Sample data

A small registration log and the map it builds, used to instantiate the
theorems below at concrete inputs. -/

/-- Three registrations, earliest first: `foo` and `bar` for `Face1`, then `baz`
for `Edge2`. -/
def sampleLog : List Entry :=
  [⟨"foo".toList, "Face1".toList, []⟩,
   ⟨"bar".toList, "Face1".toList, [⟨3⟩]⟩,
   ⟨"baz".toList, "Edge2".toList, []⟩]

/-- The map built from `sampleLog`. -/
def sampleMap : ElementMap :=
  ⟨[⟨"bar".toList, "Face1".toList, [⟨3⟩]⟩,
    ⟨"baz".toList, "Edge2".toList, []⟩,
    ⟨"foo".toList, "Face1".toList, []⟩],
   [⟨"baz".toList, "Edge2".toList, []⟩,
    ⟨"foo".toList, "Face1".toList, []⟩,
    ⟨"bar".toList, "Face1".toList, [⟨3⟩]⟩]⟩

/-- A host without hasher that owns `sampleMap`. -/
def sampleHost : ComplexGeoData := ⟨some sampleMap, none⟩

/-! ## Lemmas on the string order and the ordered indices -/

theorem strLt_irrefl (a : Str) : strLt a a = false := by
  induction a with
  | nil => rfl
  | cons x xs ih => simp [strLt, ih]

theorem strLt_trans {a b c : Str} (h1 : strLt a b = true) (h2 : strLt b c = true) :
    strLt a c = true := by
  induction a generalizing b c with
  | nil =>
    cases b with
    | nil => simp [strLt] at h1
    | cons y ys =>
      cases c with
      | nil => simp [strLt] at h2
      | cons z zs => simp [strLt]
  | cons x xs ih =>
    cases b with
    | nil => simp [strLt] at h1
    | cons y ys =>
      cases c with
      | nil => simp [strLt] at h2
      | cons z zs =>
        simp only [strLt] at h1 h2 ⊢
        split at h1
        · rename_i hxy
          split at h2
          · rename_i hyz
            simp [lt_trans hxy hyz]
          · split at h2
            · simp at h2
            · rename_i h3 h4
              have : y = z := le_antisymm (not_lt.mp h4) (not_lt.mp h3)
              subst this
              simp [hxy]
        · split at h1
          · simp at h1
          · rename_i h3 h4
            have : x = y := le_antisymm (not_lt.mp h4) (not_lt.mp h3)
            subst this
            split at h2
            · rename_i hyz; simp [hyz]
            · split at h2
              · simp at h2
              · rename_i h5 h6
                simp [h5, h6, ih h1 h2]

theorem strLt_asymm {a b : Str} (h : strLt a b = true) : strLt b a = false := by
  cases hba : strLt b a with
  | false => rfl
  | true =>
    have := strLt_trans h hba
    rw [strLt_irrefl] at this
    cases this

theorem strLt_total {a b : Str} (h1 : strLt a b = false) (h2 : strLt b a = false) : a = b := by
  induction a generalizing b with
  | nil =>
    cases b with
    | nil => rfl
    | cons y ys => simp [strLt] at h1
  | cons x xs ih =>
    cases b with
    | nil => simp [strLt] at h2
    | cons y ys =>
      simp only [strLt] at h1 h2
      split at h1
      · simp at h1
      · split at h1
        · rename_i h3 h4
          simp [h4] at h2
        · rename_i h3 h4
          have : x = y := le_antisymm (not_lt.mp h4) (not_lt.mp h3)
          subst this
          simp at h2
          rw [ih h1 h2]

theorem strLt_of_lt_of_le {a b c : Str} (h1 : strLt a b = true) (h2 : strLt c b = false) :
    strLt a c = true := by
  cases hbc : strLt b c with
  | true => exact strLt_trans h1 hbc
  | false => rw [← strLt_total hbc h2]; exact h1

theorem strLt_of_le_of_lt {a b c : Str} (h1 : strLt b a = false) (h2 : strLt b c = true) :
    strLt a c = true := by
  cases hab : strLt a b with
  | true => exact strLt_trans hab h2
  | false => rw [strLt_total hab h1]; exact h2

theorem strLe_trans {a b c : Str} (h1 : strLt b a = false) (h2 : strLt c b = false) :
    strLt c a = false := by
  cases h : strLt c a with
  | false => rfl
  | true =>
    have := strLt_of_lt_of_le h h1
    rw [this] at h2; cases h2

theorem starts_with_not_lt {k p : Str} (h : starts_with k p = true) : strLt k p = false := by
  induction k generalizing p with
  | nil =>
    cases p with
    | nil => rfl
    | cons b bs => simp [starts_with] at h
  | cons a as ih =>
    cases p with
    | nil => rfl
    | cons b bs =>
      simp [starts_with] at h
      obtain ⟨h1, h2⟩ := h
      subst h1
      simp [strLt, ih h2]


theorem lowerBound_suffix (key : Entry → Str) (k : Str) (l : List Entry) :
    lowerBound key k l <:+ l := by
  induction l with
  | nil => simp [lowerBound]
  | cons x xs ih =>
    simp only [lowerBound]
    split
    · exact ih.trans (List.suffix_cons x xs)
    · exact List.suffix_refl _

theorem lowerBound_eq_filter {key : Entry → Str} {l : List Entry} (k : Str)
    (h : SortedBy key l) : lowerBound key k l = l.filter (fun x => !strLt (key x) k) := by
  induction l with
  | nil => rfl
  | cons x xs ih =>
    have hx := List.pairwise_cons.mp h
    simp only [lowerBound]
    cases hk : strLt (key x) k with
    | true => simp [List.filter_cons, hk, ih hx.2]
    | false =>
      simp only [List.filter_cons, hk, Bool.not_false, if_true, Bool.false_eq_true, if_false]
      congr 1
      symm
      apply List.filter_eq_self.mpr
      intro y hy
      simp [strLe_trans hk (hx.1 y hy)]

theorem uptoUpper_eq_filter {key : Entry → Str} {l : List Entry} (k : Str)
    (h : SortedBy key l) : uptoUpper key k l = l.filter (fun x => !strLt k (key x)) := by
  induction l with
  | nil => rfl
  | cons x xs ih =>
    have hx := List.pairwise_cons.mp h
    simp only [uptoUpper]
    cases hk : strLt k (key x) with
    | true =>
      simp only [List.filter_cons, hk, Bool.not_true, if_true, Bool.false_eq_true, if_false]
      symm
      apply List.filter_eq_nil_iff.mpr
      intro y hy
      simp [strLt_of_lt_of_le hk (hx.1 y hy)]
    | false => simp [List.filter_cons, hk, ih hx.2]

theorem equalRange_eq_filter {key : Entry → Str} {l : List Entry} (k : Str)
    (h : SortedBy key l) : equalRange key k l = l.filter (fun x => key x == k) := by
  unfold equalRange
  have hs : SortedBy key (lowerBound key k l) :=
    List.Pairwise.sublist (lowerBound_suffix key k l).sublist h
  rw [uptoUpper_eq_filter k hs, lowerBound_eq_filter k h, List.filter_filter]
  apply List.filter_congr
  intro x _
  cases h1 : strLt k (key x) <;> cases h2 : strLt (key x) k <;> simp
  · exact strLt_total h2 h1
  · intro e; rw [e, strLt_irrefl] at h2; cases h2
  · intro e; rw [e, strLt_irrefl] at h1; cases h1
  · intro e; rw [e, strLt_irrefl] at h1; cases h1

theorem findBy_eq_head (key : Entry → Str) (k : Str) (l : List Entry) :
    findBy key k l = (equalRange key k l).head? := by
  unfold findBy equalRange
  cases lowerBound key k l with
  | nil => rfl
  | cons x xs =>
    simp only [uptoUpper]
    cases strLt k (key x) <;> simp

theorem findBy_eq_find {key : Entry → Str} {l : List Entry} (k : Str)
    (h : SortedBy key l) : findBy key k l = l.find? (fun x => key x == k) := by
  rw [findBy_eq_head, equalRange_eq_filter k h]
  induction l with
  | nil => rfl
  | cons x xs ih =>
    have hx := List.pairwise_cons.mp h
    simp only [List.filter_cons, List.find?_cons]
    cases key x == k <;> simp [ih hx.2]


theorem insertBy_perm (key : Entry → Str) (x : Entry) (l : List Entry) :
    (insertBy key x l).Perm (x :: l) := by
  induction l with
  | nil => exact List.Perm.refl _
  | cons y ys ih =>
    simp only [insertBy]
    split
    · exact List.Perm.refl _
    · exact (List.Perm.cons y ih).trans (List.Perm.swap x y ys)

theorem mem_insertBy {key : Entry → Str} {x z : Entry} {l : List Entry} :
    z ∈ insertBy key x l ↔ z = x ∨ z ∈ l := by
  rw [(insertBy_perm key x l).mem_iff, List.mem_cons]

theorem insertBy_sorted {key : Entry → Str} {l : List Entry} (x : Entry)
    (h : SortedBy key l) : SortedBy key (insertBy key x l) := by
  induction l with
  | nil => simp [insertBy, SortedBy]
  | cons y ys ih =>
    have hy := List.pairwise_cons.mp h
    simp only [insertBy]
    cases hxy : strLt (key x) (key y) with
    | true =>
      simp only [if_true]
      refine List.pairwise_cons.mpr ⟨?_, h⟩
      intro z hz
      rcases List.mem_cons.mp hz with rfl | hz
      · exact strLt_asymm hxy
      · exact strLt_asymm (strLt_of_lt_of_le hxy (hy.1 z hz))
    | false =>
      simp only [Bool.false_eq_true, if_false]
      refine List.pairwise_cons.mpr ⟨?_, ih hy.2⟩
      intro z hz
      rcases mem_insertBy.mp hz with rfl | hz
      · exact hxy
      · exact hy.1 z hz

theorem insertBy_strict {key : Entry → Str} {l : List Entry} (x : Entry)
    (h : l.Pairwise (fun a b => strLt (key a) (key b) = true))
    (hx : ∀ y ∈ l, key y ≠ key x) :
    (insertBy key x l).Pairwise (fun a b => strLt (key a) (key b) = true) := by
  induction l with
  | nil => simp [insertBy]
  | cons y ys ih =>
    have hy := List.pairwise_cons.mp h
    simp only [insertBy]
    cases hxy : strLt (key x) (key y) with
    | true =>
      simp only [if_true]
      refine List.pairwise_cons.mpr ⟨?_, h⟩
      intro z hz
      rcases List.mem_cons.mp hz with rfl | hz
      · exact hxy
      · exact strLt_trans hxy (hy.1 z hz)
    | false =>
      simp only [Bool.false_eq_true, if_false]
      refine List.pairwise_cons.mpr ⟨?_, ih hy.2 (fun z hz => hx z (List.mem_cons_of_mem _ hz))⟩
      intro z hz
      rcases mem_insertBy.mp hz with rfl | hz
      · cases hyx : strLt (key y) (key z) with
        | true => rfl
        | false => exact absurd (strLt_total hyx hxy) (hx y (List.mem_cons_self _ _))
      · exact hy.1 z hz

theorem strict_sortedBy {key : Entry → Str} {l : List Entry}
    (h : l.Pairwise (fun a b => strLt (key a) (key b) = true)) : SortedBy key l :=
  List.Pairwise.imp (fun hab => strLt_asymm hab) h

theorem insertBy_of_lt {key : Entry → Str} {l : List Entry} (x : Entry)
    (h : ∀ z ∈ l, strLt (key x) (key z) = true) : insertBy key x l = x :: l := by
  cases l with
  | nil => rfl
  | cons y ys => simp [insertBy, h y (List.mem_cons_self _ _)]

theorem filter_insertBy {key : Entry → Str} {l : List Entry} (x : Entry) (q : Entry → Bool)
    (h : SortedBy key l) :
    (insertBy key x l).filter q = if q x then insertBy key x (l.filter q) else l.filter q := by
  induction l with
  | nil => cases hq : q x <;> simp [insertBy, hq]
  | cons y ys ih =>
    have hy := List.pairwise_cons.mp h
    simp only [insertBy]
    cases hxy : strLt (key x) (key y) with
    | true =>
      simp only [if_true]
      have hall : ∀ z ∈ (y :: ys).filter q, strLt (key x) (key z) = true := by
        intro z hz
        rcases List.mem_cons.mp (List.mem_filter.mp hz).1 with rfl | hz
        · exact hxy
        · exact strLt_of_lt_of_le hxy (hy.1 z hz)
      rw [insertBy_of_lt x hall]
      cases hq : q x <;> simp [List.filter_cons, hq]
    | false =>
      simp only [Bool.false_eq_true, if_false]
      rw [List.filter_cons, ih hy.2]
      cases hqy : q y <;> cases hqx : q x <;> simp [List.filter_cons, hqy, insertBy, hxy]

theorem filter_insertBy_key {key : Entry → Str} {l : List Entry} (x : Entry)
    (h : SortedBy key l) :
    (insertBy key x l).filter (fun z => key z == key x)
      = l.filter (fun z => key z == key x) ++ [x] := by
  induction l with
  | nil => simp [insertBy]
  | cons y ys ih =>
    have hy := List.pairwise_cons.mp h
    simp only [insertBy]
    cases hxy : strLt (key x) (key y) with
    | true =>
      simp only [if_true]
      have hnil : (y :: ys).filter (fun z => key z == key x) = [] := by
        apply List.filter_eq_nil_iff.mpr
        intro z hz
        have hlt : strLt (key x) (key z) = true := by
          rcases List.mem_cons.mp hz with rfl | hz
          · exact hxy
          · exact strLt_of_lt_of_le hxy (hy.1 z hz)
        intro he
        rw [eq_of_beq he, strLt_irrefl] at hlt
        cases hlt
      rw [List.filter_cons, hnil]
      simp
    | false =>
      simp only [Bool.false_eq_true, if_false]
      rw [List.filter_cons, ih hy.2, List.filter_cons]
      cases key y == key x <;> simp


theorem lowerBound_head {key : Entry → Str} {k : Str} {l : List Entry} {y : Entry}
    {ys : List Entry} (h : lowerBound key k l = y :: ys) : strLt (key y) k = false := by
  induction l with
  | nil => simp [lowerBound] at h
  | cons a as ih =>
    simp only [lowerBound] at h
    cases ha : strLt (key a) k with
    | true =>
      rw [ha] at h
      exact ih h
    | false =>
      rw [ha] at h
      simp only [Bool.false_eq_true, if_false] at h
      rw [← (List.cons.inj h).1]
      exact ha

theorem findBy_some {key : Entry → Str} {k : Str} {l : List Entry} {x : Entry}
    (h : findBy key k l = some x) : x ∈ l ∧ key x = k := by
  unfold findBy at h
  have hsuf := lowerBound_suffix key k l
  cases hl : lowerBound key k l with
  | nil => rw [hl] at h; cases h
  | cons y ys =>
    rw [hl] at h
    simp only at h
    cases hk : strLt k (key y) with
    | true => rw [hk] at h; simp at h
    | false =>
      rw [hk] at h
      simp only [Bool.false_eq_true, if_false, Option.some.injEq] at h
      subst h
      refine ⟨hsuf.subset (by rw [hl]; exact List.mem_cons_self _ _), ?_⟩
      exact strLt_total (lowerBound_head hl) hk

theorem findBy_none_of_forall {key : Entry → Str} {k : Str} {l : List Entry}
    (h : ∀ y ∈ l, key y ≠ k) : findBy key k l = none := by
  cases hf : findBy key k l with
  | none => rfl
  | some x => exact absurd (findBy_some hf).2 (h x (findBy_some hf).1)

theorem strict_unique {key : Entry → Str} {l : List Entry}
    (h : l.Pairwise (fun a b => strLt (key a) (key b) = true)) {x y : Entry}
    (hx : x ∈ l) (hy : y ∈ l) (hk : key x = key y) : x = y := by
  induction l with
  | nil => cases hx
  | cons a as ih =>
    have ha := List.pairwise_cons.mp h
    rcases List.mem_cons.mp hx with h1 | h1
    · rcases List.mem_cons.mp hy with h2 | h2
      · rw [h1, h2]
      · have := ha.1 y h2
        rw [← h1, hk, strLt_irrefl] at this; cases this
    · rcases List.mem_cons.mp hy with h2 | h2
      · have := ha.1 x h1
        rw [← h2, hk, strLt_irrefl] at this; cases this
      · exact ih ha.2 h1 h2

theorem findBy_of_mem {key : Entry → Str} {l : List Entry}
    (h : l.Pairwise (fun a b => strLt (key a) (key b) = true)) {x : Entry} (hx : x ∈ l) :
    findBy key (key x) l = some x := by
  rw [findBy_eq_find _ (strict_sortedBy h)]
  cases hf : l.find? (fun z => key z == key x) with
  | none =>
    have := List.find?_eq_none.mp hf x hx
    simp at this
  | some y =>
    have hy := List.mem_of_find?_eq_some hf
    have hk := List.find?_some hf
    rw [strict_unique h hy hx (eq_of_beq hk)]

theorem findBy_none {key : Entry → Str} {k : Str} {l : List Entry} (h : SortedBy key l)
    (hf : findBy key k l = none) : ∀ y ∈ l, key y ≠ k := by
  rw [findBy_eq_find k h] at hf
  intro y hy he
  have := List.find?_eq_none.mp hf y hy
  simp [he] at this

namespace ElementMap

theorem WF.left_sorted {m : ElementMap} (h : m.WF) : SortedBy Entry.first m.left :=
  strict_sortedBy h.1

theorem WF.mem_right {m : ElementMap} (h : m.WF) {x : Entry} : x ∈ m.right ↔ x ∈ m.left :=
  h.2.2.mem_iff

theorem WF.unique {m : ElementMap} (h : m.WF) {x y : Entry} (hx : x ∈ m.left) (hy : y ∈ m.left)
    (hk : x.first = y.first) : x = y :=
  strict_unique h.1 hx hy hk

theorem empty_WF : empty.WF := by
  simp [WF, empty]

theorem left_find_of_mem {m : ElementMap} (h : m.WF) {x : Entry} (hx : x ∈ m.left) :
    m.left_find x.first = some x :=
  findBy_of_mem h.1 hx

theorem left_insert_WF {m : ElementMap} (h : m.WF) (x : Entry) : (m.left_insert x).1.WF := by
  unfold left_insert
  cases hf : m.left_find x.first with
  | some y => exact h
  | none =>
    refine ⟨insertBy_strict x h.1 (findBy_none h.left_sorted hf), insertBy_sorted x h.2.1, ?_⟩
    exact ((insertBy_perm _ x m.right).trans (List.Perm.cons x h.2.2)).trans
      (insertBy_perm _ x m.left).symm

theorem eraseNodes_WF {m : ElementMap} (h : m.WF) (nodes : List Entry) :
    (m.eraseNodes nodes).WF :=
  ⟨List.Pairwise.filter _ h.1, List.Pairwise.filter _ h.2.1, List.Perm.filter _ h.2.2⟩

theorem eraseNodes_filter {m : ElementMap} (nodes : List Entry) (q : Entry → Bool)
    (hl : ∀ x ∈ m.left, (!nodes.any (fun y => y.first == x.first)) = q x)
    (hr : ∀ x ∈ m.right, (!nodes.any (fun y => y.first == x.first)) = q x) :
    m.eraseNodes nodes = ⟨m.left.filter q, m.right.filter q⟩ := by
  unfold eraseNodes
  rw [List.filter_congr hl, List.filter_congr hr]

theorem left_erase_eq (m : ElementMap) (it : Entry) :
    m.left_erase it = ⟨m.left.filter (fun x => x.first != it.first),
      m.right.filter (fun x => x.first != it.first)⟩ := by
  unfold left_erase
  apply eraseNodes_filter <;> intro x _ <;> simp [bne, eq_comm]

theorem right_equal_range_eq {m : ElementMap} (h : m.WF) (e : Str) :
    m.right_equal_range e = m.right.filter (fun x => x.second == e) :=
  equalRange_eq_filter e h.2.1

theorem right_erase_eq {m : ElementMap} (h : m.WF) (e : Str) :
    m.right_erase e = ⟨m.left.filter (fun x => x.second != e),
      m.right.filter (fun x => x.second != e)⟩ := by
  unfold right_erase
  rw [right_equal_range_eq h]
  have key : ∀ x ∈ m.left,
      (!(m.right.filter (fun x => x.second == e)).any (fun y => y.first == x.first))
        = (x.second != e) := by
    intro x hx
    cases hxe : x.second == e with
    | true =>
      have : (m.right.filter (fun x => x.second == e)).any (fun y => y.first == x.first)
          = true := by
        apply List.any_eq_true.mpr
        exact ⟨x, List.mem_filter.mpr ⟨h.mem_right.mpr hx, hxe⟩, by simp⟩
      simp [this, bne, hxe]
    | false =>
      have : (m.right.filter (fun x => x.second == e)).any (fun y => y.first == x.first)
          = false := by
        apply Bool.eq_false_iff.mpr
        intro hany
        obtain ⟨y, hy, hyx⟩ := List.any_eq_true.mp hany
        have hy' := List.mem_filter.mp hy
        have := h.unique (h.mem_right.mp hy'.1) hx (eq_of_beq hyx)
        subst this
        rw [hy'.2] at hxe
        cases hxe
      simp [this, bne, hxe]
  apply eraseNodes_filter
  · exact key
  · intro x hx
    exact key x (h.mem_right.mp hx)

end ElementMap


theorem ofLog_snoc (log : List Entry) (x : Entry) :
    ofLog (log ++ [x]) = ((ofLog log).left_insert x).1 := by
  simp [ofLog, List.foldl_append]

theorem ofLog_WF (log : List Entry) : (ofLog log).WF := by
  induction log using List.reverseRecOn with
  | nil => exact ElementMap.empty_WF
  | append_singleton l x ih =>
    rw [ofLog_snoc]
    exact ElementMap.left_insert_WF ih x

theorem ElementMap.left_insert_new {m : ElementMap} {x : Entry}
    (h : ∀ y ∈ m.left, y.first ≠ x.first) :
    m.left_insert x = (⟨insertBy Entry.first x m.left, insertBy Entry.second x m.right⟩, x, true) := by
  unfold ElementMap.left_insert ElementMap.left_find
  rw [findBy_none_of_forall h]

theorem ofLog_left_perm {log : List Entry} (h : (log.map Entry.first).Nodup) :
    (ofLog log).left.Perm log := by
  induction log using List.reverseRecOn with
  | nil => exact List.Perm.refl _
  | append_singleton l x ih =>
    rw [List.map_append, List.nodup_append] at h
    have ihl := ih h.1
    have hnew : ∀ y ∈ (ofLog l).left, y.first ≠ x.first := by
      intro y hy he
      have hyl : y ∈ l := ihl.mem_iff.mp hy
      exact h.2.2 (List.mem_map_of_mem _ hyl) (by simp [he])
    rw [ofLog_snoc, ElementMap.left_insert_new hnew]
    exact (insertBy_perm _ x _).trans
      ((List.Perm.cons x ihl).trans (List.perm_append_singleton x l).symm)

theorem ofLog_snoc_new {log : List Entry} {x : Entry}
    (h : ((log ++ [x]).map Entry.first).Nodup) :
    ofLog (log ++ [x]) =
      ⟨insertBy Entry.first x (ofLog log).left, insertBy Entry.second x (ofLog log).right⟩ := by
  rw [List.map_append, List.nodup_append] at h
  have hnew : ∀ y ∈ (ofLog log).left, y.first ≠ x.first := by
    intro y hy he
    have hyl : y ∈ log := (ofLog_left_perm h.1).mem_iff.mp hy
    exact h.2.2 (List.mem_map_of_mem _ hyl) (by simp [he])
  rw [ofLog_snoc, ElementMap.left_insert_new hnew]

theorem ofLog_right_filter {log : List Entry} (h : (log.map Entry.first).Nodup) (e : Str) :
    (ofLog log).right.filter (fun x => x.second == e) = log.filter (fun x => x.second == e) := by
  induction log using List.reverseRecOn with
  | nil => rfl
  | append_singleton l x ih =>
    have hl : (l.map Entry.first).Nodup := by
      rw [List.map_append, List.nodup_append] at h; exact h.1
    rw [ofLog_snoc_new h, List.filter_append]
    simp only
    cases hxe : x.second == e with
    | true =>
      have he : e = x.second := (eq_of_beq hxe).symm
      subst he
      rw [filter_insertBy_key x (ofLog_WF l).2.1, ih hl]
      simp
    | false =>
      rw [filter_insertBy x _ (ofLog_WF l).2.1, ih hl]
      simp [hxe]

theorem ofLog_filter {log : List Entry} (h : (log.map Entry.first).Nodup) (q : Entry → Bool) :
    ofLog (log.filter q) = ⟨(ofLog log).left.filter q, (ofLog log).right.filter q⟩ := by
  induction log using List.reverseRecOn with
  | nil => rfl
  | append_singleton l x ih =>
    have hl : (l.map Entry.first).Nodup := by
      rw [List.map_append, List.nodup_append] at h; exact h.1
    rw [ofLog_snoc_new h, List.filter_append]
    simp only
    rw [filter_insertBy x q (ofLog_WF l).left_sorted, filter_insertBy x q (ofLog_WF l).2.1]
    cases hq : q x with
    | true =>
      have hf : ((l.filter q ++ [x]).map Entry.first).Nodup := by
        have hs : (l.filter q ++ [x]).Sublist (l ++ [x]) :=
          List.Sublist.append (List.filter_sublist l) (List.Sublist.refl [x])
        exact List.Nodup.sublist (List.Sublist.map Entry.first hs) h
      simp only [List.filter_cons, hq, if_true, List.filter_nil]
      rw [ofLog_snoc_new hf, ih hl]
    | false =>
      simp only [List.filter_cons, hq, Bool.false_eq_true, if_false, List.filter_nil,
        List.append_nil]
      exact ih hl

theorem Registered.WF {log : List Entry} {m : ElementMap} (h : Registered log m) : m.WF := by
  rw [h.2]; exact ofLog_WF log

theorem Registered.mem_left {log : List Entry} {m : ElementMap} (h : Registered log m)
    {x : Entry} : x ∈ m.left ↔ x ∈ log := by
  rw [h.2]; exact (ofLog_left_perm h.1).mem_iff

theorem Registered.nil : Registered [] ElementMap.empty :=
  ⟨List.nodup_nil, rfl⟩

theorem Registered.insert {log : List Entry} {m : ElementMap} (h : Registered log m)
    {x : Entry} (hx : ∀ y ∈ m.left, y.first ≠ x.first) :
    Registered (log ++ [x]) (m.left_insert x).1 := by
  refine ⟨?_, ?_⟩
  · rw [List.map_append, List.nodup_append]
    refine ⟨h.1, by simp, ?_⟩
    intro a ha hb
    obtain ⟨y, hy, rfl⟩ := List.mem_map.mp ha
    simp at hb
    exact hx y (h.mem_left.mpr hy) hb
  · rw [ofLog_snoc, ← h.2]

theorem Registered.filter {log : List Entry} {m : ElementMap} (h : Registered log m)
    (q : Entry → Bool) : Registered (log.filter q) ⟨m.left.filter q, m.right.filter q⟩ := by
  refine ⟨List.Nodup.sublist (List.Sublist.map _ (List.filter_sublist log)) h.1, ?_⟩
  rw [ofLog_filter h.1, ← h.2]

/-! ## Lemmas on lookup and registration -/


theorem isMappedElement_none_of_not_marker {n : Str} (h : starts_with n elementMapPrefix = false) :
    isMappedElement (some n) = none := by
  simp [isMappedElement, h]

theorem isMappedElement_marker (r : Str) : isMappedElement (some (';' :: r)) = some r := by
  simp [isMappedElement, starts_with, elementMapPrefix]

theorem strchr_none {s : Str} {c : Char} (h : c ∉ s) : strchr s c = none := by
  induction s with
  | nil => rfl
  | cons a as ih =>
    simp only [List.mem_cons, not_or] at h
    simp [strchr, Ne.symm h.1, ih h.2]

theorem strchr_append {k : Str} {c : Char} (d : Str) (h : c ∉ k) :
    strchr (k ++ c :: d) c = some k.length := by
  induction k with
  | nil => simp [strchr]
  | cons a as ih =>
    simp only [List.mem_cons, not_or] at h
    simp [strchr, Ne.symm h.1, ih h.2]

theorem strchr_takeWhile (s : Str) (c : Char) :
    (match strchr s c with
      | some dot => s.take dot
      | none => s) = s.takeWhile (fun a => a != c) := by
  induction s with
  | nil => rfl
  | cons a as ih =>
    simp only [strchr]
    by_cases hac : a = c
    · simp [hac, List.takeWhile_cons]
    · simp only [hac, if_false, List.takeWhile_cons, bne_iff_ne, ne_eq, not_false_eq_true,
        if_true]
      rw [← ih]
      cases strchr as c <;> simp

theorem filter_key_singleton {key : Entry → Str} {l : List Entry}
    (h : l.Pairwise (fun a b => strLt (key a) (key b) = true)) {y : Entry} (hy : y ∈ l) :
    l.filter (fun x => key x == key y) = [y] := by
  induction l with
  | nil => cases hy
  | cons a as ih =>
    have ha := List.pairwise_cons.mp h
    rcases List.mem_cons.mp hy with h1 | h1
    · subst h1
      have hnil : as.filter (fun x => key x == key y) = [] := by
        apply List.filter_eq_nil_iff.mpr
        intro z hz he
        have := ha.1 z hz
        rw [eq_of_beq he, strLt_irrefl] at this
        cases this
      simp [List.filter_cons, hnil]
    · have hne : (key a == key y) = false := by
        apply Bool.eq_false_iff.mpr
        intro he
        have := ha.1 y h1
        rw [eq_of_beq he, strLt_irrefl] at this
        cases this
      simp [List.filter_cons, hne, ih ha.2 h1]

theorem length_filter_add (q : Entry → Bool) (l : List Entry) :
    (l.filter q).length + (l.filter (fun x => !q x)).length = l.length := by
  induction l with
  | nil => rfl
  | cons a as ih =>
    cases hq : q a <;> simp [List.filter_cons, hq] <;> omega

theorem length_filter_key_ne {key : Entry → Str} {l : List Entry}
    (h : l.Pairwise (fun a b => strLt (key a) (key b) = true)) {y : Entry} (hy : y ∈ l) :
    (l.filter (fun x => key x != key y)).length + 1 = l.length := by
  have h1 := filter_key_singleton h hy
  have h2 := length_filter_add (fun x => key x == key y) l
  rw [h1] at h2
  simp only [List.length_singleton] at h2
  have h3 : (fun x => key x != key y) = (fun x => !(key x == key y)) := rfl
  rw [h3]
  omega

theorem length_insertBy (key : Entry → Str) (x : Entry) (l : List Entry) :
    (insertBy key x l).length = l.length + 1 := by
  rw [(insertBy_perm key x l).length_eq, List.length_cons]


namespace ComplexGeoData

theorem insertRelation_new (self : ComplexGeoData) {m : ElementMap} {name : Str} (element : Str)
    (sid : List StringIDRef) (overwrite : Bool) (h : ∀ y ∈ m.left, y.first ≠ name) :
    self.insertRelation m name element sid overwrite =
      ⟨.ok name, ⟨some ⟨insertBy Entry.first ⟨name, element, sid⟩ m.left,
        insertBy Entry.second ⟨name, element, sid⟩ m.right⟩, self.Hasher⟩⟩ := by
  have hins := ElementMap.left_insert_new (x := ⟨name, element, sid⟩) h
  simp [insertRelation, hins]

theorem insertRelation_same (self : ComplexGeoData) {m : ElementMap} {name element : Str}
    {s : List StringIDRef} (sid : List StringIDRef) (overwrite : Bool) (hwf : m.WF)
    (hmem : (⟨name, element, s⟩ : Entry) ∈ m.left) :
    self.insertRelation m name element sid overwrite = ⟨.ok name, ⟨some m, self.Hasher⟩⟩ := by
  have hfind := ElementMap.left_find_of_mem hwf hmem
  simp only at hfind
  simp [insertRelation, ElementMap.left_insert, hfind]

theorem insertRelation_duplicate (self : ComplexGeoData) {m : ElementMap} {name e1 : Str}
    {s : List StringIDRef} (element : Str) (sid : List StringIDRef) (hwf : m.WF)
    (hmem : (⟨name, e1, s⟩ : Entry) ∈ m.left) (hne : element ≠ e1) :
    self.insertRelation m name element sid false =
      ⟨.error (.ValueError (duplicateMessage name element e1)), ⟨some m, self.Hasher⟩⟩ := by
  have hfind := ElementMap.left_find_of_mem hwf hmem
  simp only at hfind
  simp [insertRelation, ElementMap.left_insert, hfind, Ne.symm hne]

theorem insertRelation_overwrite (self : ComplexGeoData) {m : ElementMap} {name e1 : Str}
    {s : List StringIDRef} (element : Str) (sid : List StringIDRef) (hwf : m.WF)
    (hmem : (⟨name, e1, s⟩ : Entry) ∈ m.left) (hne : element ≠ e1) :
    self.insertRelation m name element sid true =
      ⟨.ok name, ⟨some
        ⟨insertBy Entry.first ⟨name, element, sid⟩ (m.left.filter (fun x => x.first != name)),
         insertBy Entry.second ⟨name, element, sid⟩ (m.right.filter (fun x => x.first != name))⟩,
        self.Hasher⟩⟩ := by
  have hfind := ElementMap.left_find_of_mem hwf hmem
  simp only at hfind
  have hnew : ∀ y ∈ (m.left_erase ⟨name, e1, s⟩).left,
      y.first ≠ (⟨name, element, sid⟩ : Entry).first := by
    intro y hy
    rw [ElementMap.left_erase_eq] at hy
    simpa using (List.mem_filter.mp hy).2
  have hins := ElementMap.left_insert_new hnew
  rw [ElementMap.left_erase_eq] at hins
  simp only at hins
  simp only [insertRelation, ElementMap.left_insert, hfind, ElementMap.left_erase_eq]
  simp only [ElementMap.left_insert, ElementMap.left_erase_eq] at hins
  simp [Ne.symm hne, hins]


theorem setElementName_unhashed (self : ComplexGeoData) {element name : Str}
    (sid : Option (List StringIDRef)) (overwrite : Bool)
    (he : element ≠ []) (hn : name ≠ [])
    (hhash : self.Hasher = none ∨ (sid ≠ none ∧ sid ≠ some [])) :
    self.setElementName (some element) (some name) sid overwrite =
      insertRelation ⟨some (self._ElementMap.getD ElementMap.empty), self.Hasher⟩
        (self._ElementMap.getD ElementMap.empty) ((isMappedElement (some name)).getD name)
        element (sid.getD []) overwrite := by
  obtain ⟨em, hs⟩ := self
  cases element with
  | nil => exact absurd rfl he
  | cons c cs =>
    cases name with
    | nil => exact absurd rfl hn
    | cons n0 ns =>
      have hcond : ¬ ((sid = none ∨ sid = some []) ∧ hs ≠ none) := by
        rintro ⟨h1, h2⟩
        rcases hhash with h | h
        · exact h2 h
        · rcases h1 with h1 | h1
          · exact h.1 h1
          · exact h.2 h1
      simp only [setElementName, hcond, if_false]
      cases em <;> cases sid <;> cases isMappedElement (some (n0 :: ns)) <;> rfl

theorem setElementName_plain (self : ComplexGeoData) {element name : Str}
    (sid : Option (List StringIDRef)) (overwrite : Bool)
    (he : element ≠ []) (hn : name ≠ []) (hmark : starts_with name elementMapPrefix = false)
    (hhash : self.Hasher = none ∨ (sid ≠ none ∧ sid ≠ some [])) :
    self.setElementName (some element) (some name) sid overwrite =
      insertRelation ⟨some (self._ElementMap.getD ElementMap.empty), self.Hasher⟩
        (self._ElementMap.getD ElementMap.empty) name element (sid.getD []) overwrite := by
  rw [setElementName_unhashed self sid overwrite he hn hhash,
    isMappedElement_none_of_not_marker hmark]
  rfl

theorem setElementName_hashed (self : ComplexGeoData) (h : StringHasher) (e0 : Char) (es : Str)
    {name : Str} (sid : Option (List StringIDRef)) (overwrite : Bool)
    (hH : self.Hasher = some h) (hn : name ≠ []) (hsid : sid = none ∨ sid = some []) :
    self.setElementName (some (e0 :: es)) (some name) sid overwrite =
      insertRelation
        ⟨some (self._ElementMap.getD ElementMap.empty),
          some (h.getID ((isMappedElement (some name)).getD name)).2⟩
        (self._ElementMap.getD ElementMap.empty)
        ('#' :: e0 :: Nat.toDigits 10 (h.getID ((isMappedElement (some name)).getD name)).1.value)
        (e0 :: es) [(h.getID ((isMappedElement (some name)).getD name)).1] overwrite := by
  obtain ⟨em, hs⟩ := self
  simp only at hH
  subst hH
  cases name with
  | nil => exact absurd rfl hn
  | cons n0 ns =>
    have hcond : (sid = none ∨ sid = some []) ∧ some h ≠ none := ⟨hsid, by simp⟩
    simp only [setElementName, hcond, if_true, hashElementName]
    cases em <;> cases isMappedElement (some (n0 :: ns)) <;> rfl

end ComplexGeoData

namespace ComplexGeoData

theorem getElementName_forward (self : ComplexGeoData) {m : ElementMap} (txt : Str)
    (sid : Option (List StringIDRef)) (hmap : self._ElementMap = some m) :
    self.getElementName (some (';' :: txt)) false sid =
      match m.left_find (txt.takeWhile (fun a => a != '.')) with
      | none => (some (';' :: txt), sid)
      | some it => (some it.second, sid.map (fun acc => acc ++ it.info)) := by
  obtain ⟨em, hs⟩ := self
  simp only at hmap
  subst hmap
  simp only [getElementName, isMappedElement_marker, Bool.false_eq_true, if_false,
    strchr_takeWhile]

theorem getElementName_reverse (self : ComplexGeoData) {m : ElementMap} (e : Str)
    (sid : Option (List StringIDRef)) (hmap : self._ElementMap = some m) :
    self.getElementName (some e) true sid =
      match m.right_find e with
      | none => (some e, sid)
      | some it => (some it.first, sid.map (fun acc => acc ++ it.info)) := by
  obtain ⟨em, hs⟩ := self
  simp only at hmap
  subst hmap
  simp only [getElementName, if_true]

theorem getElementName_hit (self : ComplexGeoData) {m : ElementMap} {x : Entry}
    (sid : Option (List StringIDRef)) (hmap : self._ElementMap = some m) (hwf : m.WF)
    (hx : x ∈ m.left) (hdot : '.' ∉ x.first) :
    self.getElementName (some (';' :: x.first)) false sid =
      (some x.second, sid.map (fun acc => acc ++ x.info)) := by
  rw [getElementName_forward self _ sid hmap]
  have htw : x.first.takeWhile (fun a => a != '.') = x.first := by
    apply List.takeWhile_eq_self_iff.mpr
    intro a ha
    simp only [bne_iff_ne, ne_eq]
    intro hh
    exact hdot (hh ▸ ha)
  rw [htw, ElementMap.left_find_of_mem hwf hx]

end ComplexGeoData

theorem head_filter_eq_find (q : Entry → Bool) (l : List Entry) :
    (l.filter q).head? = l.find? q := by
  induction l with
  | nil => rfl
  | cons a as ih => cases hq : q a <;> simp [List.filter_cons, List.find?_cons, hq, ih]

theorem Registered.right_find {log : List Entry} {m : ElementMap} (h : Registered log m)
    (e : Str) : m.right_find e = log.find? (fun x => x.second == e) := by
  unfold ElementMap.right_find
  rw [findBy_eq_head, equalRange_eq_filter e h.WF.2.1, h.2, ofLog_right_filter h.1,
    head_filter_eq_find]

theorem Registered.right_equal_range {log : List Entry} {m : ElementMap}
    (h : Registered log m) (e : Str) :
    m.right_equal_range e = log.filter (fun x => x.second == e) := by
  rw [ElementMap.right_equal_range_eq h.WF, h.2, ofLog_right_filter h.1]

namespace ComplexGeoData

/-- The ways in which `setElementName` leaves the host: untouched, with the
relations of one original name erased, or as `insertRelation` leaves it. -/
theorem setElementName_cases (self : ComplexGeoData) (element name : Option Str)
    (sid : Option (List StringIDRef)) (overwrite : Bool) :
    (self.setElementName element name sid overwrite).self = self ∨
    (∃ m e, self._ElementMap = some m ∧ element = some e ∧
      (self.setElementName element name sid overwrite).self
        = ⟨some (m.right_erase e), self.Hasher⟩) ∨
    (∃ e nm ids H, element = some e ∧
      self.setElementName element name sid overwrite =
        insertRelation ⟨some (self._ElementMap.getD ElementMap.empty), H⟩
          (self._ElementMap.getD ElementMap.empty) nm e ids overwrite) := by
  cases element with
  | none => exact Or.inl rfl
  | some el =>
    cases el with
    | nil => exact Or.inl rfl
    | cons e0 es =>
      cases name with
      | none =>
        cases hm : self._ElementMap with
        | none => left; simp [setElementName, hm]
        | some m => right; left; exact ⟨m, _, rfl, rfl, by simp [setElementName, hm]⟩
      | some nm =>
        cases nm with
        | nil =>
          cases hm : self._ElementMap with
          | none => left; simp [setElementName, hm]
          | some m => right; left; exact ⟨m, _, rfl, rfl, by simp [setElementName, hm]⟩
        | cons n0 ns =>
          right; right
          by_cases hh : (sid = none ∨ sid = some []) ∧ self.Hasher ≠ none
          · obtain ⟨hsid, hH⟩ := hh
            obtain ⟨h, hh'⟩ := Option.ne_none_iff_exists'.mp hH
            exact ⟨_, _, _, _, rfl,
              setElementName_hashed self h e0 es sid overwrite hh' (by simp) hsid⟩
          · have hh' : self.Hasher = none ∨ (sid ≠ none ∧ sid ≠ some []) := by
              by_cases h1 : self.Hasher = none
              · exact Or.inl h1
              · right
                constructor
                · intro h2; exact hh ⟨Or.inl h2, h1⟩
                · intro h2; exact hh ⟨Or.inr h2, h1⟩
            exact ⟨_, _, _, _, rfl,
              setElementName_unhashed self sid overwrite (by simp) (by simp) hh'⟩

/-- The ways in which `insertRelation` leaves the map. -/
theorem insertRelation_cases (self : ComplexGeoData) (m : ElementMap) (name element : Str)
    (sid : List StringIDRef) (overwrite : Bool) (hwf : m.WF) :
    (self.insertRelation m name element sid overwrite).self = ⟨some m, self.Hasher⟩ ∨
    (self.insertRelation m name element sid overwrite).self =
        ⟨some ⟨insertBy Entry.first ⟨name, element, sid⟩
            (m.left.filter (fun x => x.first != name)),
          insertBy Entry.second ⟨name, element, sid⟩
            (m.right.filter (fun x => x.first != name))⟩, self.Hasher⟩ := by
  cases hf : m.left_find name with
  | none =>
    right
    have hnone := findBy_none hwf.left_sorted hf
    rw [insertRelation_new self element sid overwrite hnone]
    have h1 : m.left.filter (fun x => x.first != name) = m.left :=
      List.filter_eq_self.mpr (fun y hy => by simpa using hnone y hy)
    have h2 : m.right.filter (fun x => x.first != name) = m.right :=
      List.filter_eq_self.mpr (fun y hy => by simpa using hnone y (hwf.mem_right.mp hy))
    rw [h1, h2]
  | some y =>
    obtain ⟨hy, hyk⟩ := findBy_some hf
    have hmem : (⟨name, y.second, y.info⟩ : Entry) ∈ m.left := by
      rw [← hyk]; exact hy
    by_cases he : element = y.second
    · left
      rw [he, insertRelation_same self sid overwrite hwf hmem]
    · cases overwrite with
      | false =>
        left
        rw [insertRelation_duplicate self element sid hwf hmem he]
      | true =>
        right
        rw [insertRelation_overwrite self element sid hwf hmem he]

end ComplexGeoData

namespace ComplexGeoData

/-- Every call of `setElementName` keeps the representation invariant. -/
theorem setElementName_WF (self : ComplexGeoData) (element name : Option Str)
    (sid : Option (List StringIDRef)) (overwrite : Bool)
    (h : ∀ m, self._ElementMap = some m → m.WF) :
    ∀ m, (self.setElementName element name sid overwrite).self._ElementMap = some m → m.WF := by
  have h0 : (self._ElementMap.getD ElementMap.empty).WF := by
    cases hm : self._ElementMap with
    | none => exact ElementMap.empty_WF
    | some m => exact h m hm
  intro m' hm'
  rcases setElementName_cases self element name sid overwrite with hc | hc | hc
  · rw [hc] at hm'; exact h m' hm'
  · obtain ⟨m, e, hm, _, hout⟩ := hc
    rw [hout] at hm'
    simp only [Option.some.injEq] at hm'
    rw [← hm']
    exact ElementMap.eraseNodes_WF (h m hm) _
  · obtain ⟨e, nm, ids, H, _, hout⟩ := hc
    rw [hout] at hm'
    rcases insertRelation_cases ⟨some (self._ElementMap.getD ElementMap.empty), H⟩ _ nm e ids
      overwrite h0 with hi | hi
    · rw [hi] at hm'
      simp only [Option.some.injEq] at hm'
      rw [← hm']; exact h0
    · rw [hi] at hm'
      simp only [Option.some.injEq] at hm'
      rw [← hm']
      have hnew : ∀ y ∈ ((self._ElementMap.getD ElementMap.empty).eraseNodes
          [⟨nm, e, ids⟩]).left, y.first ≠ (⟨nm, e, ids⟩ : Entry).first := by
        intro y hy
        have : (self._ElementMap.getD ElementMap.empty).eraseNodes [⟨nm, e, ids⟩]
            = (self._ElementMap.getD ElementMap.empty).left_erase ⟨nm, e, ids⟩ := rfl
        rw [this, ElementMap.left_erase_eq] at hy
        simpa using (List.mem_filter.mp hy).2
      have h1 := ElementMap.left_insert_WF (ElementMap.eraseNodes_WF h0 [⟨nm, e, ids⟩])
        ⟨nm, e, ids⟩
      rw [ElementMap.left_insert_new hnew] at h1
      have h2 : (self._ElementMap.getD ElementMap.empty).eraseNodes [⟨nm, e, ids⟩]
            = (self._ElementMap.getD ElementMap.empty).left_erase ⟨nm, e, ids⟩ := rfl
      rw [h2, ElementMap.left_erase_eq] at h1
      exact h1

/-- How the registration log of a host evolves under `setElementName`: it stays
as it is, or the relations of the element are removed, or a relation of the
element is appended at the end after the relation with its mapped name, if any,
was removed. -/
theorem setElementName_holds (self : ComplexGeoData) (element name : Option Str)
    (sid : Option (List StringIDRef)) (overwrite : Bool) (log : List Entry)
    (h : self.Holds log) :
    ∃ log', (self.setElementName element name sid overwrite).self.Holds log' ∧
      (log' = log ∨
       (∃ e, element = some e ∧ log' = log.filter (fun x => x.second != e)) ∨
       (∃ e x, element = some e ∧ x.second = e ∧
          log' = log.filter (fun y => y.first != x.first) ++ [x])) := by
  have h0 : Registered log (self._ElementMap.getD ElementMap.empty) := by
    unfold Holds at h
    cases hm : self._ElementMap with
    | none => rw [hm] at h; simp only at h; rw [h]; exact Registered.nil
    | some m => rw [hm] at h; exact h
  rcases setElementName_cases self element name sid overwrite with hc | hc | hc
  · exact ⟨log, by rw [hc]; exact h, Or.inl rfl⟩
  · obtain ⟨m, e, hm, he, hout⟩ := hc
    refine ⟨log.filter (fun x => x.second != e), ?_, Or.inr (Or.inl ⟨e, he, rfl⟩)⟩
    rw [hout]
    unfold Holds at h ⊢
    rw [hm] at h
    simp only at h ⊢
    rw [ElementMap.right_erase_eq h.WF]
    exact h.filter _
  · obtain ⟨e, nm, ids, H, he, hout⟩ := hc
    rw [hout]
    rcases insertRelation_cases ⟨some (self._ElementMap.getD ElementMap.empty), H⟩ _ nm e ids
      overwrite h0.WF with hi | hi
    · exact ⟨log, by rw [hi]; exact h0, Or.inl rfl⟩
    · refine ⟨log.filter (fun y => y.first != nm) ++ [⟨nm, e, ids⟩], ?_,
        Or.inr (Or.inr ⟨e, ⟨nm, e, ids⟩, he, rfl, rfl⟩)⟩
      rw [hi]
      unfold Holds
      simp only
      have hf := h0.filter (fun y => y.first != nm)
      have hnew : ∀ y ∈ (ElementMap.mk
          ((self._ElementMap.getD ElementMap.empty).left.filter (fun y => y.first != nm))
          ((self._ElementMap.getD ElementMap.empty).right.filter
            (fun y => y.first != nm))).left, y.first ≠ (⟨nm, e, ids⟩ : Entry).first := by
        intro y hy
        simpa using (List.mem_filter.mp hy).2
      have hins := hf.insert hnew
      rw [ElementMap.left_insert_new hnew] at hins
      exact hins

end ComplexGeoData

/-- The sample map satisfies the representation invariant. -/
theorem sampleMap_WF : sampleMap.WF := by decide

/-- The sample host holds the sample log, in its order. -/
theorem sampleHost_holds : sampleHost.Holds sampleLog := by decide

/-- A host without map holds the empty log, whatever its hasher. -/
theorem fresh_holds (hasher : Option StringHasher) :
    (ComplexGeoData.mk none hasher).Holds [] := rfl

/-! ## The claims -/

open ComplexGeoData

/-- C1, amended: on a host without hasher whose map holds the relation of a
non-empty mapped name `k`, not starting with the marker, to `e1`, registering `k`
for a non-empty element `e2` other than `e1` without `overwrite` throws a
`ValueError` whose message is `duplicate element mapping 'k->e2/e1`, and the host,
hence its map, is left exactly as it was. -/
theorem C1_duplicate_rejected (self : ComplexGeoData) (m : ElementMap) (k e1 e2 : Str)
    (s : List StringIDRef) (sids : Option (List StringIDRef))
    (hmap : self._ElementMap = some m) (hwf : m.WF) (hhash : self.Hasher = none)
    (hmem : (⟨k, e1, s⟩ : Entry) ∈ m.left)
    (hk : k ≠ []) (hmark : starts_with k elementMapPrefix = false)
    (he2 : e2 ≠ []) (hne : e2 ≠ e1) :
    self.setElementName (some e2) (some k) sids false =
      ⟨.error (.ValueError
        ("duplicate element mapping '".toList ++ k ++ "->".toList ++ e2 ++ "/".toList ++ e1)),
        self⟩ := by
  rw [setElementName_plain self sids false he2 hk hmark (Or.inl hhash), hmap]
  simp only [Option.getD_some]
  rw [insertRelation_duplicate _ e2 _ hwf hmem hne]
  obtain ⟨em, hs⟩ := self
  simp only at hmap
  subst hmap
  rfl

/-- C1 at a concrete input: `foo` is held for `Face1` and is refused for `Face2`. -/
theorem C1_duplicate_rejected_witness :
    sampleHost.setElementName (some "Face2".toList) (some "foo".toList) none false =
      ⟨.error (.ValueError
        ("duplicate element mapping '".toList ++ "foo".toList ++ "->".toList ++ "Face2".toList
          ++ "/".toList ++ "Face1".toList)), sampleHost⟩ :=
  C1_duplicate_rejected sampleHost sampleMap "foo".toList "Face1".toList "Face2".toList [] none
    rfl (by decide) rfl (by decide) (by decide) (by decide) (by decide) (by decide)

/-- C1 as stated fails for the empty mapped name: registering `;` for `Face1` on
a fresh host stores the empty string as mapped name, and a following
`setElementName("Face2", "")` does not throw but returns `Face2`, being a
deletion by original name. -/
theorem C1_counterexample :
    (ComplexGeoData.mk none none).setElementName (some "Face1".toList) (some ";".toList) none false
      = ⟨.ok [], ComplexGeoData.mk
          (some ⟨[⟨[], "Face1".toList, []⟩], [⟨[], "Face1".toList, []⟩]⟩) none⟩ ∧
    (ComplexGeoData.mk (some ⟨[⟨[], "Face1".toList, []⟩], [⟨[], "Face1".toList, []⟩]⟩)
        none).setElementName (some "Face2".toList) (some []) none false
      = ⟨.ok "Face2".toList, ComplexGeoData.mk
          (some ⟨[⟨[], "Face1".toList, []⟩], [⟨[], "Face1".toList, []⟩]⟩) none⟩ := by
  constructor <;> rfl

/-- C2, amended: when the map holds the relation of a non-empty mapped name `k`,
not starting with the marker, to `e1`, and the host has no hasher or the call
supplies string ids, registering `k` for a non-empty element `e2` other than
`e1` with `overwrite` returns `k` and leaves the hasher alone; the map afterwards
holds `k -> e2` with the supplied string ids as its only relation of `k`, so that
`getElementMappedNames(e1, false)` does not list `k`, it has the size it had,
and its relations of other mapped names are those it had. -/
theorem C2_overwrite_replaces (self : ComplexGeoData) (m : ElementMap) (k e1 e2 : Str)
    (s : List StringIDRef) (sids : Option (List StringIDRef))
    (hmap : self._ElementMap = some m) (hwf : m.WF)
    (hhash : self.Hasher = none ∨ (sids ≠ none ∧ sids ≠ some []))
    (hmem : (⟨k, e1, s⟩ : Entry) ∈ m.left)
    (hk : k ≠ []) (hmark : starts_with k elementMapPrefix = false)
    (he2 : e2 ≠ []) (hne : e2 ≠ e1) :
    ∃ m', self.setElementName (some e2) (some k) sids true = ⟨.ok k, ⟨some m', self.Hasher⟩⟩ ∧
      m'.WF ∧
      (⟨k, e2, sids.getD []⟩ : Entry) ∈ m'.left ∧
      (∀ x ∈ m'.left, x.first = k → x = ⟨k, e2, sids.getD []⟩) ∧
      (∀ p ∈ getElementMappedNames ⟨some m', self.Hasher⟩ e1 false, p.1 ≠ k) ∧
      m'.size = m.size ∧
      (∀ x : Entry, x.first ≠ k → (x ∈ m'.left ↔ x ∈ m.left)) := by
  rw [setElementName_plain self sids true he2 hk hmark hhash, hmap]
  simp only [Option.getD_some]
  rw [insertRelation_overwrite _ e2 _ hwf hmem hne]
  refine ⟨_, rfl, ?_⟩
  have hnew : ∀ y ∈ (m.left_erase ⟨k, e1, s⟩).left, y.first ≠ k := by
    intro y hy
    rw [ElementMap.left_erase_eq] at hy
    simpa using (List.mem_filter.mp hy).2
  have hwf' : (ElementMap.mk
      (insertBy Entry.first ⟨k, e2, sids.getD []⟩ (m.left.filter (fun x => x.first != k)))
      (insertBy Entry.second ⟨k, e2, sids.getD []⟩
        (m.right.filter (fun x => x.first != k)))).WF := by
    have h1 := ElementMap.left_insert_WF
      (ElementMap.eraseNodes_WF hwf [⟨k, e1, s⟩]) ⟨k, e2, sids.getD []⟩
    have h2 := ElementMap.left_insert_new (x := ⟨k, e2, sids.getD []⟩) hnew
    rw [show m.eraseNodes [⟨k, e1, s⟩] = m.left_erase ⟨k, e1, s⟩ from rfl, h2,
      ElementMap.left_erase_eq] at h1
    exact h1
  have huniq : ∀ x ∈ insertBy Entry.first ⟨k, e2, sids.getD []⟩
      (m.left.filter (fun x => x.first != k)), x.first = k → x = ⟨k, e2, sids.getD []⟩ := by
    intro x hx hxk
    rcases mem_insertBy.mp hx with h | h
    · exact h
    · have := (List.mem_filter.mp h).2
      simp [hxk] at this
  refine ⟨hwf', mem_insertBy.mpr (Or.inl rfl), huniq, ?_, ?_, ?_⟩
  · intro p hp hpk
    simp only [getElementMappedNames] at hp
    split at hp
    · rename_i hlen
      obtain ⟨x, hx, rfl⟩ := List.mem_map.mp hp
      rw [ElementMap.right_equal_range_eq hwf'] at hx
      have hx' := List.mem_filter.mp hx
      have hxl := hwf'.mem_right.mp hx'.1
      have := huniq x hxl hpk
      rw [this] at hx'
      exact hne (eq_of_beq hx'.2)
    · simp at hp
  · simp only [ElementMap.size, length_insertBy]
    exact length_filter_key_ne hwf.1 hmem
  · intro x hxk
    rw [mem_insertBy, List.mem_filter]
    constructor
    · rintro (h | h)
      · rw [h] at hxk; exact absurd rfl hxk
      · exact h.1
    · intro h
      exact Or.inr ⟨h, by simpa using hxk⟩

/-- C2 at a concrete input: `foo`, held for `Face1`, is taken over by `Face2`. -/
theorem C2_overwrite_replaces_witness :
    ∃ m', sampleHost.setElementName (some "Face2".toList) (some "foo".toList) none true
        = ⟨.ok "foo".toList, ⟨some m', sampleHost.Hasher⟩⟩ ∧
      m'.WF ∧
      (⟨"foo".toList, "Face2".toList, (none : Option (List StringIDRef)).getD []⟩ : Entry)
        ∈ m'.left ∧
      (∀ x ∈ m'.left, x.first = "foo".toList →
        x = ⟨"foo".toList, "Face2".toList, (none : Option (List StringIDRef)).getD []⟩) ∧
      (∀ p ∈ getElementMappedNames ⟨some m', sampleHost.Hasher⟩ "Face1".toList false,
        p.1 ≠ "foo".toList) ∧
      m'.size = sampleMap.size ∧
      (∀ x : Entry, x.first ≠ "foo".toList → (x ∈ m'.left ↔ x ∈ sampleMap.left)) :=
  C2_overwrite_replaces sampleHost sampleMap "foo".toList "Face1".toList "Face2".toList [] none
    rfl (by decide) (Or.inl rfl) (by decide) (by decide) (by decide) (by decide) (by decide)

/-- C2 as stated fails in three ways. With a hasher and no string ids supplied
the name is hashed: `foo -> Face1` stays and `#E1 -> Edge2` is added. A name that
starts with the marker loses it: `;foo -> Face1` stays and `foo -> Face2` is
added. The empty name means deletion: `"" -> Face1` stays and nothing is
registered. -/
theorem C2_counterexample :
    (ComplexGeoData.mk (some ⟨[⟨"foo".toList, "Face1".toList, []⟩],
        [⟨"foo".toList, "Face1".toList, []⟩]⟩) (some ⟨[], 0, 0⟩)).setElementName
        (some "Edge2".toList) (some "foo".toList) none true
      = ⟨.ok "#E1".toList, ComplexGeoData.mk
          (some ⟨[⟨"#E1".toList, "Edge2".toList, [⟨1⟩]⟩, ⟨"foo".toList, "Face1".toList, []⟩],
            [⟨"#E1".toList, "Edge2".toList, [⟨1⟩]⟩, ⟨"foo".toList, "Face1".toList, []⟩]⟩)
          (some ⟨["foo".toList], 0, 0⟩)⟩ ∧
    (ComplexGeoData.mk (some ⟨[⟨";foo".toList, "Face1".toList, []⟩],
        [⟨";foo".toList, "Face1".toList, []⟩]⟩) none).setElementName
        (some "Face2".toList) (some ";foo".toList) none true
      = ⟨.ok "foo".toList, ComplexGeoData.mk
          (some ⟨[⟨";foo".toList, "Face1".toList, []⟩, ⟨"foo".toList, "Face2".toList, []⟩],
            [⟨";foo".toList, "Face1".toList, []⟩, ⟨"foo".toList, "Face2".toList, []⟩]⟩)
          none⟩ ∧
    (ComplexGeoData.mk (some ⟨[⟨[], "Face1".toList, []⟩], [⟨[], "Face1".toList, []⟩]⟩)
        none).setElementName (some "Face2".toList) (some []) none true
      = ⟨.ok "Face2".toList, ComplexGeoData.mk
          (some ⟨[⟨[], "Face1".toList, []⟩], [⟨[], "Face1".toList, []⟩]⟩) none⟩ := by
  refine ⟨?_, ?_, ?_⟩ <;> rfl

/-- C3, amended: for non-empty `e` and `n`, the registration `setElementName(e, n)`
on a host whose map is absent or empty, with or without a hasher, succeeds and
returns the stored mapped name `r`; the reverse lookup of `e` returns `r`, and
when `r` contains no `.` the forward lookup of `r` behind the marker returns
`e`. -/
theorem C3_round_trip_with_marker (hasher : Option StringHasher) (m0 : Option ElementMap)
    (e n : Str) (sid : Option (List StringIDRef)) (overwrite : Bool)
    (hm0 : m0 = none ∨ m0 = some ElementMap.empty) (he : e ≠ []) (hn : n ≠ []) :
    ∃ r, (setElementName ⟨m0, hasher⟩ (some e) (some n) sid overwrite).ret = .ok r ∧
      ((setElementName ⟨m0, hasher⟩ (some e) (some n) sid overwrite).self.getElementName
        (some e) true none).1 = some r ∧
      ('.' ∉ r →
        ((setElementName ⟨m0, hasher⟩ (some e) (some n) sid overwrite).self.getElementName
          (some (';' :: r)) false none).1 = some e) := by
  have hget : (ComplexGeoData.mk m0 hasher)._ElementMap.getD ElementMap.empty
      = ElementMap.empty := by
    rcases hm0 with h | h <;> rw [h] <;> rfl
  have hsingle : ∀ (x : Entry) (H : Option StringHasher),
      ((ComplexGeoData.mk (some ⟨insertBy Entry.first x ElementMap.empty.left,
          insertBy Entry.second x ElementMap.empty.right⟩) H).getElementName
            (some x.second) true none).1 = some x.first ∧
      ('.' ∉ x.first →
        ((ComplexGeoData.mk (some ⟨insertBy Entry.first x ElementMap.empty.left,
          insertBy Entry.second x ElementMap.empty.right⟩) H).getElementName
            (some (';' :: x.first)) false none).1 = some x.second) := by
    intro x H
    have hwf : (ElementMap.mk [x] [x]).WF := by simp [ElementMap.WF]
    constructor
    · rw [getElementName_reverse _ _ _ rfl]
      have : (ElementMap.mk (insertBy Entry.first x ElementMap.empty.left)
          (insertBy Entry.second x ElementMap.empty.right)).right_find x.second = some x := by
        simp [ElementMap.right_find, ElementMap.empty, insertBy, findBy, lowerBound,
          strLt_irrefl]
      rw [this]
    · intro hdot
      have := getElementName_hit (ComplexGeoData.mk (some ⟨[x], [x]⟩) H) none rfl hwf
        (List.mem_singleton.mpr rfl) hdot
      simp only [ElementMap.empty, insertBy]
      rw [this]
  have hempty : ∀ k : Str, ∀ y ∈ ElementMap.empty.left, y.first ≠ k := by
    intro k y hy
    simp [ElementMap.empty] at hy
  by_cases hh : (sid = none ∨ sid = some []) ∧ hasher ≠ none
  · obtain ⟨hsid, hH⟩ := hh
    obtain ⟨h, rfl⟩ := Option.ne_none_iff_exists'.mp hH
    cases e with
    | nil => exact absurd rfl he
    | cons e0 es =>
      rw [setElementName_hashed _ h e0 es sid overwrite rfl hn hsid, hget,
        insertRelation_new _ _ _ _ (hempty _)]
      exact ⟨_, rfl, hsingle ⟨_, e0 :: es, _⟩ _⟩
  · have hh' : (ComplexGeoData.mk m0 hasher).Hasher = none ∨ (sid ≠ none ∧ sid ≠ some []) := by
      by_cases h1 : hasher = none
      · exact Or.inl h1
      · right
        constructor
        · intro h2; exact hh ⟨Or.inl h2, h1⟩
        · intro h2; exact hh ⟨Or.inr h2, h1⟩
    rw [setElementName_unhashed _ sid overwrite he hn hh', hget,
      insertRelation_new _ _ _ _ (hempty _)]
    exact ⟨_, rfl, hsingle ⟨_, e, _⟩ _⟩

/-- C3 at a concrete input: `Face3` registered under the name `Face3` on a fresh
host with an empty hasher. -/
theorem C3_round_trip_with_marker_witness :
    ∃ r, (setElementName ⟨none, some ⟨[], 0, 0⟩⟩ (some "Face3".toList) (some "Face3".toList)
          none false).ret = .ok r ∧
      ((setElementName ⟨none, some ⟨[], 0, 0⟩⟩ (some "Face3".toList) (some "Face3".toList)
          none false).self.getElementName (some "Face3".toList) true none).1 = some r ∧
      ('.' ∉ r →
        ((setElementName ⟨none, some ⟨[], 0, 0⟩⟩ (some "Face3".toList) (some "Face3".toList)
          none false).self.getElementName (some (';' :: r)) false none).1
            = some "Face3".toList) :=
  C3_round_trip_with_marker (some ⟨[], 0, 0⟩) none "Face3".toList "Face3".toList none false
    (Or.inl rfl) (by decide) (by decide)

/-- C3 as stated fails: after `setElementName("Face3", "foo")` on a fresh host
without hasher the reverse lookup of `Face3` gives `foo`, whose forward lookup
gives `foo` again, not `Face3`; with a hasher both give `#F1`. -/
theorem C3_counterexample :
    (((ComplexGeoData.mk none none).setElementName (some "Face3".toList) (some "foo".toList)
        none false).self.getElementName
      (((ComplexGeoData.mk none none).setElementName (some "Face3".toList) (some "foo".toList)
        none false).self.getElementName (some "Face3".toList) true none).1 false none).1
      = some "foo".toList ∧
    (((ComplexGeoData.mk none (some ⟨[], 0, 0⟩)).setElementName (some "Face3".toList)
        (some "foo".toList) none false).self.getElementName
      (((ComplexGeoData.mk none (some ⟨[], 0, 0⟩)).setElementName (some "Face3".toList)
        (some "foo".toList) none false).self.getElementName (some "Face3".toList) true none).1
        false none).1
      = some "#F1".toList := by
  constructor <;> rfl

/-- C4, amended: when the map holds `k -> e` with string ids `s` and `k` contains
no `.`, the forward lookup of `k` behind the marker returns `e`, and the
accumulator, when one is passed, is its earlier contents followed by `s`. -/
theorem C4_registered_name_resolves (self : ComplexGeoData) (m : ElementMap) (k e : Str)
    (s : List StringIDRef) (sid : Option (List StringIDRef))
    (hmap : self._ElementMap = some m) (hwf : m.WF)
    (hmem : (⟨k, e, s⟩ : Entry) ∈ m.left) (hdot : '.' ∉ k) :
    self.getElementName (some (';' :: k)) false sid = (some e, sid.map (fun acc => acc ++ s)) :=
  getElementName_hit self sid hmap hwf hmem hdot

/-- C4 at a concrete input: `;bar` resolves to `Face1` and appends the id 3. -/
theorem C4_registered_name_resolves_witness :
    sampleHost.getElementName (some ";bar".toList) false (some [⟨9⟩])
      = (some "Face1".toList, some [⟨9⟩, ⟨3⟩]) :=
  C4_registered_name_resolves sampleHost sampleMap "bar".toList "Face1".toList [⟨3⟩]
    (some [⟨9⟩]) rfl (by decide) (by decide) (by decide)

/-- C4 as stated fails for a mapped name with a `.`: after
`setElementName("Face1", "a.b")` on a fresh host the map holds `a.b -> Face1`, and
the forward lookup of `;a.b` looks `a` up and returns `;a.b` itself. -/
theorem C4_counterexample :
    (ComplexGeoData.mk none none).setElementName (some "Face1".toList) (some "a.b".toList)
        none false
      = ⟨.ok "a.b".toList, ComplexGeoData.mk (some ⟨[⟨"a.b".toList, "Face1".toList, []⟩],
          [⟨"a.b".toList, "Face1".toList, []⟩]⟩) none⟩ ∧
    (ComplexGeoData.mk (some ⟨[⟨"a.b".toList, "Face1".toList, []⟩],
        [⟨"a.b".toList, "Face1".toList, []⟩]⟩) none).getElementName
        (some ";a.b".toList) false (some [])
      = (some ";a.b".toList, some []) := by
  constructor <;> rfl

/-- C5: the forward lookup returns the query `q` itself (null for null) and the
accumulator as passed whenever the host has no map, or `q` does not start with
the marker, or the lookup key of `q`, which is what follows the marker up to the
first `.`, is no mapped name of the map. Being a total function it cannot
fail. -/
theorem C5_forward_fallback (self : ComplexGeoData) (q : Option Str)
    (sid : Option (List StringIDRef))
    (h : self._ElementMap = none ∨ (∀ t : Str, q ≠ some (';' :: t)) ∨
      (∀ m t, self._ElementMap = some m → q = some (';' :: t) →
        ∀ x ∈ m.left, x.first ≠ t.takeWhile (fun a => a != '.'))) :
    self.getElementName q false sid = (q, sid) := by
  cases q with
  | none => cases hm : self._ElementMap <;> simp [getElementName, hm]
  | some n =>
    cases hm : self._ElementMap with
    | none => simp [getElementName, hm]
    | some m =>
      by_cases hq : ∃ t, n = ';' :: t
      · obtain ⟨t, rfl⟩ := hq
        rcases h with h | h | h
        · rw [hm] at h; cases h
        · exact absurd rfl (h t)
        · rw [getElementName_forward self t sid hm]
          have hnone : m.left_find (t.takeWhile (fun a => a != '.')) = none :=
            findBy_none_of_forall (h m t hm rfl)
          rw [hnone]
      · have hnot : isMappedElement (some n) = none := by
          apply isMappedElement_none_of_not_marker
          cases n with
          | nil => rfl
          | cons a as =>
            simp only [starts_with, elementMapPrefix, Bool.and_true, beq_eq_false_iff_ne, ne_eq]
            intro ha
            exact hq ⟨as, by rw [ha]⟩
        obtain ⟨em, hs⟩ := self
        simp only at hm
        subst hm
        simp [getElementName, hnot]

/-- C5 at a concrete input: `;qux.12` has the lookup key `qux`, which the sample
map does not hold. -/
theorem C5_forward_fallback_witness :
    sampleHost.getElementName (some ";qux.12".toList) false (some [⟨9⟩])
      = (some ";qux.12".toList, some [⟨9⟩]) :=
  C5_forward_fallback sampleHost (some ";qux.12".toList) (some [⟨9⟩])
    (Or.inr (Or.inr (by
      intro m t hm hq x hx
      have hm' : sampleMap = m := Option.some.inj hm
      have ht : "qux.12".toList = t := List.tail_eq_of_cons_eq (Option.some.inj hq)
      subst hm' ht
      have hall : ∀ y ∈ sampleMap.left,
          y.first ≠ "qux.12".toList.takeWhile (fun a => a != '.') := by decide
      exact hall x hx)))

/-- C6: when the map holds `k -> e` and `k` contains no `.`, the forward lookup
of `;k.d` returns `e`, as the forward lookup of `;k` does, for every string `d`,
in particular for every non-empty string of decimal digits. -/
theorem C6_index_qualifier_ignored (self : ComplexGeoData) (m : ElementMap) (k e d : Str)
    (s : List StringIDRef) (sid : Option (List StringIDRef))
    (hmap : self._ElementMap = some m) (hwf : m.WF)
    (hmem : (⟨k, e, s⟩ : Entry) ∈ m.left) (hdot : '.' ∉ k) :
    self.getElementName (some (';' :: (k ++ '.' :: d))) false sid
        = (some e, sid.map (fun acc => acc ++ s)) ∧
      self.getElementName (some (';' :: (k ++ '.' :: d))) false sid
        = self.getElementName (some (';' :: k)) false sid := by
  have h1 : self.getElementName (some (';' :: (k ++ '.' :: d))) false sid
      = (some e, sid.map (fun acc => acc ++ s)) := by
    rw [getElementName_forward self _ sid hmap]
    have htw : (k ++ '.' :: d).takeWhile (fun a => a != '.') = k := by
      rw [← strchr_takeWhile, strchr_append d hdot]
      simp
    rw [htw, ElementMap.left_find_of_mem hwf hmem]
  exact ⟨h1, h1.trans (getElementName_hit self sid hmap hwf hmem hdot).symm⟩

/-- C6 at a concrete input: `;bar.0007` resolves like `;bar`. -/
theorem C6_index_qualifier_ignored_witness :
    sampleHost.getElementName (some ";bar.0007".toList) false none
        = (some "Face1".toList, none) ∧
      sampleHost.getElementName (some ";bar.0007".toList) false none
        = sampleHost.getElementName (some ";bar".toList) false none :=
  C6_index_qualifier_ignored sampleHost sampleMap "bar".toList "Face1".toList "0007".toList
    [⟨3⟩] none rfl (by decide) (by decide) (by decide)

/-- C7: on a host that holds the relations of `log`, listed in the order of their
registration, the reverse lookup of `e` returns `e` and the accumulator as passed
when no relation of `log` has the original name `e`; otherwise it returns the
mapped name of the first relation of `log` with original name `e`, the earliest
registered one still present, and appends its string ids to the accumulator. -/
theorem C7_reverse_lookup_earliest (self : ComplexGeoData) (log : List Entry) (e : Str)
    (sid : Option (List StringIDRef)) (h : self.Holds log) :
    self.getElementName (some e) true sid =
      match log.find? (fun x => x.second == e) with
      | none => (some e, sid)
      | some x => (some x.first, sid.map (fun acc => acc ++ x.info)) := by
  unfold Holds at h
  cases hm : self._ElementMap with
  | none =>
    rw [hm] at h
    simp only at h
    subst h
    obtain ⟨em, hs⟩ := self
    simp only at hm
    subst hm
    rfl
  | some m =>
    rw [hm] at h
    simp only at h
    rw [getElementName_reverse self e sid hm, h.right_find e]

/-- C7 at a concrete input: of `foo` and `bar`, both registered for `Face1`, the
reverse lookup returns `foo`, registered first, although `bar` comes first in
the order of mapped names. -/
theorem C7_reverse_lookup_earliest_witness :
    sampleHost.getElementName (some "Face1".toList) true (some [⟨9⟩]) =
      (some "foo".toList, some [⟨9⟩]) :=
  (C7_reverse_lookup_earliest sampleHost sampleLog "Face1".toList (some [⟨9⟩])
    (by decide)).trans rfl

/-- C8: on a host that holds the relations of `log`, listed in the order of their
registration, `getElementMappedNames(e, needUnmapped)` returns the mapped name and
string ids of the relations of `log` with original name `e`, in the order of
`log` and each once (their mapped names are distinct); when there is none, which
includes the host without map, it returns the one pair of `e` and no string ids
if `needUnmapped` is set and nothing otherwise. -/
theorem C8_mapped_names_in_registration_order (self : ComplexGeoData) (log : List Entry)
    (e : Str) (needUnmapped : Bool) (h : self.Holds log) :
    self.getElementMappedNames e needUnmapped =
        (if log.filter (fun x => x.second == e) = [] then
          (if needUnmapped then [(e, [])] else [])
        else (log.filter (fun x => x.second == e)).map (fun x => (x.first, x.info))) ∧
      ((log.filter (fun x => x.second == e)).map Entry.first).Nodup := by
  have hnodup : (log.map Entry.first).Nodup := by
    unfold Holds at h
    cases hm : self._ElementMap with
    | none => rw [hm] at h; simp only at h; subst h; exact List.nodup_nil
    | some m => rw [hm] at h; exact h.1
  refine ⟨?_, List.Nodup.sublist (List.Sublist.map _ (List.filter_sublist log)) hnodup⟩
  unfold Holds at h
  cases hm : self._ElementMap with
  | none =>
    rw [hm] at h
    simp only at h
    subst h
    simp [getElementMappedNames, hm]
  | some m =>
    rw [hm] at h
    simp only at h
    simp only [getElementMappedNames, hm, h.right_equal_range e]
    by_cases hnil : log.filter (fun x => x.second == e) = []
    · simp [hnil]
    · have hlen : (log.filter (fun x => x.second == e)).length ≠ 0 := by
        intro h0; exact hnil (List.length_eq_zero.mp h0)
      simp [hnil, hlen]

/-- C8 at a concrete input: the names of `Face1` come as `foo`, then `bar`. -/
theorem C8_mapped_names_in_registration_order_witness :
    sampleHost.getElementMappedNames "Face1".toList true =
      [("foo".toList, []), ("bar".toList, [⟨3⟩])] :=
  (C8_mapped_names_in_registration_order sampleHost sampleLog "Face1".toList true
    (by decide)).1.trans (by decide)

/-- C9: for a non-empty `p` that does not start with the marker,
`getElementNamesWithPrefix(p)` returns the pairs of mapped and original name of
exactly the relations whose mapped name starts with `p`, as a filter over the
whole left index finds them, in strictly ascending order of mapped name, hence
each once, and nothing when no mapped name starts with `p`. -/
theorem C9_names_starting_with (self : ComplexGeoData) (m : ElementMap) (p : Str)
    (hmap : self._ElementMap = some m) (hwf : m.WF)
    (hp : p ≠ []) (hmark : starts_with p elementMapPrefix = false) :
    self.getElementNamesWithPrefix (some p) =
        (m.left.filter (fun x => starts_with x.first p)).map (fun x => (x.first, x.second)) ∧
      (self.getElementNamesWithPrefix (some p)).Pairwise (fun a b => strLt a.1 b.1 = true) ∧
      (self.getElementNamesWithPrefix (some p)).Nodup ∧
      ((∀ x ∈ m.left, starts_with x.first p = false) →
        self.getElementNamesWithPrefix (some p) = []) := by
  have heq : self.getElementNamesWithPrefix (some p) =
      (m.left.filter (fun x => starts_with x.first p)).map (fun x => (x.first, x.second)) := by
    obtain ⟨em, hs⟩ := self
    simp only at hmap
    subst hmap
    simp only [getElementNamesWithPrefix, hp, if_false, hmark, Bool.false_eq_true,
      ElementMap.left_lower_bound]
    congr 1
    rw [lowerBound_eq_filter p hwf.left_sorted, List.filter_filter]
    apply List.filter_congr
    intro x _
    cases hs : starts_with x.first p with
    | false => rfl
    | true => simp [starts_with_not_lt hs]
  have hsorted : (self.getElementNamesWithPrefix (some p)).Pairwise
      (fun a b => strLt a.1 b.1 = true) := by
    rw [heq, List.pairwise_map]
    exact List.Pairwise.filter _ hwf.1
  refine ⟨heq, hsorted, ?_, ?_⟩
  · refine List.Pairwise.imp ?_ hsorted
    intro a b hab he
    rw [he, strLt_irrefl] at hab
    cases hab
  · intro hnone
    rw [heq, List.filter_eq_nil_iff.mpr (fun x hx => by simp [hnone x hx])]
    rfl

/-- C9 at a concrete input: the names starting with `ba` are `bar` and `baz`. -/
theorem C9_names_starting_with_witness :
    sampleHost.getElementNamesWithPrefix (some "ba".toList) =
      [("bar".toList, "Face1".toList), ("baz".toList, "Edge2".toList)] :=
  (C9_names_starting_with sampleHost sampleMap "ba".toList rfl (by decide) (by decide)
    (by decide)).1.trans (by decide)

/-- C10: on a host that has a map, `setElementName(e, name)` with a non-empty
`e` and a null or empty `name` returns `e`, leaves the hasher alone, and leaves
in both indices of the map exactly the relations whose original name is not `e`,
each as it was and in the order it had. -/
theorem C10_delete_by_original_name (self : ComplexGeoData) (m : ElementMap) (e : Str)
    (name : Option Str) (sid : Option (List StringIDRef)) (overwrite : Bool)
    (hmap : self._ElementMap = some m) (hwf : m.WF) (he : e ≠ [])
    (hname : name = none ∨ name = some []) :
    self.setElementName (some e) name sid overwrite =
      ⟨.ok e, ⟨some ⟨m.left.filter (fun x => x.second != e),
        m.right.filter (fun x => x.second != e)⟩, self.Hasher⟩⟩ := by
  obtain ⟨em, hs⟩ := self
  simp only at hmap
  subst hmap
  cases e with
  | nil => exact absurd rfl he
  | cons e0 es =>
    rcases hname with h | h <;> subst h <;> simp only [setElementName] <;>
      rw [ElementMap.right_erase_eq hwf]

/-- C10 at a concrete input: deleting `Face1` leaves `baz -> Edge2` alone. -/
theorem C10_delete_by_original_name_witness :
    sampleHost.setElementName (some "Face1".toList) (some []) none false =
      ⟨.ok "Face1".toList, ⟨some ⟨[⟨"baz".toList, "Edge2".toList, []⟩],
        [⟨"baz".toList, "Edge2".toList, []⟩]⟩, none⟩⟩ :=
  (C10_delete_by_original_name sampleHost sampleMap "Face1".toList (some []) none false
    rfl (by decide) (by decide) (Or.inr rfl)).trans rfl


/-! ## Lemmas on the affix overload, on copying and on path names -/

namespace ComplexGeoData

/-- What a returning `insertRelation` returns and leaves in the map. -/
theorem insertRelation_ok (self : ComplexGeoData) (m : ElementMap) (name element : Str)
    (sid : List StringIDRef) (overwrite : Bool) (hwf : m.WF) {r : Str}
    (h : (self.insertRelation m name element sid overwrite).ret = .ok r) :
    r = name ∧ ∃ m' x, (self.insertRelation m name element sid overwrite).self
        = ⟨some m', self.Hasher⟩ ∧ x ∈ m'.left ∧ x.first = name ∧ x.second = element := by
  cases hf : m.left_find name with
  | none =>
    have hnone := findBy_none hwf.left_sorted hf
    rw [insertRelation_new self element sid overwrite hnone] at h ⊢
    simp only [Except.ok.injEq] at h
    exact ⟨h.symm, _, ⟨name, element, sid⟩, rfl, mem_insertBy.mpr (Or.inl rfl), rfl, rfl⟩
  | some y =>
    obtain ⟨hy, hyk⟩ := findBy_some hf
    have hmem : (⟨name, y.second, y.info⟩ : Entry) ∈ m.left := by
      rw [← hyk]; exact hy
    by_cases he : element = y.second
    · rw [he, insertRelation_same self sid overwrite hwf hmem] at h ⊢
      simp only [Except.ok.injEq] at h
      exact ⟨h.symm, m, y, rfl, hy, hyk, rfl⟩
    · cases overwrite with
      | false =>
        rw [insertRelation_duplicate self element sid hwf hmem he] at h
        cases h
      | true =>
        rw [insertRelation_overwrite self element sid hwf hmem he] at h ⊢
        simp only [Except.ok.injEq] at h
        exact ⟨h.symm, _, ⟨name, element, sid⟩, rfl, mem_insertBy.mpr (Or.inl rfl), rfl, rfl⟩


theorem unhashed_of_not (hasher : Option StringHasher) (sid : Option (List StringIDRef))
    (hh : ¬ ((sid = none ∨ sid = some []) ∧ hasher ≠ none)) :
    hasher = none ∨ (sid ≠ none ∧ sid ≠ some []) := by
  by_cases h1 : hasher = none
  · exact Or.inl h1
  · right
    constructor
    · intro h2; exact hh ⟨Or.inl h2, h1⟩
    · intro h2; exact hh ⟨Or.inr h2, h1⟩

theorem setElementNameAffix_noHasher (self : ComplexGeoData) {e : Str} (n : Str)
    (p q : Option Str) (sid : Option (List StringIDRef)) (overwrite : Bool)
    (hH : self.Hasher = none) (he : e ≠ []) :
    self.setElementNameAffix (some e) (some n) p q sid overwrite =
      self.setElementName (some e) (some (p.getD [] ++ n ++ q.getD [])) sid overwrite := by
  cases e with
  | nil => exact absurd rfl he
  | cons e0 es =>
    have hcond : ¬ ((sid = none ∨ sid = some []) ∧ self.Hasher ≠ none) := by
      rintro ⟨_, h2⟩; exact h2 hH
    by_cases hpq : p = none ∧ q = none
    · obtain ⟨rfl, rfl⟩ := hpq
      simp [setElementNameAffix]
    · simp only [setElementNameAffix, hpq, if_false]
      rw [if_neg hcond]
      simp only [registerAssembled, hH, true_or, if_true]
      cases p <;> cases q <;> rfl

theorem holds_getD {self : ComplexGeoData} {log : List Entry} (h : self.Holds log) :
    Registered log (self._ElementMap.getD ElementMap.empty) := by
  unfold Holds at h
  cases hm : self._ElementMap with
  | none => rw [hm] at h; simp only at h; rw [h]; exact Registered.nil
  | some m => rw [hm] at h; exact h

theorem setElementNameAffix_hashed (self : ComplexGeoData) (h : StringHasher) (e0 : Char)
    (es n : Str) (p q : Option Str) (sid : Option (List StringIDRef)) (overwrite : Bool)
    (hH : self.Hasher = some h) (hsid : sid = none ∨ sid = some [])
    (hpq : ¬ (p = none ∧ q = none)) :
    self.setElementNameAffix (some (e0 :: es)) (some n) p q sid overwrite =
      putBack ((ComplexGeoData.mk self._ElementMap none).setElementName (some (e0 :: es))
          (some (p.getD [] ++ ('#' :: e0 :: Nat.toDigits 10 (h.getID n).1.value) ++ q.getD []))
          (some [(h.getID n).1]) overwrite) (some (h.getID n).2) := by
  obtain ⟨em, hs⟩ := self
  simp only at hH
  subst hH
  have hcond : (sid = none ∨ sid = some []) ∧ (some h : Option StringHasher) ≠ none :=
    ⟨hsid, by simp⟩
  simp only [setElementNameAffix, hpq, if_false, hcond, if_true, hashElementName,
    registerAssembled, List.nil_append]
  cases p <;> cases q <;> simp

theorem starts_with_marker_append {P : Str} (T : Str) (c : Char) (hc : c ≠ ';')
    (hP : starts_with P elementMapPrefix = false) :
    starts_with (P ++ (c :: T)) elementMapPrefix = false := by
  cases P with
  | nil => simp [starts_with, elementMapPrefix, hc]
  | cons a as => simpa [starts_with, elementMapPrefix] using hP

/-- What a returning `insertRelation` leaves in a map that does not hold the
name for the element yet. -/
theorem insertRelation_ok_fresh (self : ComplexGeoData) (m : ElementMap) (name element : Str)
    (sid : List StringIDRef) (overwrite : Bool) (hwf : m.WF)
    (hfresh : ∀ y ∈ m.left, y.first = name → y.second ≠ element) {r : Str}
    (h : (self.insertRelation m name element sid overwrite).ret = .ok r) :
    self.insertRelation m name element sid overwrite =
      ⟨.ok name, ⟨some ⟨insertBy Entry.first ⟨name, element, sid⟩
            (m.left.filter (fun x => x.first != name)),
          insertBy Entry.second ⟨name, element, sid⟩
            (m.right.filter (fun x => x.first != name))⟩, self.Hasher⟩⟩ := by
  cases hf : m.left_find name with
  | none =>
    have hnone := findBy_none hwf.left_sorted hf
    rw [insertRelation_new self element sid overwrite hnone]
    have h1 : m.left.filter (fun x => x.first != name) = m.left :=
      List.filter_eq_self.mpr (fun y hy => by simpa using hnone y hy)
    have h2 : m.right.filter (fun x => x.first != name) = m.right :=
      List.filter_eq_self.mpr (fun y hy => by simpa using hnone y (hwf.mem_right.mp hy))
    rw [h1, h2]
  | some y =>
    obtain ⟨hy, hyk⟩ := findBy_some hf
    have hmem : (⟨name, y.second, y.info⟩ : Entry) ∈ m.left := by
      rw [← hyk]; exact hy
    have he : element ≠ y.second := Ne.symm (hfresh y hy hyk)
    cases overwrite with
    | false =>
      rw [insertRelation_duplicate self element sid hwf hmem he] at h
      cases h
    | true => exact insertRelation_overwrite self element sid hwf hmem he

theorem copyLoop_noHasher (data : ComplexGeoData) (p q : Option Str) (todo : List Entry) :
    ∀ (done : List Entry) (self : ComplexGeoData),
      self.Hasher = none → data.Hasher = none →
      (∀ x ∈ todo, x.second ≠ []) →
      (∀ x ∈ todo, p.getD [] ++ x.first ++ q.getD [] ≠ [] ∧
        starts_with (p.getD [] ++ x.first ++ q.getD []) elementMapPrefix = false) →
      ((done ++ todo).map Entry.first).Nodup →
      self.Holds (done.map (fun x => ⟨p.getD [] ++ x.first ++ q.getD [], x.second, x.info⟩)) →
      ∃ dest, copyLoop self data p q todo = ⟨.ok (), dest⟩ ∧ dest.Hasher = none ∧
        dest.Holds ((done ++ todo).map
          (fun x => ⟨p.getD [] ++ x.first ++ q.getD [], x.second, x.info⟩)) := by
  induction todo with
  | nil =>
    intro done self hH _ _ _ _ hholds
    exact ⟨self, rfl, hH, by simpa using hholds⟩
  | cons v vs ih =>
    intro done self hH hD horig hkey hnodup hholds
    have hve : v.second ≠ [] := horig v (List.mem_cons_self _ _)
    obtain ⟨hva, hvm⟩ := hkey v (List.mem_cons_self _ _)
    have hreg := holds_getD hholds
    have hnew : ∀ y ∈ (self._ElementMap.getD ElementMap.empty).left,
        y.first ≠ p.getD [] ++ v.first ++ q.getD [] := by
      intro y hy he
      obtain ⟨d, hd, rfl⟩ := List.mem_map.mp (hreg.mem_left.mp hy)
      simp only [List.append_assoc, List.append_cancel_left_eq, List.append_cancel_right_eq]
        at he
      rw [List.map_append, List.nodup_append] at hnodup
      exact hnodup.2.2 (List.mem_map_of_mem _ hd) (by simp [he])
    have hstep : ∀ sidopt : Option (List StringIDRef), sidopt.getD [] = v.info →
        self.setElementNameAffix (some v.second) (some v.first) p q sidopt false =
          ⟨.ok (p.getD [] ++ v.first ++ q.getD []),
            ⟨some ⟨insertBy Entry.first ⟨p.getD [] ++ v.first ++ q.getD [], v.second, v.info⟩
                (self._ElementMap.getD ElementMap.empty).left,
              insertBy Entry.second ⟨p.getD [] ++ v.first ++ q.getD [], v.second, v.info⟩
                (self._ElementMap.getD ElementMap.empty).right⟩, none⟩⟩ := by
      intro sidopt hs
      rw [setElementNameAffix_noHasher self v.first p q sidopt false hH hve,
        setElementName_plain self sidopt false hve hva hvm (Or.inl hH),
        insertRelation_new _ v.second _ false hnew, hs, hH]
    have hout : self.copyEntry data p q v =
          ⟨.ok (p.getD [] ++ v.first ++ q.getD []),
            ⟨some ⟨insertBy Entry.first ⟨p.getD [] ++ v.first ++ q.getD [], v.second, v.info⟩
                (self._ElementMap.getD ElementMap.empty).left,
              insertBy Entry.second ⟨p.getD [] ++ v.first ++ q.getD [], v.second, v.info⟩
                (self._ElementMap.getD ElementMap.empty).right⟩, none⟩⟩ := by
      have hsame : ¬ (sameHasher self.Hasher data.Hasher = false) := by
        rw [hH, hD]; decide
      unfold copyEntry
      by_cases hinfo : v.info.length ≠ 0
      · rw [if_pos hinfo, if_neg hsame]
        exact hstep (some v.info) rfl
      · rw [if_neg hinfo]
        have : v.info = [] := List.length_eq_zero.mp (not_not.mp hinfo)
        exact hstep none (by rw [this]; rfl)
    have hins := hreg.insert
      (x := ⟨p.getD [] ++ v.first ++ q.getD [], v.second, v.info⟩) hnew
    rw [ElementMap.left_insert_new
      (x := ⟨p.getD [] ++ v.first ++ q.getD [], v.second, v.info⟩) hnew] at hins
    have hnext := ih (done ++ [v])
      ⟨some ⟨insertBy Entry.first ⟨p.getD [] ++ v.first ++ q.getD [], v.second, v.info⟩
          (self._ElementMap.getD ElementMap.empty).left,
        insertBy Entry.second ⟨p.getD [] ++ v.first ++ q.getD [], v.second, v.info⟩
          (self._ElementMap.getD ElementMap.empty).right⟩, none⟩
      rfl hD (fun x hx => horig x (List.mem_cons_of_mem _ hx))
      (fun x hx => hkey x (List.mem_cons_of_mem _ hx))
      (by simpa using hnodup)
      (by
        unfold Holds
        simp only [List.map_append, List.map_cons, List.map_nil]
        exact hins)
    obtain ⟨dest, hd1, hd2, hd3⟩ := hnext
    refine ⟨dest, ?_, hd2, by simpa using hd3⟩
    simp only [copyLoop]
    rw [hout]
    exact hd1

end ComplexGeoData

theorem toDigitsCore_eq_decimal (fuel : Nat) :
    ∀ (n : Nat) (ds : List Char), n < fuel → Nat.toDigitsCore 10 fuel n ds = decimal n ++ ds := by
  induction fuel with
  | zero => intro n ds h; omega
  | succ f ih =>
    intro n ds h
    simp only [Nat.toDigitsCore]
    by_cases h0 : n / 10 = 0
    · simp only [h0, if_true]
      have hlt : n < 10 := by omega
      unfold decimal
      by_cases hn : n = 0
      · subst hn; rfl
      · have hpos : 0 < n := Nat.pos_of_ne_zero hn
        simp [hn, Nat.digits_of_lt 10 n hn hlt, Nat.mod_eq_of_lt hlt]
    · simp only [h0, if_false]
      have hpos : 0 < n := by omega
      have hlt : n / 10 < f := by omega
      rw [ih (n / 10) _ hlt]
      unfold decimal
      have hn : n ≠ 0 := by omega
      simp only [h0, hn, if_false]
      rw [Nat.digits_def' (by norm_num : 1 < 10) hpos]
      simp

theorem toDigits_eq_decimal (v : Nat) : Nat.toDigits 10 v = decimal v := by
  unfold Nat.toDigits
  rw [toDigitsCore_eq_decimal (v + 1) v [] (by omega)]
  simp

theorem starts_with_marker_iff (x : Str) :
    starts_with x elementMapPrefix = true ↔ x.head? = some ';' := by
  cases x with
  | nil => simp [starts_with, elementMapPrefix]
  | cons a as => simp [starts_with, elementMapPrefix]

theorem strrchr_append_singleton (l : Str) (x c : Char) :
    strrchr (l ++ [x]) c = if x = c then some l.length else strrchr l c := by
  induction l with
  | nil => by_cases h : x = c <;> simp [strrchr, h]
  | cons a as ih =>
    have hc : strrchr (a :: as ++ [x]) c =
        match strrchr (as ++ [x]) c with
        | some i => some (i + 1)
        | none => if a = c then some 0 else none := rfl
    rw [hc, ih]
    by_cases h : x = c
    · simp [h]
    · simp only [h, if_false]
      rfl

theorem strrchr_some_get {s : Str} {c : Char} {i : Nat} (h : strrchr s c = some i) :
    s[i]? = some c := by
  induction s generalizing i with
  | nil => simp [strrchr] at h
  | cons a as ih =>
    simp only [strrchr] at h
    cases hr : strrchr as c with
    | some j =>
      rw [hr] at h
      simp only [Option.some.injEq] at h
      subst h
      simpa using ih hr
    | none =>
      rw [hr] at h
      by_cases hac : a = c
      · simp only [hac, if_true, Option.some.injEq] at h
        subst h
        simp [hac]
      · simp [hac] at h

theorem segmentStart_le (s : Str) (c : Nat) : segmentStart s c ≤ c + 1 := by
  induction c with
  | zero => simp [segmentStart]
  | succ c ih =>
    simp only [segmentStart]
    split
    · omega
    · omega

theorem segmentStart_eq {s : Str} (hs : s.head? ≠ some '.') (c : Nat) :
    segmentStart s c = (strrchr (s.take (c + 1)) '.').elim 0 (fun j => j + 1) := by
  induction c with
  | zero =>
    cases s with
    | nil => simp [segmentStart, strrchr]
    | cons a as =>
      have : a ≠ '.' := by simpa using hs
      simp [segmentStart, strrchr, this]
  | succ c ih =>
    simp only [segmentStart]
    by_cases hlen : c + 1 < s.length
    · have htake : s.take (c + 1 + 1) = s.take (c + 1) ++ [s[c + 1]] := by
        rw [List.take_succ, List.getElem?_eq_getElem hlen]
        rfl
      have hlen' : (s.take (c + 1)).length = c + 1 := by
        rw [List.length_take]; omega
      rw [htake, strrchr_append_singleton, hlen', List.getElem?_eq_getElem hlen]
      by_cases hdot : s[c + 1] = '.'
      · simp [hdot]
      · simp only [Option.some.injEq, hdot, if_false]
        exact ih
    · have hnone : s[c + 1]? = none := List.getElem?_eq_none (by omega)
      have h1 : s.take (c + 1 + 1) = s := List.take_of_length_le (by omega)
      have h2 : s.take (c + 1) = s := List.take_of_length_le (by omega)
      rw [hnone, h1]
      simp only [reduceCtorEq, if_false]
      rw [ih, h2]

theorem newElementName_eq_spec {s : Str} (hs : s.head? ≠ some '.') :
    newElementName (some s) = newElementName_spec s := by
  cases h : strrchr s '.' with
  | none => simp only [newElementName, newElementName_spec, h]
  | some i =>
    cases i with
    | zero =>
      simp [newElementName, newElementName_spec, h, strrchr, starts_with, elementMapPrefix]
    | succ dot =>
      simp only [newElementName, newElementName_spec, h]
      have hstart := segmentStart_eq hs dot
      have hseg : (match strrchr (s.take (dot + 1)) '.' with
          | some j => (s.take (dot + 1)).drop (j + 1)
          | none => s.take (dot + 1)) = (s.take (dot + 1)).drop (segmentStart s dot) := by
        rw [hstart]
        cases strrchr (s.take (dot + 1)) '.' <;> simp
      rw [hseg]
      have hdotc := strrchr_some_get h
      have hle := segmentStart_le s dot
      have hb : starts_with (s.drop (segmentStart s dot)) elementMapPrefix
          = starts_with ((s.take (dot + 1)).drop (segmentStart s dot)) elementMapPrefix := by
        rw [Bool.eq_iff_iff, starts_with_marker_iff, starts_with_marker_iff,
          List.head?_drop, List.head?_drop, List.getElem?_take]
        by_cases hlt : segmentStart s dot < dot + 1
        · simp [hlt]
        · have heq : segmentStart s dot = dot + 1 := by omega
          simp [heq, hdotc]
      simp only [isMappedElement, hb]
      split <;> rename_i hm
      · split at hm
        · rename_i hsw; simp [hsw]
        · cases hm
      · split at hm
        · cases hm
        · rename_i hsw; simp [hsw]

theorem getID_addr (h : StringHasher) (s : Str) : (h.getID s).2.addr = h.addr := by
  unfold StringHasher.getID
  split <;> rfl

namespace ComplexGeoData

theorem insertRelation_hasher (self : ComplexGeoData) (m : ElementMap) (name element : Str)
    (sid : List StringIDRef) (overwrite : Bool) :
    (self.insertRelation m name element sid overwrite).self.Hasher = self.Hasher := by
  unfold insertRelation
  simp only
  split
  · split <;> rfl
  · rfl

/-- Whatever its outcome, `setElementName` leaves the host with the hasher
instance it had. -/
theorem setElementName_hasher_addr (self : ComplexGeoData) (element name : Option Str)
    (sid : Option (List StringIDRef)) (overwrite : Bool) :
    (self.setElementName element name sid overwrite).self.Hasher.map StringHasher.addr
      = self.Hasher.map StringHasher.addr := by
  cases element with
  | none => rfl
  | some el =>
    cases el with
    | nil => rfl
    | cons e0 es =>
      cases name with
      | none => cases hm : self._ElementMap <;> simp [setElementName, hm]
      | some nm =>
        cases nm with
        | nil => cases hm : self._ElementMap <;> simp [setElementName, hm]
        | cons n0 ns =>
          by_cases hh : (sid = none ∨ sid = some []) ∧ self.Hasher ≠ none
          · obtain ⟨hsid, hH⟩ := hh
            obtain ⟨h, hh'⟩ := Option.ne_none_iff_exists'.mp hH
            rw [setElementName_hashed self h e0 es sid overwrite hh' (by simp) hsid,
              insertRelation_hasher, hh']
            simp [getID_addr]
          · rw [setElementName_unhashed self sid overwrite (by simp) (by simp)
              (unhashed_of_not self.Hasher sid hh), insertRelation_hasher]

theorem putBack_ok {out : Outcome Str} {hasher : Option StringHasher} {r : Str}
    (h : (putBack out hasher).ret = .ok r) : (putBack out hasher).self.Hasher = hasher := by
  unfold putBack at h ⊢
  cases hr : out.ret with
  | error err => rw [hr] at h; cases h
  | ok ret => rfl

theorem registerAssembled_ok_addr (self : ComplexGeoData) (element ss name : Str)
    (sid : Option (List StringIDRef)) (overwrite : Bool) {r : Str}
    (h : (self.registerAssembled element ss name sid overwrite).ret = .ok r) :
    (self.registerAssembled element ss name sid overwrite).self.Hasher.map StringHasher.addr
      = self.Hasher.map StringHasher.addr := by
  unfold registerAssembled at h ⊢
  split
  · exact setElementName_hasher_addr self _ _ sid overwrite
  · rename_i hc
    rw [if_neg hc] at h
    rw [putBack_ok h]

/-- A returning `setElementName` with affixes leaves the host with the hasher
instance it had. -/
theorem setElementNameAffix_ok_addr (self : ComplexGeoData) (element name pfx sfx : Option Str)
    (sid : Option (List StringIDRef)) (overwrite : Bool) {r : Str}
    (h : (self.setElementNameAffix element name pfx sfx sid overwrite).ret = .ok r) :
    (self.setElementNameAffix element name pfx sfx sid overwrite).self.Hasher.map
      StringHasher.addr = self.Hasher.map StringHasher.addr := by
  have h4 := setElementName_hasher_addr self element name sid overwrite
  cases element with
  | none => exact h4
  | some el =>
    cases el with
    | nil => exact h4
    | cons e0 es =>
      cases name with
      | none => exact h4
      | some n =>
        simp only [setElementNameAffix] at h ⊢
        by_cases hpq : pfx = none ∧ sfx = none
        · rw [if_pos hpq]; exact h4
        · rw [if_neg hpq] at h ⊢
          by_cases hc : (sid = none ∨ sid = some []) ∧ self.Hasher ≠ none
          · rw [if_pos hc] at h ⊢
            obtain ⟨hsid, hH⟩ := hc
            obtain ⟨hs, hh'⟩ := Option.ne_none_iff_exists'.mp hH
            have hhash : self.hashElementName e0 (some n) [] =
                ⟨.ok ('#' :: e0 :: Nat.toDigits 10 (hs.getID n).1.value, [(hs.getID n).1]),
                  ⟨self._ElementMap, some (hs.getID n).2⟩⟩ := by
              simp [hashElementName, hh']
            rw [hhash] at h ⊢
            simp only at h ⊢
            rw [registerAssembled_ok_addr _ _ _ _ _ _ h, hh']
            simp [getID_addr]
          · rw [if_neg hc] at h ⊢
            exact registerAssembled_ok_addr _ _ _ _ _ _ h

theorem copyEntry_ok_addr (self data : ComplexGeoData) (pfx sfx : Option Str) (v : Entry)
    {r : Str} (h : (self.copyEntry data pfx sfx v).ret = .ok r) :
    (self.copyEntry data pfx sfx v).self.Hasher.map StringHasher.addr
      = self.Hasher.map StringHasher.addr := by
  unfold copyEntry at h ⊢
  split
  · rename_i h1
    rw [if_pos h1] at h
    split
    · rename_i h2
      rw [if_pos h2] at h
      exact setElementNameAffix_ok_addr _ _ _ _ _ _ _ h
    · rename_i h2
      rw [if_neg h2] at h
      exact setElementNameAffix_ok_addr _ _ _ _ _ _ _ h
  · rename_i h1
    rw [if_neg h1] at h
    exact setElementNameAffix_ok_addr _ _ _ _ _ _ _ h

theorem copyLoop_ok_addr (data : ComplexGeoData) (pfx sfx : Option Str) (todo : List Entry) :
    ∀ self : ComplexGeoData, (self.copyLoop data pfx sfx todo).ret = .ok () →
      (self.copyLoop data pfx sfx todo).self.Hasher.map StringHasher.addr
        = self.Hasher.map StringHasher.addr := by
  induction todo with
  | nil => intro self _; rfl
  | cons v vs ih =>
    intro self h
    simp only [copyLoop] at h ⊢
    cases hr : (self.copyEntry data pfx sfx v).ret with
    | error err => rw [hr] at h; cases h
    | ok r =>
      rw [hr] at h
      simp only at h ⊢
      rw [ih _ h, copyEntry_ok_addr self data pfx sfx v hr]

/-- A returning `copyElementMap` from a source with a map leaves the destination
with the hasher instance of the source when it had none, and with its own
otherwise. -/
theorem copyElementMap_ok_addr (self data : ComplexGeoData) (pfx sfx : Option Str)
    {source : ElementMap} (hm : data._ElementMap = some source)
    (h : (self.copyElementMap (.other data) pfx sfx).ret = .ok ()) :
    (self.copyElementMap (.other data) pfx sfx).self.Hasher.map StringHasher.addr
      = (if self.Hasher = none then data.Hasher else self.Hasher).map StringHasher.addr := by
  unfold copyElementMap at h ⊢
  simp only [HostRef.deref] at h ⊢
  rw [hm] at h ⊢
  simp only at h ⊢
  rw [copyLoop_ok_addr _ _ _ _ _ h]
  by_cases hH : self.Hasher = none
  · simp [hH]
  · simp [hH]

end ComplexGeoData

/-! ## The claims on registration with affixes, hashing, path names and copying -/

/-- C11, the code at the failing input: on a fresh host without hasher
`setElementName("Face1", ";")` returns normally and stores the empty string as
the mapped name of `Face1`; the name passes the emptiness test with its marker
and loses the marker afterwards. -/
theorem C11_empty_mapped_name_stored :
    (ComplexGeoData.mk none none).setElementName (some "Face1".toList) (some ";".toList)
        none false
      = ⟨.ok [], ComplexGeoData.mk
          (some ⟨[⟨[], "Face1".toList, []⟩], [⟨[], "Face1".toList, []⟩]⟩) none⟩ ∧
    (ComplexGeoData.mk none none).setElementNameAffix (some "Face1".toList) (some ";".toList)
        none none none false
      = ⟨.ok [], ComplexGeoData.mk
          (some ⟨[⟨[], "Face1".toList, []⟩], [⟨[], "Face1".toList, []⟩]⟩) none⟩ := by
  constructor <;> rfl

/-- C12: when `setElementName(e, n, sids, overwrite)` with non-empty `e` and `n`
returns normally, the string `r` it returns is a mapped name of the map, and
`left.find(r)` is a relation with original name `e`. `r` is the stored key: `n`
without its marker when nothing is hashed, the hash token `#`, `e[0]`, decimal id
when the name is hashed. -/
theorem C12_returns_stored_name (self : ComplexGeoData) (e n r : Str)
    (sids : Option (List StringIDRef)) (overwrite : Bool)
    (he : e ≠ []) (hn : n ≠ []) (hwf : ∀ m, self._ElementMap = some m → m.WF)
    (hret : (self.setElementName (some e) (some n) sids overwrite).ret = .ok r) :
    (∃ m' x, (self.setElementName (some e) (some n) sids overwrite).self._ElementMap = some m' ∧
      m'.left_find r = some x ∧ x.first = r ∧ x.second = e) ∧
    ((self.Hasher = none ∨ (sids ≠ none ∧ sids ≠ some [])) →
      r = (isMappedElement (some n)).getD n) ∧
    (∀ h, self.Hasher = some h → (sids = none ∨ sids = some []) →
      r = '#' :: (e.take 1 ++
        Nat.toDigits 10 (h.getID ((isMappedElement (some n)).getD n)).1.value)) := by
  have h0 : (self._ElementMap.getD ElementMap.empty).WF := by
    cases hm : self._ElementMap with
    | none => exact ElementMap.empty_WF
    | some m => exact hwf m hm
  have hwf' := setElementName_WF self (some e) (some n) sids overwrite hwf
  by_cases hh : (sids = none ∨ sids = some []) ∧ self.Hasher ≠ none
  · obtain ⟨hsid, hH⟩ := hh
    obtain ⟨h, hh'⟩ := Option.ne_none_iff_exists'.mp hH
    cases e with
    | nil => exact absurd rfl he
    | cons e0 es =>
      rw [setElementName_hashed self h e0 es sids overwrite hh' hn hsid] at hret hwf' ⊢
      obtain ⟨hr, m', x, hself, hx, hxk, hxe⟩ := insertRelation_ok _ _ _ _ _ _ h0 hret
      refine ⟨⟨m', x, by rw [hself], ?_, hxk.trans hr.symm, hxe⟩, ?_, ?_⟩
      · have hm'wf := hwf' m' (by rw [hself])
        rw [hr, ← hxk]
        exact ElementMap.left_find_of_mem hm'wf hx
      · rintro (h1 | ⟨h1, h2⟩)
        · rw [h1] at hh'; cases hh'
        · rcases hsid with h3 | h3
          · exact absurd h3 h1
          · exact absurd h3 h2
      · intro h2 hh2 _
        rw [hh'] at hh2
        cases hh2
        rw [hr]
        rfl
  · have hh' := unhashed_of_not self.Hasher sids hh
    rw [setElementName_unhashed self sids overwrite he hn hh'] at hret hwf' ⊢
    obtain ⟨hr, m', x, hself, hx, hxk, hxe⟩ := insertRelation_ok _ _ _ _ _ _ h0 hret
    refine ⟨⟨m', x, by rw [hself], ?_, hxk.trans hr.symm, hxe⟩, ?_, ?_⟩
    · have hm'wf := hwf' m' (by rw [hself])
      rw [hr, ← hxk]
      exact ElementMap.left_find_of_mem hm'wf hx
    · intro _
      exact hr
    · intro h2 hh2 hs
      exact absurd ⟨hs, by rw [hh2]; simp⟩ hh

/-- C12 at a concrete input: `;qux` registered for `Face9` on the sample host
returns the stored key `qux`, not the caller's `;qux`. -/
theorem C12_returns_stored_name_witness :
    (∃ m' x, (sampleHost.setElementName (some "Face9".toList) (some ";qux".toList) none
        false).self._ElementMap = some m' ∧
      m'.left_find "qux".toList = some x ∧ x.first = "qux".toList ∧ x.second = "Face9".toList) ∧
    ((sampleHost.Hasher = none ∨
        ((none : Option (List StringIDRef)) ≠ none ∧ (none : Option (List StringIDRef)) ≠ some []))
      → "qux".toList = (isMappedElement (some ";qux".toList)).getD ";qux".toList) ∧
    (∀ h, sampleHost.Hasher = some h →
      ((none : Option (List StringIDRef)) = none ∨ (none : Option (List StringIDRef)) = some [])
      → "qux".toList = '#' :: ("Face9".toList.take 1 ++
        Nat.toDigits 10 (h.getID ((isMappedElement (some ";qux".toList)).getD
          ";qux".toList)).1.value)) :=
  C12_returns_stored_name sampleHost "Face9".toList ";qux".toList "qux".toList none false
    (by decide) (by decide)
    (fun m hm => by
      have : sampleMap = m := Option.some.inj hm
      subst this
      exact sampleMap_WF)
    rfl

/-- C13: without hasher, for non-empty `e` and `n` and optional affixes `p`, `q`
(an absent one counts as empty) such that `p ++ n ++ q` does not start with the
marker and is no mapped name of the map yet, `setElementName(e, n, p, q, sids)`
returns `p ++ n ++ q` and leaves the map with the one new relation
`p ++ n ++ q -> e` carrying `sids` (none when null) inserted into both indices:
the relations afterwards are the new one and those held before, and the
registration log is the old one with the new relation at its end. -/
theorem C13_affix_registration_without_hasher (self : ComplexGeoData) (e n : Str)
    (p q : Option Str) (sids : Option (List StringIDRef)) (overwrite : Bool)
    (hH : self.Hasher = none) (he : e ≠ []) (hn : n ≠ [])
    (hmark : starts_with (p.getD [] ++ n ++ q.getD []) elementMapPrefix = false)
    (hnew : ∀ m, self._ElementMap = some m →
      ∀ y ∈ m.left, y.first ≠ p.getD [] ++ n ++ q.getD []) :
    self.setElementNameAffix (some e) (some n) p q sids overwrite =
        ⟨.ok (p.getD [] ++ n ++ q.getD []),
          ⟨some ⟨insertBy Entry.first ⟨p.getD [] ++ n ++ q.getD [], e, sids.getD []⟩
              (self._ElementMap.getD ElementMap.empty).left,
            insertBy Entry.second ⟨p.getD [] ++ n ++ q.getD [], e, sids.getD []⟩
              (self._ElementMap.getD ElementMap.empty).right⟩, none⟩⟩ ∧
      (∀ z : Entry, z ∈ insertBy Entry.first ⟨p.getD [] ++ n ++ q.getD [], e, sids.getD []⟩
          (self._ElementMap.getD ElementMap.empty).left ↔
        z = ⟨p.getD [] ++ n ++ q.getD [], e, sids.getD []⟩ ∨
          z ∈ (self._ElementMap.getD ElementMap.empty).left) ∧
      (∀ log, self.Holds log →
        (self.setElementNameAffix (some e) (some n) p q sids overwrite).self.Holds
          (log ++ [⟨p.getD [] ++ n ++ q.getD [], e, sids.getD []⟩])) := by
  have ha : p.getD [] ++ n ++ q.getD [] ≠ [] := by
    intro h
    have := congrArg List.length h
    simp only [List.length_append, List.length_nil] at this
    have hlen : n.length ≠ 0 := fun h0 => hn (List.length_eq_zero.mp h0)
    omega
  have hnew' : ∀ y ∈ (self._ElementMap.getD ElementMap.empty).left,
      y.first ≠ p.getD [] ++ n ++ q.getD [] := by
    cases hm : self._ElementMap with
    | none => intro y hy; simp [ElementMap.empty] at hy
    | some m => exact hnew m hm
  have heq : self.setElementNameAffix (some e) (some n) p q sids overwrite =
        ⟨.ok (p.getD [] ++ n ++ q.getD []),
          ⟨some ⟨insertBy Entry.first ⟨p.getD [] ++ n ++ q.getD [], e, sids.getD []⟩
              (self._ElementMap.getD ElementMap.empty).left,
            insertBy Entry.second ⟨p.getD [] ++ n ++ q.getD [], e, sids.getD []⟩
              (self._ElementMap.getD ElementMap.empty).right⟩, none⟩⟩ := by
    rw [setElementNameAffix_noHasher self n p q sids overwrite hH he,
      setElementName_plain self sids overwrite he ha hmark (Or.inl hH),
      insertRelation_new _ e _ overwrite hnew', hH]
  refine ⟨heq, fun z => mem_insertBy, ?_⟩
  intro log hlog
  rw [heq]
  have hreg := holds_getD hlog
  have hins := hreg.insert (x := ⟨p.getD [] ++ n ++ q.getD [], e, sids.getD []⟩) hnew'
  rw [ElementMap.left_insert_new (x := ⟨p.getD [] ++ n ++ q.getD [], e, sids.getD []⟩) hnew']
    at hins
  exact hins

/-- C13 at the input of the specification: `("Face3", "Face3")` without affixes
on a host without map and hasher yields the one relation `Face3 -> Face3` without
string ids. -/
theorem C13_affix_registration_without_hasher_witness :
    (ComplexGeoData.mk none none).setElementNameAffix (some "Face3".toList)
        (some "Face3".toList) none none none false =
      ⟨.ok "Face3".toList, ⟨some ⟨[⟨"Face3".toList, "Face3".toList, []⟩],
        [⟨"Face3".toList, "Face3".toList, []⟩]⟩, none⟩⟩ :=
  (C13_affix_registration_without_hasher (ComplexGeoData.mk none none) "Face3".toList
    "Face3".toList none none none false rfl (by decide) (by decide) (by decide)
    (fun m hm => by cases hm)).1

/-- C14, amended: on a host with hasher `h`, without string ids from the caller
and with at least one affix supplied, the prefix not starting with the marker,
a returning `setElementName(e, n, p, q)` on a map that does not hold the
assembled name for `e` already returns `p ++ "#" ++ e[0] ++ decimal(id) ++ q`,
`id` being the value of `h.getID(n)`; the map then holds that name for `e` with
exactly the one string id `h.getID(n)`, in its only relation of that name, and
the hasher is `h` after it was asked for `n` and nothing else. -/
theorem C14_hashed_affix_registration (self : ComplexGeoData) (h : StringHasher) (e n r : Str)
    (p q : Option Str) (sid : Option (List StringIDRef)) (overwrite : Bool)
    (hH : self.Hasher = some h) (hsid : sid = none ∨ sid = some [])
    (hpq : ¬ (p = none ∧ q = none)) (he : e ≠ [])
    (hp : starts_with (p.getD []) elementMapPrefix = false)
    (hwf : ∀ m, self._ElementMap = some m → m.WF)
    (hfresh : ∀ m, self._ElementMap = some m → ∀ y ∈ m.left,
      y.first = p.getD [] ++ ('#' :: (e.take 1 ++ Nat.toDigits 10 (h.getID n).1.value))
        ++ q.getD [] → y.second ≠ e)
    (hret : (self.setElementNameAffix (some e) (some n) p q sid overwrite).ret = .ok r) :
    r = p.getD [] ++ ('#' :: (e.take 1 ++ Nat.toDigits 10 (h.getID n).1.value)) ++ q.getD [] ∧
      (self.setElementNameAffix (some e) (some n) p q sid overwrite).self.Hasher
        = some (h.getID n).2 ∧
      ∃ m', (self.setElementNameAffix (some e) (some n) p q sid overwrite).self._ElementMap
          = some m' ∧ m'.WF ∧
        (⟨r, e, [(h.getID n).1]⟩ : Entry) ∈ m'.left ∧
        (∀ x ∈ m'.left, x.first = r → x = ⟨r, e, [(h.getID n).1]⟩) := by
  cases e with
  | nil => exact absurd rfl he
  | cons e0 es =>
    simp only [List.take_succ_cons, List.take_zero, List.singleton_append] at hfresh ⊢
    have ha : p.getD [] ++ ('#' :: e0 :: Nat.toDigits 10 (h.getID n).1.value) ++ q.getD []
        ≠ [] := by
      intro h0
      have := congrArg List.length h0
      simp at this
    have hmark : starts_with
        (p.getD [] ++ ('#' :: e0 :: Nat.toDigits 10 (h.getID n).1.value) ++ q.getD [])
        elementMapPrefix = false := by
      rw [List.append_assoc, List.cons_append]
      exact starts_with_marker_append _ '#' (by decide) hp
    have h0 : ((ComplexGeoData.mk self._ElementMap none)._ElementMap.getD
        ElementMap.empty).WF := by
      cases hm : self._ElementMap with
      | none => exact ElementMap.empty_WF
      | some m => exact hwf m hm
    have hfresh' : ∀ y ∈ ((ComplexGeoData.mk self._ElementMap none)._ElementMap.getD
        ElementMap.empty).left,
        y.first = p.getD [] ++ ('#' :: e0 :: Nat.toDigits 10 (h.getID n).1.value) ++ q.getD []
          → y.second ≠ e0 :: es := by
      cases hm : self._ElementMap with
      | none => intro y hy; simp [ElementMap.empty] at hy
      | some m => exact hfresh m hm
    rw [setElementNameAffix_hashed self h e0 es n p q sid overwrite hH hsid hpq,
      setElementName_plain _ _ overwrite (by simp) ha hmark (Or.inl rfl)] at hret ⊢
    simp only [Option.getD_some] at hret ⊢
    cases hins : (insertRelation ⟨some ((ComplexGeoData.mk self._ElementMap none)._ElementMap.getD
        ElementMap.empty), (ComplexGeoData.mk self._ElementMap none).Hasher⟩
        ((ComplexGeoData.mk self._ElementMap none)._ElementMap.getD ElementMap.empty)
        (p.getD [] ++ ('#' :: e0 :: Nat.toDigits 10 (h.getID n).1.value) ++ q.getD [])
        (e0 :: es) [(h.getID n).1] overwrite).ret with
    | error err =>
      simp only [putBack, hins] at hret
      cases hret
    | ok r' =>
      have hform := insertRelation_ok_fresh _ _ _ _ _ overwrite h0 hfresh' hins
      rw [hform] at hret ⊢
      simp only [putBack, Except.ok.injEq] at hret ⊢
      subst hret
      have hw := setElementName_WF (ComplexGeoData.mk self._ElementMap none)
        (some (e0 :: es))
        (some (p.getD [] ++ ('#' :: e0 :: Nat.toDigits 10 (h.getID n).1.value) ++ q.getD []))
        (some [(h.getID n).1]) overwrite hwf
      rw [setElementName_plain _ _ overwrite (by simp) ha hmark (Or.inl rfl)] at hw
      simp only [Option.getD_some] at hw
      rw [hform] at hw
      have hwf' := hw _ rfl
      refine ⟨rfl, trivial, _, rfl, hwf', mem_insertBy.mpr (Or.inl rfl), ?_⟩
      intro x hx hxk
      rcases mem_insertBy.mp hx with hx1 | hx1
      · exact hx1
      · have := (List.mem_filter.mp hx1).2
        simp [hxk] at this

/-- C14 at a concrete input: `Face3` with prefix `A` and postfix `B` on a host
with an empty hasher is registered as `A#F1B`. -/
theorem C14_hashed_affix_registration_witness :
    "A#F1B".toList = (some "A".toList).getD [] ++
        ('#' :: ("Face3".toList.take 1 ++
          Nat.toDigits 10 ((⟨[], 0, 0⟩ : StringHasher).getID "Face3".toList).1.value))
        ++ (some "B".toList).getD [] ∧
      ((ComplexGeoData.mk none (some ⟨[], 0, 0⟩)).setElementNameAffix (some "Face3".toList)
        (some "Face3".toList) (some "A".toList) (some "B".toList) none false).self.Hasher
        = some ((⟨[], 0, 0⟩ : StringHasher).getID "Face3".toList).2 ∧
      ∃ m', ((ComplexGeoData.mk none (some ⟨[], 0, 0⟩)).setElementNameAffix
          (some "Face3".toList) (some "Face3".toList) (some "A".toList) (some "B".toList)
          none false).self._ElementMap = some m' ∧ m'.WF ∧
        (⟨"A#F1B".toList, "Face3".toList,
          [((⟨[], 0, 0⟩ : StringHasher).getID "Face3".toList).1]⟩ : Entry) ∈ m'.left ∧
        (∀ x ∈ m'.left, x.first = "A#F1B".toList → x = ⟨"A#F1B".toList, "Face3".toList,
          [((⟨[], 0, 0⟩ : StringHasher).getID "Face3".toList).1]⟩) :=
  C14_hashed_affix_registration (ComplexGeoData.mk none (some ⟨[], 0, 0⟩)) ⟨[], 0, 0⟩
    "Face3".toList "Face3".toList "A#F1B".toList (some "A".toList) (some "B".toList) none false
    rfl (Or.inl rfl) (by decide) (by decide) (by decide)
    (fun m hm => by cases hm) (fun m hm => by cases hm) rfl

/-- C14 as stated fails when the map already holds the assembled name for the
element: the host holds `A#F1 -> Face1` with the string id 7, and
`setElementName("Face1", "Face1", "A", null)` returns `A#F1` and leaves that
relation as it is, with the string id 7 instead of the reference 1 of the
hasher for `Face1`. -/
theorem C14_counterexample :
    (ComplexGeoData.mk (some ⟨[⟨"A#F1".toList, "Face1".toList, [⟨7⟩]⟩],
        [⟨"A#F1".toList, "Face1".toList, [⟨7⟩]⟩]⟩) (some ⟨[], 0, 0⟩)).setElementNameAffix
        (some "Face1".toList) (some "Face1".toList) (some "A".toList) none none false
      = ⟨.ok "A#F1".toList, ComplexGeoData.mk (some ⟨[⟨"A#F1".toList, "Face1".toList, [⟨7⟩]⟩],
          [⟨"A#F1".toList, "Face1".toList, [⟨7⟩]⟩]⟩) (some ⟨["Face1".toList], 0, 0⟩)⟩ ∧
    ((⟨[], 0, 0⟩ : StringHasher).getID "Face1".toList).1 = ⟨1⟩ := by
  constructor <;> rfl

/-- C15: for a non-null name `hashElementName` returns what its reference
definition gives, the returned string and the vector `sid` afterwards; without
hasher the host is untouched, with a hasher `h` the hasher becomes `h` after
`getID(name)` and nothing else changes. -/
theorem C15_hashElementName_refines (self : ComplexGeoData) (type : Char) (name : Str)
    (sid : List StringIDRef) :
    (self.hashElementName type (some name) sid).ret
        = .ok (hashElementName_spec self.Hasher type name sid) ∧
      (self.Hasher = none → (self.hashElementName type (some name) sid).self = self) ∧
      (∀ h, self.Hasher = some h → (self.hashElementName type (some name) sid).self
        = ⟨self._ElementMap, some (h.getID name).2⟩) := by
  obtain ⟨em, hs⟩ := self
  cases hs with
  | none => exact ⟨rfl, fun _ => rfl, fun h hh => by cases hh⟩
  | some h =>
    refine ⟨?_, ?_, ?_⟩
    · simp only [hashElementName, hashElementName_spec, toDigits_eq_decimal]
    · intro hh; cases hh
    · intro h' hh
      simp only [Option.some.injEq] at hh
      subst hh
      rfl

/-- C15 at the input of the specification: type `F` and name `Face3` with a
fresh hasher, whose reference for `Face3` has the value 1, give `#F1`. -/
theorem C15_hashElementName_refines_witness :
    ((ComplexGeoData.mk none (some ⟨[], 0, 0⟩)).hashElementName 'F' (some "Face3".toList) []).ret
      = .ok ("#F1".toList, [⟨1⟩]) :=
  (C15_hashElementName_refines (ComplexGeoData.mk none (some ⟨[], 0, 0⟩)) 'F'
    "Face3".toList []).1.trans (by
      rw [hashElementName_spec, ← toDigits_eq_decimal]
      rfl)

/-- C16, amended: `hashElementName` throws the `ValueError` with the message
`invalid element name`, leaving the host and its hasher as they were, whenever
the name is null, with or without hasher; the empty name is not rejected but
treated like any other name, as the reference definition says. -/
theorem C16_null_name_rejected (self : ComplexGeoData) (type : Char)
    (sid : List StringIDRef) :
    self.hashElementName type none sid
        = ⟨.error (.ValueError "invalid element name".toList), self⟩ ∧
      (self.hashElementName type (some []) sid).ret
        = .ok (hashElementName_spec self.Hasher type [] sid) := by
  refine ⟨rfl, ?_⟩
  obtain ⟨em, hs⟩ := self
  cases hs with
  | none => rfl
  | some h => simp only [hashElementName, hashElementName_spec, toDigits_eq_decimal]

/-- C16 as stated fails for the empty name: without hasher it is returned as
it is, and with a fresh hasher it is hashed, which gives `#F1`, appends the
reference to `sid` and enters the empty string into the table of the hasher. -/
theorem C16_counterexample :
    (ComplexGeoData.mk none none).hashElementName 'F' (some []) [⟨9⟩]
      = ⟨.ok ([], [⟨9⟩]), ComplexGeoData.mk none none⟩ ∧
    (ComplexGeoData.mk none (some ⟨[], 0, 0⟩)).hashElementName 'F' (some []) [⟨9⟩]
      = ⟨.ok ("#F1".toList, [⟨9⟩, ⟨1⟩]), ComplexGeoData.mk none (some ⟨[[]], 0, 0⟩)⟩ := by
  constructor <;> rfl

/-- C17, the code at the failing input: for `.;F1.0007` the final segment
between the first and the last `.` is `;F1`, so that the reference definition
gives `.;F1`, but `newElementName` returns the input unchanged: its backward
scan stops at the first character without looking at it. The inputs of the
specification give `link.;F1` and `link.box`. -/
theorem C17_leading_dot_not_stripped :
    newElementName (some ".;F1.0007".toList) = ".;F1.0007".toList ∧
    newElementName_spec ".;F1.0007".toList = ".;F1".toList ∧
    newElementName (some "link.;F1.0007".toList) = "link.;F1".toList ∧
    newElementName (some "link.box".toList) = "link.box".toList := by
  refine ⟨?_, ?_, ?_, ?_⟩ <;> rfl

/-- C18, amended: without hasher on source and destination, for a source map
with non-empty original names and affixes `p`, `q` (absent or empty counting as
empty) such that every `p ++ k ++ q` for a mapped name `k` of the source is
non-empty and does not start with the marker, `copyElementMap(source, p, q)`
returns normally and leaves the destination without hasher, holding exactly the
relations `p ++ k ++ q -> e` with the string ids of `k -> e`, one for each
relation of the source, registered in the order of the source's mapped names,
whatever the destination held before, the source being another host than the
destination; when the source has no map the destination has none afterwards,
and so has a host that is given itself as the source. -/
theorem C18_copy_without_hasher (self data : ComplexGeoData) (p q : Option Str)
    (hH : self.Hasher = none) (hD : data.Hasher = none) :
    (∀ source, data._ElementMap = some source → source.WF →
      (∀ x ∈ source.left, x.second ≠ []) →
      (∀ x ∈ source.left, p.getD [] ++ x.first ++ q.getD [] ≠ [] ∧
        starts_with (p.getD [] ++ x.first ++ q.getD []) elementMapPrefix = false) →
      ∃ dest, self.copyElementMap (.other data) p q = ⟨.ok (), dest⟩ ∧ dest.Hasher = none ∧
        dest.Holds (source.left.map
          (fun x => ⟨p.getD [] ++ x.first ++ q.getD [], x.second, x.info⟩)) ∧
        (∀ m', dest._ElementMap = some m' → ∀ z : Entry, z ∈ m'.left ↔
          ∃ x ∈ source.left, z = ⟨p.getD [] ++ x.first ++ q.getD [], x.second, x.info⟩)) ∧
    (data._ElementMap = none →
      self.copyElementMap (.other data) p q = ⟨.ok (), ⟨none, none⟩⟩) ∧
    self.copyElementMap .itself p q = ⟨.ok (), ⟨none, none⟩⟩ := by
  obtain ⟨em, hs⟩ := self
  simp only at hH
  subst hH
  refine ⟨?_, ?_, rfl⟩
  · intro source hsrc hwf horig hkey
    have hP : (if p = some [] then none else p).getD [] = p.getD [] := by
      by_cases h : p = some []
      · rw [if_pos h, h]; rfl
      · rw [if_neg h]
    have hQ : (if q = some [] then none else q).getD [] = q.getD [] := by
      by_cases h : q = some []
      · rw [if_pos h, h]; rfl
      · rw [if_neg h]
    have hnodup : (([] ++ source.left).map Entry.first).Nodup := by
      rw [List.nil_append, List.Nodup, List.pairwise_map]
      refine List.Pairwise.imp ?_ hwf.1
      intro a b hab he
      rw [he, strLt_irrefl] at hab
      cases hab
    have hloop := copyLoop_noHasher data (if p = some [] then none else p)
      (if q = some [] then none else q) source.left [] ⟨none, data.Hasher⟩ hD hD horig
      (by rw [hP, hQ]; exact hkey) hnodup rfl
    rw [hP, hQ] at hloop
    obtain ⟨dest, hd1, hd2, hd3⟩ := hloop
    refine ⟨dest, ?_, hd2, by simpa using hd3, ?_⟩
    · simp only [copyElementMap, HostRef.deref, hsrc, if_true]
      exact hd1
    · intro m' hm' z
      have hreg := hd3
      unfold Holds at hreg
      rw [hm'] at hreg
      rw [Registered.mem_left hreg]
      simp only [List.nil_append, List.mem_map]
      constructor
      · rintro ⟨x, hx, rfl⟩; exact ⟨x, hx, rfl⟩
      · rintro ⟨x, hx, rfl⟩; exact ⟨x, hx, rfl⟩
  · intro hnone
    simp only [copyElementMap, HostRef.deref, hnone]

/-- C18 at a concrete input: the sample map copied with prefix `P` and postfix
`Q` over a destination that held something else. -/
theorem C18_copy_without_hasher_witness :
    (ComplexGeoData.mk (some ⟨[⟨"old".toList, "Face7".toList, []⟩],
        [⟨"old".toList, "Face7".toList, []⟩]⟩) none).copyElementMap (.other sampleHost)
        (some "P".toList) (some "Q".toList)
      = ⟨.ok (), ⟨some ⟨[⟨"PbarQ".toList, "Face1".toList, [⟨3⟩]⟩,
            ⟨"PbazQ".toList, "Edge2".toList, []⟩,
            ⟨"PfooQ".toList, "Face1".toList, []⟩],
          [⟨"PbazQ".toList, "Edge2".toList, []⟩,
            ⟨"PbarQ".toList, "Face1".toList, [⟨3⟩]⟩,
            ⟨"PfooQ".toList, "Face1".toList, []⟩]⟩, none⟩⟩ :=
  Exists.elim
    ((C18_copy_without_hasher (ComplexGeoData.mk (some ⟨[⟨"old".toList, "Face7".toList, []⟩],
        [⟨"old".toList, "Face7".toList, []⟩]⟩) none) sampleHost (some "P".toList)
        (some "Q".toList) rfl rfl).1 sampleMap rfl sampleMap_WF (by decide) (by decide))
    (fun _ h => h.1.trans (h.1.symm.trans rfl))

/-- C18 as stated fails for a prefix that starts with the marker: copying
`foo -> Face1` with the prefix `;` registers `foo`, not `;foo`, because the
registration removes a leading marker. It also fails when an assembled name is
empty: copying the relation of the empty mapped name without affixes is a
deletion request on the destination's map, which was just reset. And it fails
when the source is the destination itself: the map is reset before the source
is read, so that the sample host, which held three relations, copies nothing
from itself and is left without map. -/
theorem C18_counterexample :
    (ComplexGeoData.mk none none).copyElementMap
        (.other (ComplexGeoData.mk (some ⟨[⟨"foo".toList, "Face1".toList, []⟩],
          [⟨"foo".toList, "Face1".toList, []⟩]⟩) none)) (some ";".toList) none
      = ⟨.ok (), ComplexGeoData.mk (some ⟨[⟨"foo".toList, "Face1".toList, []⟩],
          [⟨"foo".toList, "Face1".toList, []⟩]⟩) none⟩ ∧
    (ComplexGeoData.mk none none).copyElementMap
        (.other (ComplexGeoData.mk (some ⟨[⟨[], "Face1".toList, []⟩],
          [⟨[], "Face1".toList, []⟩]⟩) none)) none none
      = ⟨.error .nullDeref, ComplexGeoData.mk none none⟩ ∧
    sampleHost.copyElementMap .itself (some "P".toList) none
      = ⟨.ok (), ComplexGeoData.mk none none⟩ ∧
    sampleHost.getElementMapSize = 3 := by
  refine ⟨?_, ?_, ?_, ?_⟩ <;> rfl

/-- C19, the code at the failing input: the destination has a fresh hasher of
its own, the source another hasher and the relation `#F1 -> Face1` with one
string id. `copyElementMap(source, "P_", null)` registers `P_#F1#F1`, not
`P_#F1`: the empty name passed along with the merged prefix is hashed by the
destination's hasher, whose table holds the empty string afterwards, and the
token `#F1` for it is appended. -/
theorem C19_copy_hashes_empty_name :
    (ComplexGeoData.mk none (some ⟨[], 0, 1⟩)).copyElementMap
        (.other (ComplexGeoData.mk (some ⟨[⟨"#F1".toList, "Face1".toList, [⟨1⟩]⟩],
          [⟨"#F1".toList, "Face1".toList, [⟨1⟩]⟩]⟩) (some ⟨["Face1".toList], 0, 2⟩)))
        (some "P_".toList) none
      = ⟨.ok (), ComplexGeoData.mk (some ⟨[⟨"P_#F1#F1".toList, "Face1".toList, [⟨1⟩]⟩],
          [⟨"P_#F1#F1".toList, "Face1".toList, [⟨1⟩]⟩]⟩) (some ⟨[[]], 0, 1⟩)⟩ := by
  rfl

/-- A call of `copyElementMap` that throws can leave the destination without
hasher. Destination and source share the hasher at address 5, whose table holds
two strings; the source holds `#F3 -> Face1` with a string id and `foo -> Face2`
without. `copyElementMap(source, "P", null)` registers `P#F3` for `Face1`, then
hashes `foo` to `#F3` and, with the hasher swapped out, finds `P#F3` taken: it
throws before the hasher is put back. -/
theorem copyElementMap_hasher_lost_on_throw :
    (ComplexGeoData.mk none (some ⟨["x".toList, "y".toList], 0, 5⟩)).copyElementMap
        (.other (ComplexGeoData.mk (some ⟨[⟨"#F3".toList, "Face1".toList, [⟨9⟩]⟩,
            ⟨"foo".toList, "Face2".toList, []⟩],
          [⟨"#F3".toList, "Face1".toList, [⟨9⟩]⟩, ⟨"foo".toList, "Face2".toList, []⟩]⟩)
          (some ⟨["x".toList, "y".toList], 0, 5⟩)))
        (some "P".toList) none
      = ⟨.error (.ValueError "duplicate element mapping 'P#F3->Face2/Face1".toList),
          ComplexGeoData.mk (some ⟨[⟨"P#F3".toList, "Face1".toList, [⟨9⟩]⟩],
            [⟨"P#F3".toList, "Face1".toList, [⟨9⟩]⟩]⟩) none⟩ := by
  rfl

/-- C20, amended: when the source has an element map and
`copyElementMap(source, prefix, postfix)` has returned, the destination's hasher
is the instance of the source if the destination had none before, and the
instance it had otherwise. When the source has no element map the call returns
at once and the destination keeps what it had, without adopting the hasher of
the source; the same holds when the source is the destination itself, whose
map has just been reset. -/
theorem C20_hasher_after_copy (self data : ComplexGeoData) (p q : Option Str) :
    (∀ source, data._ElementMap = some source →
      (self.copyElementMap (.other data) p q).ret = .ok () →
      (self.Hasher = none →
        (self.copyElementMap (.other data) p q).self.Hasher.map StringHasher.addr
          = data.Hasher.map StringHasher.addr) ∧
      (self.Hasher ≠ none →
        (self.copyElementMap (.other data) p q).self.Hasher.map StringHasher.addr
          = self.Hasher.map StringHasher.addr)) ∧
    (data._ElementMap = none →
      self.copyElementMap (.other data) p q = ⟨.ok (), ⟨none, self.Hasher⟩⟩) ∧
    self.copyElementMap .itself p q = ⟨.ok (), ⟨none, self.Hasher⟩⟩ := by
  refine ⟨?_, ?_, rfl⟩
  · intro source hm hret
    have h := copyElementMap_ok_addr self data p q hm hret
    constructor
    · intro hH
      rw [h, if_pos hH]
    · intro hH
      rw [h, if_neg hH]
  · intro hnone
    simp only [copyElementMap, HostRef.deref, hnone]

/-- C20 at a concrete input: a destination without hasher copies the sample map
from a source whose hasher is at address 5, and has that hasher afterwards. -/
theorem C20_hasher_after_copy_witness :
    ((ComplexGeoData.mk none none).copyElementMap
        (.other (ComplexGeoData.mk (some sampleMap) (some ⟨[], 0, 5⟩))) none none).self.Hasher.map
        StringHasher.addr = some 5 :=
  (((C20_hasher_after_copy (ComplexGeoData.mk none none)
      (ComplexGeoData.mk (some sampleMap) (some ⟨[], 0, 5⟩)) none none).1
      sampleMap rfl rfl).1 rfl).trans rfl

/-- C20 as stated fails for a source without element map: the destination had
no hasher, the source has the hasher at address 5, and after the call the
destination still has none. -/
theorem C20_counterexample :
    (ComplexGeoData.mk none none).copyElementMap
        (.other (ComplexGeoData.mk none (some ⟨[], 0, 5⟩))) (some "P".toList) none
      = ⟨.ok (), ComplexGeoData.mk none none⟩ := by
  rfl

/-! ## Lemmas on path names, persistence, shared maps and sequences of calls -/

theorem segmentStart_after_dot (s : Str) (c k : Nat) (h1 : 1 ≤ k) (hk : k ≤ c)
    (hdot : s[k]? = some '.') : k < segmentStart s c := by
  induction c with
  | zero => omega
  | succ c ih =>
    simp only [segmentStart]
    split
    · omega
    · rename_i hne
      have hkc : k ≠ c + 1 := by
        intro heq
        rw [heq] at hdot
        exact hne hdot
      have := ih (by omega)
      omega

theorem isMappedElement_drop_some {s : Str} {c : Nat} {r : Str}
    (h : isMappedElement (some (s.drop c)) = some r) : s[c]? = some ';' := by
  simp only [isMappedElement] at h
  split at h
  · rename_i hst
    have := (starts_with_marker_iff _).mp hst
    simpa [List.head?_drop] using this
  · exact absurd h (by simp)

namespace ComplexGeoData

theorem insertRelation_map_some (self : ComplexGeoData) (m : ElementMap) (name element : Str)
    (sid : List StringIDRef) (overwrite : Bool) :
    ∃ m', (self.insertRelation m name element sid overwrite).self._ElementMap = some m' := by
  unfold insertRelation
  simp only
  split
  · split
    · exact ⟨_, rfl⟩
    · exact ⟨_, rfl⟩
  · exact ⟨_, rfl⟩

theorem setElementName_map_some (self : ComplexGeoData) (element name : Option Str)
    (sid : Option (List StringIDRef)) (overwrite : Bool) {m : ElementMap}
    (hm : self._ElementMap = some m) :
    ∃ m', (self.setElementName element name sid overwrite).self._ElementMap = some m' := by
  rcases setElementName_cases self element name sid overwrite with hc | hc | hc
  · rw [hc]; exact ⟨m, hm⟩
  · obtain ⟨m0, e, _, _, hout⟩ := hc
    rw [hout]; exact ⟨_, rfl⟩
  · obtain ⟨e, nm, ids, H, _, hout⟩ := hc
    rw [hout]
    exact insertRelation_map_some _ _ _ _ _ _

/-- The getters read nothing of the host but its map. -/
theorem getters_congr {x y : ComplexGeoData} (h : x._ElementMap = y._ElementMap) :
    (∀ n reverse acc, x.getElementName n reverse acc = y.getElementName n reverse acc) ∧
    (∀ e needUnmapped, x.getElementMappedNames e needUnmapped
      = y.getElementMappedNames e needUnmapped) ∧
    (∀ p, x.getElementNamesWithPrefix p = y.getElementNamesWithPrefix p) ∧
    x.getElementMapSize = y.getElementMapSize := by
  refine ⟨?_, ?_, ?_, ?_⟩
  · intro n reverse acc
    simp only [getElementName, h]
  · intro e needUnmapped
    simp only [getElementMappedNames, h]
  · intro p
    simp only [getElementNamesWithPrefix, h]
  · simp only [getElementMapSize, h]

end ComplexGeoData

namespace ComplexGeoData

theorem saveSidsTail_eq (r : StringIDRef) (rs : List StringIDRef) :
    Nat.toDigits 10 r.value ++ saveSidsTail rs
      = List.intercalate ['.'] ((r :: rs).map (fun x => decimal x.value)) := by
  induction rs generalizing r with
  | nil => simp [saveSidsTail, List.intercalate, toDigits_eq_decimal]
  | cons x xs ih =>
    have h := ih x
    simp only [List.intercalate, List.map_cons, List.intersperse, List.flatten] at h ⊢
    simp only [saveSidsTail, toDigits_eq_decimal] at h ⊢
    rw [← h]
    simp

theorem saveElement_eq (v : Entry) : saveElement v = renderRecord (recordOf v) := by
  obtain ⟨k, e, info⟩ := v
  cases info with
  | nil => simp [saveElement, renderRecord, recordOf]
  | cons r rs =>
    have h := saveSidsTail_eq r rs
    simp only [saveElement, renderRecord, recordOf, saveSids, List.length_cons, ne_eq,
      Nat.succ_ne_zero, not_false_eq_true, if_true, reduceCtorEq, if_false]
    rw [List.append_assoc ("\" sid=\"".toList), h]

end ComplexGeoData

namespace ComplexGeoData

theorem restoreSids_noHasher (self : ComplexGeoData) (sid : Option Str)
    (hH : self.Hasher = none) : self.restoreSids sid = [] := by
  unfold restoreSids
  cases sid with
  | none => rfl
  | some txt => simp only [hH]

theorem restoreLoop_noHasher (todo : List Entry) :
    ∀ (done : List Entry) (self : ComplexGeoData),
      self.Hasher = none →
      (∀ x ∈ todo, x.second ≠ []) →
      (∀ x ∈ todo, x.first ≠ [] ∧ starts_with x.first elementMapPrefix = false) →
      ((done ++ todo).map Entry.first).Nodup →
      self.Holds (done.map (fun x => ⟨x.first, x.second, []⟩)) →
      ∃ dest, self.restoreLoop (todo.map recordOf) = ⟨.ok (), dest⟩ ∧ dest.Hasher = none ∧
        dest.Holds ((done ++ todo).map (fun x => ⟨x.first, x.second, []⟩)) := by
  induction todo with
  | nil =>
    intro done self hH _ _ _ hholds
    exact ⟨self, rfl, hH, by simpa using hholds⟩
  | cons v vs ih =>
    intro done self hH horig hkey hnodup hholds
    have hve : v.second ≠ [] := horig v (List.mem_cons_self _ _)
    obtain ⟨hva, hvm⟩ := hkey v (List.mem_cons_self _ _)
    have hreg := holds_getD hholds
    have hnew : ∀ y ∈ (self._ElementMap.getD ElementMap.empty).left, y.first ≠ v.first := by
      intro y hy he
      obtain ⟨d, hd, rfl⟩ := List.mem_map.mp (hreg.mem_left.mp hy)
      simp only at he
      rw [List.map_append, List.nodup_append] at hnodup
      exact hnodup.2.2 (List.mem_map_of_mem _ hd) (by simp [he])
    have hout : self.setElementNameAffix (some (recordOf v).value) (some [])
          (some (recordOf v).key) none (some (self.restoreSids (recordOf v).sid)) false =
          ⟨.ok v.first,
            ⟨some ⟨insertBy Entry.first ⟨v.first, v.second, []⟩
                (self._ElementMap.getD ElementMap.empty).left,
              insertBy Entry.second ⟨v.first, v.second, []⟩
                (self._ElementMap.getD ElementMap.empty).right⟩, none⟩⟩ := by
      rw [restoreSids_noHasher self _ hH]
      have hrec : (recordOf v).value = v.second ∧ (recordOf v).key = v.first := ⟨rfl, rfl⟩
      rw [hrec.1, hrec.2, setElementNameAffix_noHasher self [] (some v.first) none (some [])
        false hH hve]
      simp only [Option.getD_some, Option.getD_none, List.append_nil]
      rw [setElementName_plain self (some []) false hve hva hvm (Or.inl hH),
        Option.getD_some, insertRelation_new _ v.second _ false hnew]
      simp only [hH]
    have hins := hreg.insert (x := ⟨v.first, v.second, []⟩) hnew
    rw [ElementMap.left_insert_new (x := ⟨v.first, v.second, []⟩) hnew] at hins
    have hnext := ih (done ++ [v])
      ⟨some ⟨insertBy Entry.first ⟨v.first, v.second, []⟩
          (self._ElementMap.getD ElementMap.empty).left,
        insertBy Entry.second ⟨v.first, v.second, []⟩
          (self._ElementMap.getD ElementMap.empty).right⟩, none⟩
      rfl (fun x hx => horig x (List.mem_cons_of_mem _ hx))
      (fun x hx => hkey x (List.mem_cons_of_mem _ hx))
      (by simpa using hnodup)
      (by
        unfold Holds
        simp only [List.map_append, List.map_cons, List.map_nil]
        exact hins)
    obtain ⟨dest, hd1, hd2, hd3⟩ := hnext
    refine ⟨dest, ?_, hd2, by simpa using hd3⟩
    rw [List.map_cons, restoreLoop, hout]
    exact hd1

end ComplexGeoData

namespace ComplexGeoData

theorem originalsNonEmpty_congr {x y : ComplexGeoData} (h : x._ElementMap = y._ElementMap)
    (hx : x.OriginalsNonEmpty) : y.OriginalsNonEmpty := by
  unfold OriginalsNonEmpty at hx ⊢
  rw [← h]
  exact hx

theorem left_insert_mem (m : ElementMap) (x : Entry) :
    ∀ z, z ∈ (m.left_insert x).1.left ∨ z ∈ (m.left_insert x).1.right →
      z = x ∨ z ∈ m.left ∨ z ∈ m.right := by
  intro z hz
  unfold ElementMap.left_insert at hz
  cases hf : m.left_find x.first with
  | some y =>
    rw [hf] at hz
    exact Or.inr hz
  | none =>
    rw [hf] at hz
    simp only [mem_insertBy] at hz
    rcases hz with (h | h) | (h | h)
    · exact Or.inl h
    · exact Or.inr (Or.inl h)
    · exact Or.inl h
    · exact Or.inr (Or.inr h)

theorem eraseNodes_mem (m : ElementMap) (nodes : List Entry) :
    ∀ z, z ∈ (m.eraseNodes nodes).left ∨ z ∈ (m.eraseNodes nodes).right →
      z ∈ m.left ∨ z ∈ m.right := by
  intro z hz
  unfold ElementMap.eraseNodes at hz
  rcases hz with h | h
  · exact Or.inl (List.mem_filter.mp h).1
  · exact Or.inr (List.mem_filter.mp h).1

theorem insertRelation_mem (self : ComplexGeoData) (m : ElementMap) (name element : Str)
    (sid : List StringIDRef) (overwrite : Bool) :
    ∃ m', (self.insertRelation m name element sid overwrite).self._ElementMap = some m' ∧
      ∀ z, z ∈ m'.left ∨ z ∈ m'.right →
        z = ⟨name, element, sid⟩ ∨ z ∈ m.left ∨ z ∈ m.right := by
  unfold insertRelation
  simp only
  split
  · split
    · refine ⟨_, rfl, ?_⟩
      intro z hz
      rcases left_insert_mem _ _ z hz with h | h
      · exact Or.inl h
      · rcases eraseNodes_mem _ _ z h with h2
        rcases left_insert_mem _ _ z h2 with h3 | h3
        · exact Or.inl h3
        · exact Or.inr h3
    · exact ⟨_, rfl, fun z hz => left_insert_mem _ _ z hz⟩
  · exact ⟨_, rfl, fun z hz => left_insert_mem _ _ z hz⟩

theorem setElementName_originals (self : ComplexGeoData) (element name : Option Str)
    (sid : Option (List StringIDRef)) (overwrite : Bool) (h : self.OriginalsNonEmpty) :
    (self.setElementName element name sid overwrite).self.OriginalsNonEmpty := by
  have h0 : ∀ z, z ∈ (self._ElementMap.getD ElementMap.empty).left ∨
      z ∈ (self._ElementMap.getD ElementMap.empty).right → z.second ≠ [] := by
    unfold OriginalsNonEmpty at h
    cases hm : self._ElementMap with
    | none => intro z hz; simp [ElementMap.empty] at hz
    | some m => rw [hm] at h; exact h
  rcases setElementName_cases self element name sid overwrite with hc | hc | hc
  · rw [hc]; exact h
  · obtain ⟨m, e, hm, _, hout⟩ := hc
    rw [hout]
    unfold OriginalsNonEmpty at h ⊢
    rw [hm] at h
    simp only at h ⊢
    intro z hz
    exact h z (eraseNodes_mem _ _ z hz)
  · obtain ⟨e, nm, ids, H, he, hout⟩ := hc
    cases e with
    | nil =>
      rw [he]
      exact h
    | cons e0 es =>
      rw [hout]
      obtain ⟨m', hm', hmem⟩ := insertRelation_mem
        ⟨some (self._ElementMap.getD ElementMap.empty), H⟩
        (self._ElementMap.getD ElementMap.empty) nm (e0 :: es) ids overwrite
      unfold OriginalsNonEmpty
      rw [hm']
      simp only
      intro z hz
      rcases hmem z hz with h1 | h1
      · rw [h1]; simp
      · exact h0 z h1

theorem putBack_map (out : Outcome Str) (hasher : Option StringHasher) :
    (putBack out hasher).self._ElementMap = out.self._ElementMap := by
  unfold putBack
  cases out.ret <;> rfl

theorem registerAssembled_originals (self : ComplexGeoData) (element ss name : Str)
    (sid : Option (List StringIDRef)) (overwrite : Bool) (h : self.OriginalsNonEmpty) :
    (self.registerAssembled element ss name sid overwrite).self.OriginalsNonEmpty := by
  unfold registerAssembled
  split
  · exact setElementName_originals _ _ _ _ _ h
  · refine originalsNonEmpty_congr (putBack_map _ _).symm ?_
    exact setElementName_originals _ _ _ _ _ (originalsNonEmpty_congr rfl h)

theorem setElementNameAffix_originals (self : ComplexGeoData) (element name pfx sfx : Option Str)
    (sid : Option (List StringIDRef)) (overwrite : Bool) (h : self.OriginalsNonEmpty) :
    (self.setElementNameAffix element name pfx sfx sid overwrite).self.OriginalsNonEmpty := by
  cases element with
  | none => exact setElementName_originals _ _ _ _ _ h
  | some el =>
    cases el with
    | nil => exact setElementName_originals _ _ _ _ _ h
    | cons e0 es =>
      cases name with
      | none => exact setElementName_originals _ _ _ _ _ h
      | some n =>
        simp only [setElementNameAffix]
        by_cases hpq : pfx = none ∧ sfx = none
        · rw [if_pos hpq]
          exact setElementName_originals _ _ _ _ _ h
        · rw [if_neg hpq]
          by_cases hcond : (sid = none ∨ sid = some []) ∧ self.Hasher ≠ none
          · rw [if_pos hcond]
            cases hH : self.Hasher with
            | none => exact absurd hH hcond.2
            | some hs =>
              simp only [hashElementName, hH]
              exact registerAssembled_originals _ _ _ _ _ _ (originalsNonEmpty_congr rfl h)
          · rw [if_neg hcond]
            exact registerAssembled_originals _ _ _ _ _ _ h

theorem copyEntry_originals (self data : ComplexGeoData) (pfx sfx : Option Str) (v : Entry)
    (h : self.OriginalsNonEmpty) : (self.copyEntry data pfx sfx v).self.OriginalsNonEmpty := by
  unfold copyEntry
  split
  · split
    · exact setElementNameAffix_originals _ _ _ _ _ _ _ h
    · exact setElementNameAffix_originals _ _ _ _ _ _ _ h
  · exact setElementNameAffix_originals _ _ _ _ _ _ _ h

theorem copyLoop_originals (data : ComplexGeoData) (pfx sfx : Option Str) (todo : List Entry) :
    ∀ self : ComplexGeoData, self.OriginalsNonEmpty →
      (copyLoop self data pfx sfx todo).self.OriginalsNonEmpty := by
  induction todo with
  | nil => intro self h; exact h
  | cons v vs ih =>
    intro self h
    have hstep := copyEntry_originals self data pfx sfx v h
    unfold copyLoop
    cases hr : (self.copyEntry data pfx sfx v).ret with
    | error err => exact hstep
    | ok r => exact ih _ hstep

theorem copyElementMap_originals (self : ComplexGeoData) (data : HostRef)
    (pfx sfx : Option Str) : (self.copyElementMap data pfx sfx).self.OriginalsNonEmpty := by
  unfold copyElementMap
  simp only
  cases hd : (data.deref { self with _ElementMap := none })._ElementMap with
  | none => exact trivial
  | some source =>
    simp only
    apply copyLoop_originals
    split <;> exact trivial

theorem setElementMapLoop_originals (map : List (Str × Str)) :
    ∀ self : ComplexGeoData, self.OriginalsNonEmpty →
      (self.setElementMapLoop map).self.OriginalsNonEmpty := by
  induction map with
  | nil => intro self h; exact h
  | cons v vs ih =>
    intro self h
    have hstep := setElementName_originals self (some v.1) (some v.2) none false h
    unfold setElementMapLoop
    cases hr : (self.setElementName (some v.1) (some v.2) none false).ret with
    | error err => exact hstep
    | ok r => exact ih _ hstep

theorem setElementMap_originals (self : ComplexGeoData) (map : List (Str × Str)) :
    (self.setElementMap map).self.OriginalsNonEmpty := by
  unfold setElementMap
  apply setElementMapLoop_originals
  unfold OriginalsNonEmpty
  cases self._ElementMap <;> simp [ElementMap.empty]

theorem restoreLoop_originals (records : List ElementRecord) :
    ∀ self : ComplexGeoData, self.OriginalsNonEmpty →
      (self.restoreLoop records).self.OriginalsNonEmpty := by
  induction records with
  | nil => intro self h; exact h
  | cons r rs ih =>
    intro self h
    have hstep := setElementNameAffix_originals self (some r.value) (some []) (some r.key) none
      (some (self.restoreSids r.sid)) false h
    unfold restoreLoop
    cases hr : (self.setElementNameAffix (some r.value) (some []) (some r.key) none
      (some (self.restoreSids r.sid)) false).ret with
    | error err => exact hstep
    | ok v => exact ih _ hstep

theorem Restore_originals (self : ComplexGeoData) (doc : ElementMapXML) :
    (self.Restore doc).self.OriginalsNonEmpty := by
  unfold Restore
  cases doc with
  | selfClosing => exact trivial
  | counted elements => exact restoreLoop_originals _ _ trivial

end ComplexGeoData

theorem run_originals (self : ComplexGeoData) (c : Call) (h : self.OriginalsNonEmpty) :
    (Call.run self c).OriginalsNonEmpty := by
  cases c with
  | setElementName element name sid overwrite => exact setElementName_originals _ _ _ _ _ h
  | setElementNameAffix element name pfx sfx sid overwrite =>
    exact setElementNameAffix_originals _ _ _ _ _ _ _ h
  | setElementMap map => exact setElementMap_originals _ _
  | copyElementMap data pfx sfx => exact copyElementMap_originals _ _ _ _
  | Restore doc => exact Restore_originals _ _

theorem runCalls_originals (calls : List Call) :
    ∀ self : ComplexGeoData, self.OriginalsNonEmpty → (runCalls self calls).OriginalsNonEmpty := by
  induction calls with
  | nil => intro self h; exact h
  | cons c cs ih =>
    intro self h
    exact ih _ (run_originals self c h)

/-! ## Lemmas on the reader and on the fixed points of `newElementName` -/

theorem takeWhile_append_stop {p : Char → Bool} {a : Str} {b : Char} (r : Str)
    (ha : ∀ x ∈ a, p x = true) (hb : p b = false) : (a ++ b :: r).takeWhile p = a := by
  induction a with
  | nil => rw [List.nil_append, List.takeWhile_cons_of_neg (by simp [hb])]
  | cons x xs ih =>
    have hx : p x = true := ha x (List.mem_cons_self _ _)
    rw [List.cons_append, List.takeWhile_cons_of_pos hx,
      ih (fun y hy => ha y (List.mem_cons_of_mem _ hy))]

theorem dropWhile_append_stop {p : Char → Bool} {a : Str} {b : Char} (r : Str)
    (ha : ∀ x ∈ a, p x = true) (hb : p b = false) : (a ++ b :: r).dropWhile p = b :: r := by
  induction a with
  | nil => rw [List.nil_append, List.dropWhile_cons_of_neg (by simp [hb])]
  | cons x xs ih =>
    have hx : p x = true := ha x (List.mem_cons_self _ _)
    rw [List.cons_append, List.dropWhile_cons_of_pos hx,
      ih (fun y hy => ha y (List.mem_cons_of_mem _ hy))]

theorem plainChar_iff (c : Char) :
    plainChar c = true ↔ 32 ≤ c.toNat ∧ c ≠ '"' ∧ c ≠ '<' ∧ c ≠ '&' := by
  simp [plainChar, and_assoc]

theorem lineEnds_of_no_cr : ∀ (v : Str), (∀ c ∈ v, c ≠ '\r') → lineEnds v = v
  | [], _ => rfl
  | [c], h => by
    have := h c (List.mem_singleton.mpr rfl)
    simp [lineEnds, this]
  | c :: d :: ds, h => by
    have hc := h c (List.mem_cons_self _ _)
    have ih := lineEnds_of_no_cr (d :: ds) (fun x hx => h x (List.mem_cons_of_mem _ hx))
    simp only [lineEnds, hc, if_false]
    rw [ih]

theorem xmlSpace_plain {c : Char} (h : plainChar c = true) (hs : xmlSpace c = true) : c = ' ' := by
  rw [plainChar_iff] at h
  simp only [xmlSpace, Bool.or_eq_true, decide_eq_true_eq] at hs
  rcases hs with ((hs | hs) | hs) | hs
  · exact hs
  · rw [hs] at h; exact absurd h.1 (by decide)
  · rw [hs] at h; exact absurd h.1 (by decide)
  · rw [hs] at h; exact absurd h.1 (by decide)

theorem attributeValue_plain {v : Str} (h : plainText v = true) : attributeValue v = some v := by
  have hall : ∀ c ∈ v, plainChar c = true := by
    simpa [plainText, List.all_eq_true] using h
  have h1 : v.all (fun c => c != '<' && c != '&' && (decide (32 ≤ c.toNat) || xmlSpace c))
      = true := by
    rw [List.all_eq_true]
    intro c hc
    have := (plainChar_iff c).mp (hall c hc)
    simp [this.1, this.2.2.1, this.2.2.2]
  have h2 : lineEnds v = v := by
    apply lineEnds_of_no_cr
    intro c hc heq
    have := (plainChar_iff c).mp (hall c hc)
    rw [heq] at this
    exact absurd this.1 (by decide)
  have h3 : v.map (fun c => if xmlSpace c then ' ' else c) = v := by
    conv_rhs => rw [← List.map_id v]
    apply List.map_congr_left
    intro c hc
    by_cases hs : xmlSpace c = true
    · simp [hs, xmlSpace_plain (hall c hc) hs]
    · simp [hs]
  simp only [attributeValue, h1, if_true, h2, h3]

theorem plain_no_quote {v : Str} (h : plainText v = true) :
    ∀ x ∈ v, (fun c : Char => c != '"') x = true := by
  have hall : ∀ c ∈ v, plainChar c = true := by
    simpa [plainText, List.all_eq_true] using h
  intro x hx
  have := (plainChar_iff x).mp (hall x hx)
  simp [this.2.1]

theorem readAttributes_step (fuel : Nat) (c0 : Char) (n v rest : Str)
    (hc0 : xmlSpace c0 = false) (hc1 : c0 ≠ '/') (hc2 : c0 ≠ '>') (hc3 : c0 ≠ '=')
    (hn : ∀ x ∈ n, x ≠ '=') (hv : plainText v = true) :
    readAttributes (fuel + 1) (' ' :: (c0 :: n ++ '=' :: '"' :: (v ++ '"' :: rest))) =
      (readAttributes fuel rest).map (fun r => ((c0 :: n, v) :: r.1, r.2)) := by
  have hd1 : (' ' :: (c0 :: n ++ '=' :: '"' :: (v ++ '"' :: rest))).dropWhile xmlSpace
      = c0 :: (n ++ '=' :: '"' :: (v ++ '"' :: rest)) := by
    rw [List.dropWhile_cons_of_pos (by rfl), List.cons_append,
      List.dropWhile_cons_of_neg (by simp [hc0])]
  have hnall : ∀ x ∈ c0 :: n, (fun c : Char => c != '=') x = true := by
    intro x hx
    rcases List.mem_cons.mp hx with h | h
    · simp [h, hc3]
    · simp [hn x h]
  have hd2 : (c0 :: (n ++ '=' :: '"' :: (v ++ '"' :: rest))).dropWhile (fun c => c != '=')
      = '=' :: '"' :: (v ++ '"' :: rest) :=
    dropWhile_append_stop (p := fun c => c != '=') (a := c0 :: n) (b := '=')
      ('"' :: (v ++ '"' :: rest)) hnall (by simp)
  have ht2 : (c0 :: (n ++ '=' :: '"' :: (v ++ '"' :: rest))).takeWhile (fun c => c != '=')
      = c0 :: n :=
    takeWhile_append_stop (p := fun c => c != '=') (a := c0 :: n) (b := '=')
      ('"' :: (v ++ '"' :: rest)) hnall (by simp)
  have hd3 : (v ++ '"' :: rest).dropWhile (fun c => c != '"') = '"' :: rest :=
    dropWhile_append_stop rest (plain_no_quote hv) (by simp)
  have ht3 : (v ++ '"' :: rest).takeWhile (fun c => c != '"') = v :=
    takeWhile_append_stop rest (plain_no_quote hv) (by simp)
  have hhead : ((' ' :: (c0 :: n ++ '=' :: '"' :: (v ++ '"' :: rest))).head?.map xmlSpace)
      = some true := rfl
  have h1 : ¬ (c0 :: (n ++ '=' :: '"' :: (v ++ '"' :: rest))).take 2 = ['/', '>'] := by
    intro h
    cases n <;> simp at h
    exact hc1 h.1
  have h2 : ¬ (c0 :: (n ++ '=' :: '"' :: (v ++ '"' :: rest))).take 1 = ['>'] := by
    intro h
    simp at h
    exact hc2 h
  simp only [readAttributes]
  rw [hd1, if_neg h1, if_neg h2, if_neg (by rw [hhead]; simp), hd2, ht2]
  simp only [List.take, List.drop, and_true, true_and]
  rw [hd3, ht3, attributeValue_plain hv]
  simp only [List.take, if_true]
  have hdrop : List.drop 1 ('"' :: rest) = rest := rfl
  rw [hdrop]
  cases readAttributes fuel rest with
  | none => rfl
  | some r => rfl

theorem readAttributes_close (fuel : Nat) (rest : Str) :
    readAttributes (fuel + 1) ('/' :: '>' :: rest) = some ([], rest) := by
  simp [readAttributes, List.dropWhile_cons_of_neg, xmlSpace]

theorem readAttributes_open (fuel : Nat) (rest : Str) :
    readAttributes (fuel + 1) ('>' :: rest) = some ([], rest) := by
  simp [readAttributes, List.dropWhile_cons_of_neg, xmlSpace]

/-- The attributes that the reader reports for the record `r`. -/
theorem readAttributes_record (fuel : Nat) (hf : 4 ≤ fuel) (k v : Str) (sid : Option Str)
    (tail : Str) (hk : plainText k = true) (hv : plainText v = true)
    (hs : ∀ txt, sid = some txt → plainText txt = true) :
    readAttributes fuel (' ' :: ('k' :: ['e', 'y'] ++ '=' :: '"' :: (k ++ '"' ::
      (' ' :: ('v' :: ['a', 'l', 'u', 'e'] ++ '=' :: '"' :: (v ++ '"' ::
        (match sid with
          | none => '/' :: '>' :: '\n' :: tail
          | some txt => ' ' :: ('s' :: ['i', 'd'] ++ '=' :: '"' :: (txt ++ '"' ::
              ('/' :: '>' :: '\n' :: tail))))))))))
      = some (("key".toList, k) :: ("value".toList, v) ::
          (match sid with
            | none => []
            | some txt => [("sid".toList, txt)]), '\n' :: tail) := by
  obtain ⟨f, rfl⟩ : ∃ f, fuel = f + 4 := ⟨fuel - 4, by omega⟩
  rw [readAttributes_step (f + 3) 'k' ['e', 'y'] k _ (by decide) (by decide) (by decide)
    (by decide) (by decide) hk]
  rw [readAttributes_step (f + 2) 'v' ['a', 'l', 'u', 'e'] v _ (by decide) (by decide)
    (by decide) (by decide) (by decide) hv]
  cases sid with
  | none =>
    simp only
    rw [readAttributes_close]
    rfl
  | some txt =>
    simp only
    rw [readAttributes_step (f + 1) 's' ['i', 'd'] txt _ (by decide) (by decide)
      (by decide) (by decide) (by decide) (hs txt rfl), readAttributes_close]
    rfl

theorem dropWhile_lt_cons (rest : Str) :
    ('<' :: rest).dropWhile (fun c => c != '<') = '<' :: rest :=
  List.dropWhile_cons_of_neg (by simp)

/-- The reader on the text of one record. -/
theorem readStartTag_record (r : ElementRecord) (tail : Str)
    (hk : plainText r.key = true) (hv : plainText r.value = true)
    (hs : ∀ txt, r.sid = some txt → plainText txt = true) :
    readStartTag (renderRecord r ++ tail)
      = some ("Element".toList, ("key".toList, r.key) :: ("value".toList, r.value) ::
          (match r.sid with
            | none => []
            | some txt => [("sid".toList, txt)]), '\n' :: tail) := by
  obtain ⟨k, v, sid⟩ := r
  simp only at hk hv hs ⊢
  have hshape : renderRecord ⟨k, v, sid⟩ ++ tail
      = '<' :: ("Element".toList ++ ' ' :: ('k' :: ['e', 'y'] ++ '=' :: '"' :: (k ++ '"' ::
      (' ' :: ('v' :: ['a', 'l', 'u', 'e'] ++ '=' :: '"' :: (v ++ '"' ::
        (match sid with
          | none => '/' :: '>' :: '\n' :: tail
          | some txt => ' ' :: ('s' :: ['i', 'd'] ++ '=' :: '"' :: (txt ++ '"' ::
              ('/' :: '>' :: '\n' :: tail)))))))))) := by
    cases sid with
    | none => simp [renderRecord]
    | some txt => simp [renderRecord]
  rw [hshape]
  have hname : ∀ x ∈ "Element".toList,
      (fun c : Char => !xmlSpace c && c != '/' && c != '>') x = true := by decide
  simp only [readStartTag]
  rw [dropWhile_lt_cons]
  simp only [List.take, List.drop, if_true]
  rw [dropWhile_append_stop _ hname (by rfl), takeWhile_append_stop _ hname (by rfl),
    readAttributes_record _ (by simp [List.length_append]) k v sid tail hk hv hs]
  cases sid with
  | none => simp only [List.map_cons, List.map_nil]; rw [if_pos (by decide)]
  | some txt => simp only [List.map_cons, List.map_nil]; rw [if_pos (by decide)]

theorem readStartTag_newline (s : Str) : readStartTag ('\n' :: s) = readStartTag s := by
  simp only [readStartTag]
  rw [List.dropWhile_cons_of_pos (by rfl)]

theorem readElements_newline (n : Nat) (s : Str) :
    readElements n ('\n' :: s) = readElements n s := by
  cases n with
  | zero => rfl
  | succ n => simp only [readElements, readStartTag_newline]

/-- The reader on the text of a list of records whose attributes are plain. -/
theorem readElements_records (rs : List ElementRecord) (tail : Str)
    (h : ∀ r ∈ rs, plainText r.key = true ∧ plainText r.value = true ∧
      ∀ txt, r.sid = some txt → plainText txt = true) :
    readElements rs.length ((rs.map renderRecord).flatten ++ tail) = some rs := by
  induction rs with
  | nil => rfl
  | cons r rs ih =>
    obtain ⟨hk, hv, hs⟩ := h r (List.mem_cons_self _ _)
    have ih' := ih (fun x hx => h x (List.mem_cons_of_mem _ hx))
    rw [List.map_cons, List.flatten_cons, List.append_assoc, List.length_cons, readElements,
      readStartTag_record r _ hk hv hs]
    simp only [if_true]
    rw [readElements_newline, ih']
    obtain ⟨k, v, sid⟩ := r
    cases sid <;> rfl

theorem digitChar_mem {d : Nat} (h : d < 10) : Nat.digitChar d ∈ "0123456789".toList := by
  interval_cases d <;> decide

theorem digitChar_value {d : Nat} (h : d < 10) : (Nat.digitChar d).toNat - '0'.toNat = d := by
  interval_cases d <;> rfl

theorem decimal_mem (v : Nat) : ∀ c ∈ decimal v, c ∈ "0123456789".toList := by
  intro c hc
  unfold decimal at hc
  split at hc
  · simp at hc; subst hc; decide
  · obtain ⟨d, hd, rfl⟩ := List.mem_map.mp hc
    exact digitChar_mem (Nat.digits_lt_base (by norm_num) (List.mem_reverse.mp hd))

theorem digit_facts : ∀ c ∈ "0123456789".toList,
    plainChar c = true ∧ c.isDigit = true ∧ c ≠ '.' := by decide

theorem decimal_plain (v : Nat) : plainText (decimal v) = true := by
  simp only [plainText, List.all_eq_true]
  intro c hc
  exact (digit_facts c (decimal_mem v c hc)).1

theorem foldl_digits (L : List Nat) (h : ∀ d ∈ L, d < 10) :
    (L.reverse.map Nat.digitChar).foldl (fun a c => a * 10 + (c.toNat - '0'.toNat)) 0
      = Nat.ofDigits 10 L := by
  induction L with
  | nil => rfl
  | cons d L ih =>
    rw [List.reverse_cons, List.map_append, List.foldl_append,
      ih (fun x hx => h x (List.mem_cons_of_mem _ hx))]
    simp only [List.map_cons, List.map_nil, List.foldl_cons, List.foldl_nil]
    rw [digitChar_value (h d (List.mem_cons_self _ _)), Nat.ofDigits_cons]
    ring

theorem unsignedOf_decimal (v : Nat) : unsignedOf (decimal v) = v := by
  have htake : (decimal v).takeWhile Char.isDigit = decimal v :=
    List.takeWhile_eq_self_iff.mpr (fun c hc => (digit_facts c (decimal_mem v c hc)).2.1)
  unfold unsignedOf
  rw [htake]
  unfold decimal
  split
  · rename_i h0; subst h0; rfl
  · rw [foldl_digits _ (fun d hd => Nat.digits_lt_base (by norm_num) hd), Nat.ofDigits_digits]

theorem plainText_append {a b : Str} (ha : plainText a = true) (hb : plainText b = true) :
    plainText (a ++ b) = true := by
  simp only [plainText, List.all_append, Bool.and_eq_true] at *
  exact ⟨ha, hb⟩

theorem plainText_intercalate (xs : List Str) (h : ∀ x ∈ xs, plainText x = true) :
    plainText (List.intercalate ['.'] xs) = true := by
  induction xs with
  | nil => rfl
  | cons x xs ih =>
    cases xs with
    | nil => simpa [List.intercalate] using h x (List.mem_cons_self _ _)
    | cons y ys =>
      have ih' := ih (fun z hz => h z (List.mem_cons_of_mem _ hz))
      have hx := h x (List.mem_cons_self _ _)
      have heq : List.intercalate ['.'] (x :: y :: ys)
          = x ++ (['.'] ++ List.intercalate ['.'] (y :: ys)) := by
        simp [List.intercalate, List.intersperse]
      rw [heq]
      exact plainText_append hx (plainText_append (by decide) ih')

theorem readStartTag_indent (ind rest : Str) (hind : ∀ c ∈ ind, c ≠ '<') :
    readStartTag (ind ++ '<' :: rest) = readStartTag ('<' :: rest) := by
  have h : ∀ x ∈ ind, (fun c : Char => c != '<') x = true := by
    intro x hx; simp [hind x hx]
  simp only [readStartTag]
  rw [dropWhile_append_stop rest h (by simp), dropWhile_lt_cons]

/-- The reader gives back every document whose attributes are plain. -/
theorem readElementMap_render (ind : Str) (doc : ElementMapXML) (hind : ∀ c ∈ ind, c ≠ '<')
    (h : ∀ rs, doc = .counted rs → ∀ r ∈ rs, plainText r.key = true ∧
      plainText r.value = true ∧ ∀ txt, r.sid = some txt → plainText txt = true) :
    readElementMap (render ind doc) = some doc := by
  cases doc with
  | selfClosing =>
    have hshape : render ind .selfClosing = ind ++ '<' :: "ElementMap/>\n".toList := by
      simp [render]
    rw [hshape]
    simp only [readElementMap]
    rw [readStartTag_indent _ _ hind]
    rfl
  | counted rs =>
    have hshape : render ind (.counted rs) = ind ++ '<' :: ("ElementMap".toList ++ ' ' ::
        ('c' :: ['o', 'u', 'n', 't'] ++ '=' :: '"' :: (decimal rs.length ++ '"' ::
          ('>' :: '\n' :: ((rs.map renderRecord).flatten ++
            (ind ++ "</ElementMap>\n".toList)))))) := by
      simp [render]
    rw [hshape]
    have hname : ∀ x ∈ "ElementMap".toList,
        (fun c : Char => !xmlSpace c && c != '/' && c != '>') x = true := by decide
    have htag : readStartTag ('<' :: ("ElementMap".toList ++ ' ' ::
        ('c' :: ['o', 'u', 'n', 't'] ++ '=' :: '"' :: (decimal rs.length ++ '"' ::
          ('>' :: '\n' :: ((rs.map renderRecord).flatten ++
            (ind ++ "</ElementMap>\n".toList)))))))
        = some ("ElementMap".toList, [("count".toList, decimal rs.length)],
            '\n' :: ((rs.map renderRecord).flatten ++ (ind ++ "</ElementMap>\n".toList))) := by
      simp only [readStartTag]
      rw [dropWhile_lt_cons]
      simp only [List.take, List.drop, if_true]
      rw [dropWhile_append_stop _ hname (by rfl), takeWhile_append_stop _ hname (by rfl)]
      obtain ⟨f, hf⟩ : ∃ f, ("ElementMap".toList ++ ' ' ::
        ('c' :: ['o', 'u', 'n', 't'] ++ '=' :: '"' :: (decimal rs.length ++ '"' ::
          ('>' :: '\n' :: ((rs.map renderRecord).flatten ++
            (ind ++ "</ElementMap>\n".toList)))))).length = f + 2 :=
        Nat.exists_eq_add_of_le' (by simp [List.length_append])
      rw [hf, readAttributes_step (f + 1) 'c' ['o', 'u', 'n', 't'] _ _ (by decide) (by decide)
        (by decide) (by decide) (by decide) (decimal_plain _), readAttributes_open]
      simp only [Option.map_some', List.map_cons, List.map_nil]
      rw [if_pos (by simp)]
      rfl
    simp only [readElementMap]
    rw [readStartTag_indent _ _ hind, htag]
    simp only [if_true]
    have hlook : List.lookup "count".toList [("count".toList, decimal rs.length)]
        = some (decimal rs.length) := by
      simp [List.lookup]
    rw [hlook]
    simp only
    rw [unsignedOf_decimal, readElements_newline, readElements_records rs _ (h rs rfl)]
    rfl

namespace ComplexGeoData

/-- The text that `Save` writes is the text of the reference records. -/
theorem Save_eq_render (self : ComplexGeoData) (ind : Str) :
    self.Save ind = render ind (savedRecords self) := by
  obtain ⟨em, hs⟩ := self
  cases em with
  | none => simp [Save, render, savedRecords]
  | some m =>
    by_cases hl : m.left = []
    · simp [Save, render, savedRecords, ElementMap.size, hl]
    · have hsz : ¬ m.size = 0 := by
        simpa [ElementMap.size, List.length_eq_zero] using hl
      simp only [Save, render, savedRecords, hl, hsz, if_false, List.length_map,
        toDigits_eq_decimal, List.map_map]
      have hmap : List.map saveElement m.left = List.map (renderRecord ∘ recordOf) m.left :=
        List.map_congr_left (fun v _ => saveElement_eq v)
      rw [hmap]
      simp [List.append_assoc]

theorem recordOf_plain (v : Entry) (hk : plainText v.first = true)
    (he : plainText v.second = true) :
    plainText (recordOf v).key = true ∧ plainText (recordOf v).value = true ∧
      ∀ txt, (recordOf v).sid = some txt → plainText txt = true := by
  refine ⟨hk, he, ?_⟩
  intro txt htxt
  simp only [recordOf] at htxt
  split at htxt
  · cases htxt
  · simp only [Option.some.injEq] at htxt
    rw [← htxt]
    apply plainText_intercalate
    intro x hx
    obtain ⟨r, _, rfl⟩ := List.mem_map.mp hx
    exact decimal_plain _

/-- The reader gives the reference records for the text that `Save` writes,
when the names are plain. -/
theorem readElementMap_Save (self : ComplexGeoData) (ind : Str) (hind : ∀ c ∈ ind, c ≠ '<')
    (hplain : ∀ m, self._ElementMap = some m →
      ∀ x ∈ m.left, plainText x.first = true ∧ plainText x.second = true) :
    readElementMap (self.Save ind) = some (savedRecords self) := by
  rw [Save_eq_render]
  apply readElementMap_render ind _ hind
  intro rs hrs r hr
  unfold savedRecords at hrs
  cases hm : self._ElementMap with
  | none => rw [hm] at hrs; cases hrs
  | some m =>
    rw [hm] at hrs
    simp only at hrs
    split at hrs
    · cases hrs
    · simp only [ElementMapXML.counted.injEq] at hrs
      rw [← hrs] at hr
      obtain ⟨x, hx, rfl⟩ := List.mem_map.mp hr
      exact recordOf_plain x (hplain m hm x hx).1 (hplain m hm x hx).2

end ComplexGeoData

/-- Restoring from the reference records of a host. -/
theorem Restore_savedRecords (self dest : ComplexGeoData) (hH : dest.Hasher = none)
    (hmap : ∀ m, self._ElementMap = some m → m.WF ∧
      ∀ x ∈ m.left, x.info = [] ∧ x.second ≠ [] ∧ x.first ≠ [] ∧
        starts_with x.first elementMapPrefix = false) :
    ∃ out, dest.Restore (savedRecords self) = ⟨.ok (), out⟩ ∧ out.Hasher = none ∧
      out.Holds (self._ElementMap.getD ElementMap.empty).left ∧
      (∀ z : Entry, z ∈ (out._ElementMap.getD ElementMap.empty).left ↔
        z ∈ (self._ElementMap.getD ElementMap.empty).left) ∧
      (∀ z ∈ (out._ElementMap.getD ElementMap.empty).left, z.info = []) ∧
      ((self._ElementMap = none ∨ self._ElementMap = some ElementMap.empty) →
        out._ElementMap = none) := by
  obtain ⟨dm, dh⟩ := dest
  simp only at hH
  subst hH
  cases hm : self._ElementMap with
  | none =>
    refine ⟨⟨none, none⟩, ?_, rfl, ?_, ?_, ?_, fun _ => rfl⟩
    · simp [Restore, savedRecords, hm, resetElementMap]
    · rfl
    · intro z; simp [ElementMap.empty]
    · intro z hz; simp [ElementMap.empty] at hz
  | some m =>
    obtain ⟨hwf, hent⟩ := hmap m hm
    by_cases hl : m.left = []
    · refine ⟨⟨none, none⟩, ?_, rfl, ?_, ?_, ?_, fun _ => rfl⟩
      · simp [Restore, savedRecords, hm, hl, resetElementMap]
      · simp only [Option.getD_some, hl]; rfl
      · intro z; simp [ElementMap.empty, hl]
      · intro z hz; simp [ElementMap.empty] at hz
    · have hnodup : (([] ++ m.left).map Entry.first).Nodup := by
        rw [List.nil_append, List.Nodup, List.pairwise_map]
        refine List.Pairwise.imp ?_ hwf.1
        intro a b hab he
        rw [he, strLt_irrefl] at hab
        cases hab
      have hloop := restoreLoop_noHasher m.left [] ⟨none, none⟩ rfl
        (fun x hx => (hent x hx).2.1) (fun x hx => (hent x hx).2.2) hnodup rfl
      have hid : m.left.map (fun x => (⟨x.first, x.second, []⟩ : Entry)) = m.left := by
        conv_rhs => rw [← List.map_id m.left]
        apply List.map_congr_left
        intro x hx
        obtain ⟨k, e, info⟩ := x
        have := (hent _ hx).1
        simp only at this
        simp [this]
      rw [List.nil_append, hid] at hloop
      obtain ⟨out, ho1, ho2, ho3⟩ := hloop
      have hmem : ∀ z : Entry, z ∈ (out._ElementMap.getD ElementMap.empty).left ↔ z ∈ m.left :=
        fun z => (holds_getD ho3).mem_left
      refine ⟨out, ?_, ho2, by simpa using ho3, by simpa using hmem, ?_, ?_⟩
      · simp only [Restore, savedRecords, hm, hl, if_false, resetElementMap]
        exact ho1
      · intro z hz
        exact (hent z ((hmem z).mp hz)).1
      · intro h
        rcases h with h | h
        · cases h
        · simp only [Option.some.injEq] at h
          rw [h] at hl
          exact absurd rfl hl

theorem strrchr_eq_none {s : Str} {c : Char} (h : c ∉ s) : strrchr s c = none := by
  induction s with
  | nil => rfl
  | cons a as ih =>
    simp only [List.mem_cons, not_or] at h
    simp only [strrchr, ih h.2]
    rw [if_neg (Ne.symm h.1)]

theorem strrchr_append_stop (x : Str) {z : Str} {c : Char} (h : c ∉ z) :
    strrchr (x ++ c :: z) c = some x.length := by
  induction x with
  | nil =>
    simp [strrchr, strrchr_eq_none h]
  | cons a as ih =>
    have hc : strrchr (a :: as ++ c :: z) c =
        match strrchr (as ++ c :: z) c with
        | some i => some (i + 1)
        | none => if a = c then some 0 else none := rfl
    rw [hc, ih]
    rfl

theorem strrchr_last {s : Str} {c : Char} {i : Nat} (h : strrchr s c = some i) :
    ∀ k, i < k → s[k]? ≠ some c := by
  induction s generalizing i with
  | nil => simp [strrchr] at h
  | cons a as ih =>
    simp only [strrchr] at h
    intro k hk
    cases hr : strrchr as c with
    | some j =>
      rw [hr] at h
      simp only [Option.some.injEq] at h
      subst h
      cases k with
      | zero => omega
      | succ k =>
        rw [List.getElem?_cons_succ]
        exact ih hr k (by omega)
    | none =>
      rw [hr] at h
      cases k with
      | zero => omega
      | succ k =>
        rw [List.getElem?_cons_succ]
        intro hget
        have hmem : c ∈ as := List.mem_iff_getElem?.mpr ⟨k, hget⟩
        have : ∀ (t : Str), c ∈ t → strrchr t c ≠ none := by
          intro t ht
          induction t with
          | nil => simp at ht
          | cons b bs ihb =>
            simp only [strrchr]
            cases hb : strrchr bs c with
            | some j => simp
            | none =>
              rcases List.mem_cons.mp ht with h1 | h1
              · simp [h1]
              · exact absurd hb (ihb h1)
        exact this as hmem hr

theorem segmentStart_skip (s : Str) (k c : Nat) (hk : k ≤ c)
    (h : ∀ j, k < j → j ≤ c → s[j]? ≠ some '.') : segmentStart s c = segmentStart s k := by
  induction c with
  | zero =>
    have : k = 0 := by omega
    rw [this]
  | succ c ih =>
    rcases Nat.lt_or_ge k (c + 1) with hlt | hge
    · simp only [segmentStart]
      rw [if_neg (h (c + 1) hlt (le_refl _))]
      exact ih (by omega) (fun j h1 h2 => h j h1 (by omega))
    · have : k = c + 1 := by omega
      rw [this]

theorem segmentStart_pos {s : Str} {d c : Nat} (h : segmentStart s d = c) (hc : 0 < c) :
    2 ≤ c ∧ s[c - 1]? = some '.' := by
  induction d with
  | zero => simp [segmentStart] at h; omega
  | succ d ih =>
    simp only [segmentStart] at h
    split at h
    · rename_i hdot
      subst h
      exact ⟨by omega, by simpa using hdot⟩
    · exact ih h

theorem isMappedElement_marker_some (a : Str) :
    ∃ r, isMappedElement (some (';' :: a)) = some r :=
  ⟨a, isMappedElement_marker a⟩

/-- What `newElementName` gives for a string that ends in a segment behind a
marker-led segment: the string without that segment. -/
theorem newElementName_strip (p a z : Str) (ha : '.' ∉ a) (hz : '.' ∉ z)
    (hp : p = [] ∨ ∃ q : Str, q ≠ [] ∧ p = q ++ ['.']) :
    newElementName (some (p ++ ';' :: a ++ '.' :: z)) = p ++ ';' :: a := by
  have hget : ∀ j, (p ++ ';' :: a ++ '.' :: z)[p.length + j + 1]? = (a ++ '.' :: z)[j]? := by
    intro j
    rw [List.append_assoc, List.getElem?_append_right (by omega)]
    have : p.length + j + 1 - p.length = j + 1 := by omega
    rw [this, List.cons_append, List.getElem?_cons_succ]
  have hdot : strrchr (p ++ ';' :: a ++ '.' :: z) '.' = some (p.length + a.length + 1) := by
    have := strrchr_append_stop (p ++ ';' :: a) (c := '.') hz
    simpa [List.length_append, Nat.add_assoc] using this
  have hnodot : ∀ j, p.length < j → j ≤ p.length + a.length →
      (p ++ ';' :: a ++ '.' :: z)[j]? ≠ some '.' := by
    intro j h1 h2 hj
    obtain ⟨i, rfl⟩ : ∃ i, j = p.length + i + 1 := ⟨j - p.length - 1, by omega⟩
    rw [hget, List.getElem?_append_left (by omega)] at hj
    exact ha (List.mem_iff_getElem?.mpr ⟨i, hj⟩)
  have hsemi : (p ++ ';' :: a ++ '.' :: z)[p.length]? = some ';' := by
    rw [List.append_assoc, List.getElem?_append_right (le_refl _)]
    simp
  have hstart : segmentStart (p ++ ';' :: a ++ '.' :: z) (p.length + a.length) = p.length := by
    rcases hp with hp | ⟨q, hq, hp⟩
    · subst hp
      rw [segmentStart_skip _ 0 _ (by omega) (fun j h1 h2 => hnodot j (by simpa using h1)
        (by simpa using h2))]
      rfl
    · have hqlen : 1 ≤ q.length := by
        cases q with
        | nil => exact absurd rfl hq
        | cons _ _ => simp
      have hplen : p.length = q.length + 1 := by rw [hp]; simp
      have hdotq : (p ++ ';' :: a ++ '.' :: z)[q.length]? = some '.' := by
        rw [hp, List.append_assoc, List.append_assoc,
          List.getElem?_append_right (le_refl _)]
        simp
      rw [segmentStart_skip _ q.length _ (by omega)]
      · obtain ⟨k, hk⟩ : ∃ k, q.length = k + 1 := ⟨q.length - 1, by omega⟩
        rw [hk] at hdotq ⊢
        simp only [segmentStart]
        rw [if_pos hdotq]
        omega
      · intro j h1 h2
        rcases Nat.lt_or_ge p.length j with h3 | h3
        · exact hnodot j h3 h2
        · have : j = p.length := by omega
          rw [this, hsemi]
          simp
  have hdrop : (p ++ ';' :: a ++ '.' :: z).drop p.length = ';' :: (a ++ '.' :: z) := by
    rw [List.append_assoc, List.drop_left]
    rfl
  have htake : (p ++ ';' :: a ++ '.' :: z).take (p.length + a.length + 1) = p ++ ';' :: a := by
    have : p.length + a.length + 1 = (p ++ ';' :: a).length := by simp [Nat.add_assoc]
    rw [this, List.take_left]
  simp only [newElementName, hdot, hstart, hdrop, isMappedElement_marker, htake]

/-- A string that `newElementName` shortens ends in a segment behind a
marker-led segment. -/
theorem endsBehindMarker_of_strip {r : Str} (h : newElementName (some r) ≠ r) :
    EndsBehindMarker r := by
  cases hs : strrchr r '.' with
  | none => exact absurd (by simp only [newElementName, hs]) h
  | some i =>
    cases i with
    | zero => exact absurd (by simp only [newElementName, hs]) h
    | succ dot =>
      cases hm : isMappedElement (some (r.drop (segmentStart r dot))) with
      | none => exact absurd (by simp only [newElementName, hs, hm]) h
      | some rest =>
        have hc := isMappedElement_drop_some hm
        have hd := strrchr_some_get hs
        have hle := segmentStart_le r dot
        have hne : segmentStart r dot ≠ dot + 1 := by
          intro heq
          rw [heq, hd] at hc
          cases hc
        have hcle : segmentStart r dot ≤ dot := by omega
        have hlen : dot + 1 < r.length := by
          rcases Nat.lt_or_ge (dot + 1) r.length with hl | hl
          · exact hl
          · rw [List.getElem?_eq_none hl] at hd; cases hd
        generalize hcdef : segmentStart r dot = c at hc hcle hne
        have h1 : r = r.take c ++ r.drop c := (List.take_append_drop c r).symm
        have h2 : r.drop c = ';' :: r.drop (c + 1) := by
          rw [List.drop_eq_getElem_cons (by omega)]
          congr 1
          have := List.getElem?_eq_getElem (by omega : c < r.length)
          rw [hc] at this
          exact (Option.some.inj this).symm
        have h3 : r.drop (c + 1) = (r.drop (c + 1)).take (dot - c) ++ r.drop (dot + 1) := by
          have := (List.take_append_drop (dot - c) (r.drop (c + 1))).symm
          rw [List.drop_drop] at this
          have hidx : c + 1 + (dot - c) = dot + 1 := by omega
          rw [hidx] at this
          exact this
        have h4 : r.drop (dot + 1) = '.' :: r.drop (dot + 2) := by
          rw [List.drop_eq_getElem_cons hlen]
          congr 1
          have := List.getElem?_eq_getElem hlen
          rw [hd] at this
          exact (Option.some.inj this).symm
        refine ⟨r.take c, (r.drop (c + 1)).take (dot - c), r.drop (dot + 2), ?_, ?_, ?_, ?_⟩
        · calc r = r.take c ++ r.drop c := h1
            _ = r.take c ++ ';' :: ((r.drop (c + 1)).take (dot - c) ++ '.' :: r.drop (dot + 2)) := by
              rw [h2, ← h4, ← h3]
            _ = r.take c ++ ';' :: (r.drop (c + 1)).take (dot - c) ++ '.' :: r.drop (dot + 2) := by
              simp
        · intro hmem
          obtain ⟨j, hj⟩ := List.mem_iff_getElem?.mp hmem
          rw [List.getElem?_take] at hj
          split at hj
          · rw [List.getElem?_drop] at hj
            have := segmentStart_after_dot r dot (c + 1 + j) (by omega) (by omega) hj
            omega
          · cases hj
        · intro hmem
          obtain ⟨j, hj⟩ := List.mem_iff_getElem?.mp hmem
          rw [List.getElem?_drop] at hj
          exact strrchr_last hs (dot + 2 + j) (by omega) hj
        · rcases Nat.eq_zero_or_pos c with h0 | hpos
          · left; rw [h0]; rfl
          · right
            obtain ⟨h2c, hdotc⟩ := segmentStart_pos hcdef hpos
            refine ⟨r.take (c - 1), ?_, ?_⟩
            · intro hnil
              have := congrArg List.length hnil
              rw [List.length_take, List.length_nil] at this
              omega
            · have hlt : c - 1 < r.length := by omega
              have htk : r.take (c - 1 + 1) = r.take (c - 1) ++ (r[c - 1]?).toList :=
                List.take_succ
              have hc1 : c - 1 + 1 = c := by omega
              rw [hc1, hdotc] at htk
              simpa using htk

theorem newElementName_fixed_iff (r : Str) :
    newElementName (some r) = r ↔ ¬ EndsBehindMarker r := by
  constructor
  · rintro h ⟨p, a, z, hr, ha, hz, hp⟩
    rw [hr, newElementName_strip p a z ha hz hp] at h
    have := congrArg List.length h
    simp at this
  · intro h
    by_contra hne
    exact h (endsBehindMarker_of_strip hne)

/-- Strings with two markers on which a second application changes nothing:
the result of the first ends behind a segment that does not begin with the
marker. -/
theorem newElementName_twice_examples :
    newElementName (some "a.;b;c.1".toList) = "a.;b;c".toList ∧
    newElementName (some (newElementName (some "a.;b;c.1".toList))) = "a.;b;c".toList ∧
    newElementName (some "link.;F1;:H2.0003".toList) = "link.;F1;:H2".toList ∧
    newElementName (some (newElementName (some "link.;F1;:H2.0003".toList)))
      = "link.;F1;:H2".toList ∧
    newElementName (some (newElementName (some "link.;F1.0007".toList)))
      = "link.;F1".toList := by
  refine ⟨?_, ?_, ?_, ?_, ?_⟩ <;> rfl

/-! ## The claims on persistence, bulk transfer, sharing and sequences of calls -/

/-- C21, amended: let `self` be a host whose map, if it has one, is well formed
and holds only relations without string ids, with non-empty original names and
with mapped names that are non-empty and do not start with the marker, all
names being plain. The text that `Save` writes for `self` at an indentation
without `<` is read by the reader as a list of records, and a host without
hasher that restores from them returns normally, has no hasher afterwards and
holds exactly the relations of `self`, none with a string id, registered in
ascending order of the mapped names, whatever it held before; when the map of
`self` is absent or empty the restoring host has no map afterwards. -/
theorem C21_save_then_restore (self dest : ComplexGeoData) (ind : Str)
    (hH : dest.Hasher = none) (hind : ∀ c ∈ ind, c ≠ '<')
    (hmap : ∀ m, self._ElementMap = some m → m.WF ∧
      ∀ x ∈ m.left, x.info = [] ∧ x.second ≠ [] ∧ x.first ≠ [] ∧
        starts_with x.first elementMapPrefix = false ∧
        plainText x.first = true ∧ plainText x.second = true) :
    ∃ doc out, readElementMap (self.Save ind) = some doc ∧
      dest.Restore doc = ⟨.ok (), out⟩ ∧ out.Hasher = none ∧
      out.Holds (self._ElementMap.getD ElementMap.empty).left ∧
      (∀ z : Entry, z ∈ (out._ElementMap.getD ElementMap.empty).left ↔
        z ∈ (self._ElementMap.getD ElementMap.empty).left) ∧
      (∀ z ∈ (out._ElementMap.getD ElementMap.empty).left, z.info = []) ∧
      ((self._ElementMap = none ∨ self._ElementMap = some ElementMap.empty) →
        out._ElementMap = none) := by
  have hread := readElementMap_Save self ind hind
    (fun m hm x hx => ⟨((hmap m hm).2 x hx).2.2.2.2.1, ((hmap m hm).2 x hx).2.2.2.2.2⟩)
  obtain ⟨out, hout⟩ := Restore_savedRecords self dest hH
    (fun m hm => ⟨(hmap m hm).1, fun x hx =>
      ⟨((hmap m hm).2 x hx).1, ((hmap m hm).2 x hx).2.1, ((hmap m hm).2 x hx).2.2.1,
        ((hmap m hm).2 x hx).2.2.2.1⟩⟩)
  exact ⟨savedRecords self, out, hread, hout⟩

/-- The map with `baz -> Edge2` and `foo -> Face1`, neither with a string id,
is saved at an indentation of two blanks, and the sample host, which has no
hasher, restores from the records that the reader finds in the text; what it
held before is gone. -/
theorem C21_save_then_restore_witness :
    ∃ doc out, readElementMap ((ComplexGeoData.mk
        (some ⟨[⟨"baz".toList, "Edge2".toList, []⟩, ⟨"foo".toList, "Face1".toList, []⟩],
          [⟨"baz".toList, "Edge2".toList, []⟩, ⟨"foo".toList, "Face1".toList, []⟩]⟩)
        none).Save "  ".toList) = some doc ∧
      sampleHost.Restore doc = ⟨.ok (), out⟩ ∧
      out.Holds [⟨"baz".toList, "Edge2".toList, []⟩, ⟨"foo".toList, "Face1".toList, []⟩] := by
  obtain ⟨doc, out, h0, h1, _, h3, _⟩ := C21_save_then_restore (ComplexGeoData.mk
      (some ⟨[⟨"baz".toList, "Edge2".toList, []⟩, ⟨"foo".toList, "Face1".toList, []⟩],
        [⟨"baz".toList, "Edge2".toList, []⟩, ⟨"foo".toList, "Face1".toList, []⟩]⟩) none)
    sampleHost "  ".toList rfl (by decide)
    (by
      intro m hm
      simp only [Option.some.injEq] at hm
      subst hm
      decide)
  exact ⟨doc, out, h0, h1, h3⟩

/-- C21, counterexample: on a fresh host without hasher
`setElementName("Face1", ";;foo")` stores the mapped name `;foo` without string
id; the reader finds the one record with that key in the text that `Save`
writes, and restoring from it gives a map that holds `foo -> Face1` instead, the
marker being stripped once more. The relation `a -> b" sid="1`, whose value
holds a quote, is read back as a record with value `b`, and restored as
`a -> b`. A value with `<` or `&` gives a text that the reader refuses, and the
value `b`, line feed, `c` is restored as `b c`. -/
theorem C21_counterexample :
    (ComplexGeoData.mk none none).setElementName (some "Face1".toList) (some ";;foo".toList)
        none false
      = ⟨.ok ";foo".toList, ComplexGeoData.mk
          (some ⟨[⟨";foo".toList, "Face1".toList, []⟩],
            [⟨";foo".toList, "Face1".toList, []⟩]⟩) none⟩ ∧
    readElementMap ((ComplexGeoData.mk (some ⟨[⟨";foo".toList, "Face1".toList, []⟩],
        [⟨";foo".toList, "Face1".toList, []⟩]⟩) none).Save [])
      = some (.counted [⟨";foo".toList, "Face1".toList, none⟩]) ∧
    (ComplexGeoData.mk none none).Restore (.counted [⟨";foo".toList, "Face1".toList, none⟩])
      = ⟨.ok (), ComplexGeoData.mk (some ⟨[⟨"foo".toList, "Face1".toList, []⟩],
          [⟨"foo".toList, "Face1".toList, []⟩]⟩) none⟩ ∧
    readElementMap ((ComplexGeoData.mk (some ⟨[⟨"a".toList, "b\" sid=\"1".toList, []⟩],
        [⟨"a".toList, "b\" sid=\"1".toList, []⟩]⟩) none).Save [])
      = some (.counted [⟨"a".toList, "b".toList, some "1".toList⟩]) ∧
    (ComplexGeoData.mk none none).Restore
        (.counted [⟨"a".toList, "b".toList, some "1".toList⟩])
      = ⟨.ok (), ComplexGeoData.mk (some ⟨[⟨"a".toList, "b".toList, []⟩],
          [⟨"a".toList, "b".toList, []⟩]⟩) none⟩ ∧
    readElementMap ((ComplexGeoData.mk (some ⟨[⟨"a".toList, "b<c".toList, []⟩],
        [⟨"a".toList, "b<c".toList, []⟩]⟩) none).Save []) = none ∧
    readElementMap ((ComplexGeoData.mk (some ⟨[⟨"a".toList, "b&c".toList, []⟩],
        [⟨"a".toList, "b&c".toList, []⟩]⟩) none).Save []) = none ∧
    readElementMap ((ComplexGeoData.mk (some ⟨[⟨"a".toList, "b\nc".toList, []⟩],
        [⟨"a".toList, "b\nc".toList, []⟩]⟩) none).Save [])
      = some (.counted [⟨"a".toList, "b c".toList, none⟩]) ∧
    (ComplexGeoData.mk none none).Restore (.counted [⟨"a".toList, "b c".toList, none⟩])
      = ⟨.ok (), ComplexGeoData.mk (some ⟨[⟨"a".toList, "b c".toList, []⟩],
          [⟨"a".toList, "b c".toList, []⟩]⟩) none⟩ := by
  refine ⟨?_, ?_, ?_, ?_, ?_, ?_, ?_, ?_, ?_⟩ <;> rfl

/-- C22, the code at the failing input: a host with a hasher whose table is
empty restores the one record with key `foo`, value `Face1` and no `sid`
attribute. `Restore` returns normally, but the map holds `foo#F1 -> Face1` with
one string id, not `foo -> Face1` with none: the six-argument `setElementName`,
given an empty list of string ids and a hasher, hashes the empty name, so that
the table of the hasher holds the empty string afterwards, and appends the
token to the key. The same happens when the record has a `sid` attribute none
of whose numbers resolves. Without hasher the key is stored as it is. -/
theorem C22_restore_rehashes_key :
    (ComplexGeoData.mk none (some ⟨[], 0, 7⟩)).Restore
        (.counted [⟨"foo".toList, "Face1".toList, none⟩])
      = ⟨.ok (), ComplexGeoData.mk (some ⟨[⟨"foo#F1".toList, "Face1".toList, [⟨1⟩]⟩],
          [⟨"foo#F1".toList, "Face1".toList, [⟨1⟩]⟩]⟩) (some ⟨[[]], 0, 7⟩)⟩ ∧
    (ComplexGeoData.mk none (some ⟨[], 0, 7⟩)).Restore
        (.counted [⟨"foo".toList, "Face1".toList, some "4.5".toList⟩])
      = ⟨.ok (), ComplexGeoData.mk (some ⟨[⟨"foo#F1".toList, "Face1".toList, [⟨1⟩]⟩],
          [⟨"foo#F1".toList, "Face1".toList, [⟨1⟩]⟩]⟩) (some ⟨[[]], 0, 7⟩)⟩ ∧
    (ComplexGeoData.mk none none).Restore
        (.counted [⟨"foo".toList, "Face1".toList, none⟩])
      = ⟨.ok (), ComplexGeoData.mk (some ⟨[⟨"foo".toList, "Face1".toList, []⟩],
          [⟨"foo".toList, "Face1".toList, []⟩]⟩) none⟩ := by
  refine ⟨?_, ?_, ?_⟩ <;> rfl

/-- C23, amended: for a host whose names are plain, the text that `Save` writes
at an indentation without `<` is read by the reader as the record format of the
claim. For an absent or empty map that is a single self-closing `ElementMap`
element without `count`; otherwise a header whose `count` is the number of
relations, then one `Element` record per relation in the order of the left
view, whose key is the mapped name and whose value is the original name, with a
`sid` attribute exactly when the relation has a string id, which then holds the
decimal values of its string ids in stored order joined by `.`; in a
well-formed map the keys of the records are strictly ascending. -/
theorem C23_save_record_format (self : ComplexGeoData) (ind : Str)
    (hind : ∀ c ∈ ind, c ≠ '<')
    (hplain : ∀ m, self._ElementMap = some m →
      ∀ x ∈ m.left, plainText x.first = true ∧ plainText x.second = true) :
    readElementMap (self.Save ind) = some (savedRecords self) ∧
    ((self._ElementMap = none ∨ self._ElementMap = some ElementMap.empty) →
      self.Save ind = ind ++ "<ElementMap/>".toList ++ ['\n'] ∧
      readElementMap (self.Save ind) = some .selfClosing) ∧
    (∀ m, self._ElementMap = some m → m.left ≠ [] →
      readElementMap (self.Save ind) = some (.counted (m.left.map recordOf)) ∧
      (m.left.map recordOf).length = m.size ∧
      (∀ x ∈ m.left, (recordOf x).key = x.first ∧ (recordOf x).value = x.second ∧
        ((recordOf x).sid = none ↔ x.info = []) ∧
        (x.info ≠ [] → (recordOf x).sid
          = some (List.intercalate ['.'] (x.info.map (fun r => decimal r.value)))))) ∧
    (∀ m, self._ElementMap = some m → m.WF →
      ((m.left.map recordOf).map ElementRecord.key).Pairwise (fun a b => strLt a b = true)) := by
  have hread := readElementMap_Save self ind hind hplain
  refine ⟨hread, ?_, ?_, ?_⟩
  · intro h
    have hsaved : savedRecords self = .selfClosing := by
      rcases h with h | h
      · simp [savedRecords, h]
      · simp [savedRecords, h, ElementMap.empty]
    refine ⟨?_, by rw [hread, hsaved]⟩
    rw [Save_eq_render, hsaved]
    simp [render]
  · intro m hm hl
    refine ⟨?_, by simp [ElementMap.size], ?_⟩
    · rw [hread]
      simp [savedRecords, hm, hl]
    · intro x _
      refine ⟨rfl, rfl, ?_, ?_⟩
      · simp only [recordOf]
        constructor
        · intro h
          by_contra hne
          rw [if_neg hne] at h
          cases h
        · intro h
          rw [if_pos h]
      · intro hne
        simp only [recordOf]
        rw [if_neg hne]
  · intro m _ hwf
    rw [List.map_map, List.pairwise_map]
    exact hwf.1

/-- The sample host, whose names are plain, saved at an indentation of two
blanks: the reader finds three records, the first with the `sid` attribute
`3`. -/
theorem C23_save_record_format_witness :
    readElementMap (sampleHost.Save "  ".toList)
      = some (.counted [⟨"bar".toList, "Face1".toList, some "3".toList⟩,
          ⟨"baz".toList, "Edge2".toList, none⟩, ⟨"foo".toList, "Face1".toList, none⟩]) :=
  (C23_save_record_format sampleHost "  ".toList (by decide)
    (by
      intro m hm
      simp only [sampleHost, Option.some.injEq] at hm
      subst hm
      decide)).1.trans (by
    simp only [savedRecords, sampleHost, sampleMap, recordOf, List.map_cons, List.map_nil,
      ← toDigits_eq_decimal]
    rfl)

/-- C23, counterexample: the value `b" sid="1` of a relation without string id
holds a quote. `Save` writes it as it is, so that the text is the one written
for the relation `a -> b` with the string id 1, and the reader finds a record
with value `b` and a `sid` attribute. With the value
`b"/>`, line feed, `<Element key="c" value="d` the text has two `Element`
records under the count 1. A value with `<` or `&` gives a text that the reader
refuses, a line feed in a value comes back as a blank, and a value with the
control character of code 1 is refused. -/
theorem C23_counterexample :
    (ComplexGeoData.mk (some ⟨[⟨"a".toList, "b\" sid=\"1".toList, []⟩],
        [⟨"a".toList, "b\" sid=\"1".toList, []⟩]⟩) none).Save []
      = (ComplexGeoData.mk (some ⟨[⟨"a".toList, "b".toList, [⟨1⟩]⟩],
          [⟨"a".toList, "b".toList, [⟨1⟩]⟩]⟩) none).Save [] ∧
    readElementMap ((ComplexGeoData.mk (some ⟨[⟨"a".toList, "b\" sid=\"1".toList, []⟩],
        [⟨"a".toList, "b\" sid=\"1".toList, []⟩]⟩) none).Save [])
      = some (.counted [⟨"a".toList, "b".toList, some "1".toList⟩]) ∧
    (ComplexGeoData.mk (some
        ⟨[⟨"a".toList, "b\"/>\n<Element key=\"c\" value=\"d".toList, []⟩],
         [⟨"a".toList, "b\"/>\n<Element key=\"c\" value=\"d".toList, []⟩]⟩) none).Save []
      = ("<ElementMap count=\"1\">\n<Element key=\"a\" value=\"b\"/>\n" ++
          "<Element key=\"c\" value=\"d\"/>\n</ElementMap>\n").toList ∧
    readElementMap ((ComplexGeoData.mk (some
        ⟨[⟨"a".toList, "b\"/>\n<Element key=\"c\" value=\"d".toList, []⟩],
         [⟨"a".toList, "b\"/>\n<Element key=\"c\" value=\"d".toList, []⟩]⟩) none).Save [])
      = some (.counted [⟨"a".toList, "b".toList, none⟩]) ∧
    readElementMap ((ComplexGeoData.mk (some ⟨[⟨"a".toList, "b<c".toList, []⟩],
        [⟨"a".toList, "b<c".toList, []⟩]⟩) none).Save []) = none ∧
    readElementMap ((ComplexGeoData.mk (some ⟨[⟨"a".toList, "b&c".toList, []⟩],
        [⟨"a".toList, "b&c".toList, []⟩]⟩) none).Save []) = none ∧
    readElementMap ((ComplexGeoData.mk (some ⟨[⟨"a".toList, "b\nc".toList, []⟩],
        [⟨"a".toList, "b\nc".toList, []⟩]⟩) none).Save [])
      = some (.counted [⟨"a".toList, "b c".toList, none⟩]) ∧
    readElementMap ((ComplexGeoData.mk (some ⟨[⟨"a".toList, ['b', Char.ofNat 1], []⟩],
        [⟨"a".toList, ['b', Char.ofNat 1], []⟩]⟩) none).Save []) = none := by
  refine ⟨?_, ?_, ?_, ?_, ?_, ?_, ?_, ?_⟩ <;> rfl

/-- C24, the code at the failing input: for the host whose map holds
`foo -> Face1`, `getElementMap()` returns the table with the one pair
`(foo, Face1)`, mapped name first, and `setElementMap` of that table returns
normally and leaves the map with `Face1 -> foo`: it passes the first component
of each pair as the element and the second as the name. For the sample host,
where `bar` and `foo` both stand for `Face1`, the same round trip throws the
duplicate error at the third pair. -/
theorem C24_bulk_round_trip_swaps :
    (ComplexGeoData.mk (some ⟨[⟨"foo".toList, "Face1".toList, []⟩],
        [⟨"foo".toList, "Face1".toList, []⟩]⟩) none).getElementMap
      = [("foo".toList, "Face1".toList)] ∧
    (ComplexGeoData.mk (some ⟨[⟨"foo".toList, "Face1".toList, []⟩],
        [⟨"foo".toList, "Face1".toList, []⟩]⟩) none).setElementMap
        [("foo".toList, "Face1".toList)]
      = ⟨.ok (), ComplexGeoData.mk (some ⟨[⟨"Face1".toList, "foo".toList, []⟩],
          [⟨"Face1".toList, "foo".toList, []⟩]⟩) none⟩ ∧
    (sampleHost.setElementMap sampleHost.getElementMap).ret
      = .error (.ValueError "duplicate element mapping 'Face1->foo/bar".toList) := by
  refine ⟨?_, ?_, ?_⟩ <;> rfl

/-- C25, amended: when two hosts hold the same element-map object,
`setElementName` through one of them changes that object, so that afterwards the
other host sees the map the call has left, and each forward lookup, reverse
lookup, list of mapped names, prefix query and size it reports is the one the
calling host reports. -/
theorem C25_mutation_is_shared (a b : SharedHost) (heap : Heap) (p : Nat) (m : ElementMap)
    (element name : Option Str) (sid : Option (List StringIDRef)) (overwrite : Bool)
    (ha : a._ElementMap = some p) (hb : b._ElementMap = some p) (hp : heap[p]? = some m) :
    (b.view (a.setElementName heap element name sid overwrite).2.2)._ElementMap
      = ((a.view heap).setElementName element name sid overwrite).self._ElementMap ∧
    ((a.setElementName heap element name sid overwrite).2.1.view
        (a.setElementName heap element name sid overwrite).2.2)._ElementMap
      = ((a.view heap).setElementName element name sid overwrite).self._ElementMap ∧
    (∀ n reverse acc,
      (b.view (a.setElementName heap element name sid overwrite).2.2).getElementName n reverse acc
        = ((a.view heap).setElementName element name sid overwrite).self.getElementName
            n reverse acc) ∧
    (∀ e needUnmapped,
      (b.view (a.setElementName heap element name sid overwrite).2.2).getElementMappedNames
          e needUnmapped
        = ((a.view heap).setElementName element name sid overwrite).self.getElementMappedNames
            e needUnmapped) ∧
    (∀ q,
      (b.view (a.setElementName heap element name sid overwrite).2.2).getElementNamesWithPrefix q
        = ((a.view heap).setElementName element name sid overwrite).self.getElementNamesWithPrefix
            q) ∧
    (b.view (a.setElementName heap element name sid overwrite).2.2).getElementMapSize
      = ((a.view heap).setElementName element name sid overwrite).self.getElementMapSize := by
  have hview : (a.view heap)._ElementMap = some m := by
    simp [SharedHost.view, ha, hp]
  obtain ⟨m', hm'⟩ := setElementName_map_some (a.view heap) element name sid overwrite hview
  have hlt : p < heap.length := by
    rcases Nat.lt_or_ge p heap.length with h | h
    · exact h
    · rw [List.getElem?_eq_none h] at hp; cases hp
  have hheap : (a.setElementName heap element name sid overwrite).2.2 = heap.set p m' := by
    simp only [SharedHost.setElementName, ha, hm']
  have hhost : (a.setElementName heap element name sid overwrite).2.1._ElementMap = some p := by
    simp only [SharedHost.setElementName, ha, hm']
  have hget : (heap.set p m')[p]? = some m' := by
    simp [List.getElem?_set, hlt]
  have hb' : (b.view (a.setElementName heap element name sid overwrite).2.2)._ElementMap
      = ((a.view heap).setElementName element name sid overwrite).self._ElementMap := by
    rw [hheap, hm']
    simp [SharedHost.view, hb, hget]
  have ha' : ((a.setElementName heap element name sid overwrite).2.1.view
        (a.setElementName heap element name sid overwrite).2.2)._ElementMap
      = ((a.view heap).setElementName element name sid overwrite).self._ElementMap := by
    rw [hheap, hm']
    simp [SharedHost.view, hhost, hget]
  obtain ⟨g1, g2, g3, g4⟩ := getters_congr hb'
  exact ⟨hb', ha', g1, g2, g3, g4⟩

/-- Two hosts hold the object at address 0, which is the sample map; the first
registers `qux` for `Face9`. -/
theorem C25_mutation_is_shared_witness :
    (SharedHost.mk (some 0) none)._ElementMap = some 0 ∧
    ([sampleMap] : Heap)[0]? = some sampleMap ∧
    ((SharedHost.mk (some 0) none).view ((SharedHost.mk (some 0) none).setElementName
        [sampleMap] (some "Face9".toList) (some "qux".toList) none false).2.2).getElementMapSize
      = (((SharedHost.mk (some 0) none).view [sampleMap]).setElementName
          (some "Face9".toList) (some "qux".toList) none false).self.getElementMapSize :=
  ⟨rfl, rfl, (C25_mutation_is_shared (SharedHost.mk (some 0) none) (SharedHost.mk (some 0) none)
    [sampleMap] 0 sampleMap (some "Face9".toList) (some "qux".toList) none false
    rfl rfl rfl).2.2.2.2.2⟩

/-- C25, counterexample: two hosts hold the object at address 0, which is the
sample map with its three relations. After the first has registered `qux` for
`Face9` the second reports four relations instead of three, resolves `;qux` to
`Face9`, where it returned `;qux` itself, and finds `qux` for `Face9`, for which
it found nothing. -/
theorem C25_counterexample :
    ((SharedHost.mk (some 0) none).view [sampleMap]).getElementMapSize = 3 ∧
    ((SharedHost.mk (some 0) none).view ((SharedHost.mk (some 0) none).setElementName
        [sampleMap] (some "Face9".toList) (some "qux".toList) none false).2.2).getElementMapSize
      = 4 ∧
    (((SharedHost.mk (some 0) none).view [sampleMap]).getElementName
        (some ";qux".toList) false none).1 = some ";qux".toList ∧
    (((SharedHost.mk (some 0) none).view ((SharedHost.mk (some 0) none).setElementName
        [sampleMap] (some "Face9".toList) (some "qux".toList) none false).2.2).getElementName
          (some ";qux".toList) false none).1 = some "Face9".toList ∧
    (((SharedHost.mk (some 0) none).view [sampleMap]).getElementName
        (some "Face9".toList) true none).1 = some "Face9".toList ∧
    (((SharedHost.mk (some 0) none).view ((SharedHost.mk (some 0) none).setElementName
        [sampleMap] (some "Face9".toList) (some "qux".toList) none false).2.2).getElementName
          (some "Face9".toList) true none).1 = some "qux".toList := by
  refine ⟨?_, ?_, ?_, ?_, ?_, ?_⟩ <;> rfl

/-- C26, the code at the failing input: the host has a hasher with an empty
table and the map `P#F1 -> Face1`. The call
`setElementName("Face2", "Face2", "P", null, null, false)` hashes `Face2` to the
token `#F1`, swaps the hasher out and registers `P#F1`, which stands for
`Face1`: the duplicate error is thrown past the statement that puts the hasher
back, and the host is left without hasher. -/
theorem C26_hasher_lost_on_failure :
    (ComplexGeoData.mk (some ⟨[⟨"P#F1".toList, "Face1".toList, []⟩],
        [⟨"P#F1".toList, "Face1".toList, []⟩]⟩) (some ⟨[], 0, 7⟩)).setElementNameAffix
        (some "Face2".toList) (some "Face2".toList) (some "P".toList) none none false
      = ⟨.error (.ValueError "duplicate element mapping 'P#F1->Face2/Face1".toList),
          ComplexGeoData.mk (some ⟨[⟨"P#F1".toList, "Face1".toList, []⟩],
            [⟨"P#F1".toList, "Face1".toList, []⟩]⟩) none⟩ := by
  rfl

/-- C27, the code at the failing input: on a host without map
`setElementName("Face1", "")` and `setElementName("Face1", null)` reach
`_ElementMap->right.erase(element)` with a null `_ElementMap`, which is
undefined behaviour; the same holds for the six-argument overload. On a host
whose map exists and is empty the call returns `Face1`. -/
theorem C27_delete_dereferences_null :
    (ComplexGeoData.mk none none).setElementName (some "Face1".toList) (some []) none false
      = ⟨.error .nullDeref, ComplexGeoData.mk none none⟩ ∧
    (ComplexGeoData.mk none none).setElementName (some "Face1".toList) none none false
      = ⟨.error .nullDeref, ComplexGeoData.mk none none⟩ ∧
    (ComplexGeoData.mk none none).setElementNameAffix (some "Face1".toList) (some [])
        none none none false
      = ⟨.error .nullDeref, ComplexGeoData.mk none none⟩ ∧
    (ComplexGeoData.mk (some ElementMap.empty) none).setElementName (some "Face1".toList)
        (some []) none false
      = ⟨.ok "Face1".toList, ComplexGeoData.mk (some ElementMap.empty) none⟩ := by
  refine ⟨?_, ?_, ?_, ?_⟩ <;> rfl

/-- C28, amended: on a host without hasher whose map holds the relation of a
non-empty mapped name `k`, not starting with the marker, to the non-empty
element `e` with string ids `s`, `setElementName(e, k, s2, overwrite)` returns
`k` for every `s2`, null or a vector, and either `overwrite`, and leaves the
host, hence its map, the string ids `s` of the relation and the size, exactly
as they were. -/
theorem C28_reregistering_is_noop (self : ComplexGeoData) (m : ElementMap) (k e : Str)
    (s : List StringIDRef) (s2 : Option (List StringIDRef)) (overwrite : Bool)
    (hmap : self._ElementMap = some m) (hwf : m.WF) (hhash : self.Hasher = none)
    (hmem : (⟨k, e, s⟩ : Entry) ∈ m.left)
    (hk : k ≠ []) (hmark : starts_with k elementMapPrefix = false) (he : e ≠ []) :
    self.setElementName (some e) (some k) s2 overwrite = ⟨.ok k, self⟩ ∧
    (self.setElementName (some e) (some k) s2 overwrite).self._ElementMap = some m ∧
    (self.setElementName (some e) (some k) s2 overwrite).self.getElementMapSize
      = self.getElementMapSize := by
  have h : self.setElementName (some e) (some k) s2 overwrite = ⟨.ok k, self⟩ := by
    rw [setElementName_plain self s2 overwrite he hk hmark (Or.inl hhash), hmap]
    simp only [Option.getD_some]
    rw [insertRelation_same _ _ overwrite hwf hmem]
    obtain ⟨em, hs⟩ := self
    simp only at hmap
    rw [hmap]
  rw [h]
  exact ⟨rfl, hmap, rfl⟩

/-- The sample host holds `bar -> Face1` with the string id 3; registering the
pair again with the string id 8 and `overwrite` set changes nothing. -/
theorem C28_reregistering_is_noop_witness :
    sampleHost._ElementMap = some sampleMap ∧
    (⟨"bar".toList, "Face1".toList, [⟨3⟩]⟩ : Entry) ∈ sampleMap.left ∧
    sampleHost.setElementName (some "Face1".toList) (some "bar".toList) (some [⟨8⟩]) true
      = ⟨.ok "bar".toList, sampleHost⟩ :=
  ⟨rfl, by decide, (C28_reregistering_is_noop sampleHost sampleMap "bar".toList "Face1".toList
    [⟨3⟩] (some [⟨8⟩]) true rfl sampleMap_WF rfl (by decide) (by decide) (by decide)
    (by decide)).1⟩

/-- C28, counterexample: the map holds `"" -> Face1`, the relation that
`setElementName("Face1", ";")` stores on a fresh host, and the empty mapped name
does not start with the marker. `setElementName("Face1", "", s2, overwrite)` is
the request to delete by original name: it returns `Face1`, not the empty name,
and the relation is gone. -/
theorem C28_counterexample :
    (ComplexGeoData.mk none none).setElementName (some "Face1".toList) (some ";".toList)
        none false
      = ⟨.ok [], ComplexGeoData.mk
          (some ⟨[⟨[], "Face1".toList, []⟩], [⟨[], "Face1".toList, []⟩]⟩) none⟩ ∧
    starts_with [] elementMapPrefix = false ∧
    (ComplexGeoData.mk (some ⟨[⟨[], "Face1".toList, []⟩], [⟨[], "Face1".toList, []⟩]⟩)
        none).setElementName (some "Face1".toList) (some []) (some []) false
      = ⟨.ok "Face1".toList, ComplexGeoData.mk (some ⟨[], []⟩) none⟩ := by
  refine ⟨?_, ?_, ?_⟩ <;> rfl

/-- C29: after every sequence of calls of `setElementName` (either overload),
`setElementMap`, `copyElementMap` and `Restore`, with any arguments, on a host
that starts without map, every relation of the element map, in either index,
has a non-empty original name, whether the calls returned or threw; and a
registration whose element is null or empty ends with the `ValueError`
`Invalid input` and leaves the host as it was. -/
theorem C29_original_name_never_empty (hasher : Option StringHasher) (calls : List Call)
    (m : ElementMap) (hm : (runCalls ⟨none, hasher⟩ calls)._ElementMap = some m) :
    (∀ z, z ∈ m.left ∨ z ∈ m.right → z.second ≠ []) ∧
    (∀ (self : ComplexGeoData) (element name pfx sfx : Option Str)
        (sid : Option (List StringIDRef)) (overwrite : Bool),
      element = none ∨ element = some [] →
      self.setElementName element name sid overwrite
        = ⟨.error (.ValueError "Invalid input".toList), self⟩ ∧
      self.setElementNameAffix element name pfx sfx sid overwrite
        = ⟨.error (.ValueError "Invalid input".toList), self⟩) := by
  constructor
  · have h := runCalls_originals calls ⟨none, hasher⟩ trivial
    unfold ComplexGeoData.OriginalsNonEmpty at h
    rw [hm] at h
    exact h
  · intro self element name pfx sfx sid overwrite he
    rcases he with he | he <;> subst he
    · exact ⟨rfl, rfl⟩
    · constructor
      · rfl
      · cases name <;> rfl

/-- A fresh host with a hasher is restored from two records, the second with an
empty value, which is refused; then it registers `qux` with a prefix and takes
a table of two pairs, the second with an empty first component. The map it is
left with has the one relation `#b3 -> bar`. -/
theorem C29_original_name_never_empty_witness :
    (runCalls ⟨none, some ⟨[], 0, 7⟩⟩
      [.Restore (.counted [⟨"foo".toList, "Face1".toList, none⟩, ⟨"bar".toList, [], none⟩]),
       .setElementNameAffix (some "Face2".toList) (some "qux".toList) (some "P".toList) none
         none false,
       .setElementMap [("bar".toList, "Face1".toList), ([], "Face3".toList)]])._ElementMap
      = some ⟨[⟨"#b3".toList, "bar".toList, [⟨3⟩]⟩], [⟨"#b3".toList, "bar".toList, [⟨3⟩]⟩]⟩ ∧
    ∀ z, z ∈ [(⟨"#b3".toList, "bar".toList, [⟨3⟩]⟩ : Entry)] ∨
        z ∈ [(⟨"#b3".toList, "bar".toList, [⟨3⟩]⟩ : Entry)] → z.second ≠ [] :=
  ⟨rfl, (C29_original_name_never_empty (some ⟨[], 0, 7⟩)
      [.Restore (.counted [⟨"foo".toList, "Face1".toList, none⟩, ⟨"bar".toList, [], none⟩]),
       .setElementNameAffix (some "Face2".toList) (some "qux".toList) (some "P".toList) none
         none false,
       .setElementMap [("bar".toList, "Face1".toList), ([], "Face3".toList)]]
      ⟨[⟨"#b3".toList, "bar".toList, [⟨3⟩]⟩], [⟨"#b3".toList, "bar".toList, [⟨3⟩]⟩]⟩ rfl).1⟩

/-- C30, amended: `newElementName` applied twice gives what it gives applied
once exactly for the strings `s` whose result `newElementName(s)` does not
itself end in a segment behind a segment that begins with the marker. A string
that does not end so is returned as it is, and a string `p ++ ";a" ++ "." ++ z`
that does is returned without `"." ++ z`. -/
theorem C30_idempotent_iff (s : Str) :
    (newElementName (some (newElementName (some s))) = newElementName (some s) ↔
      ¬ EndsBehindMarker (newElementName (some s))) ∧
    (¬ EndsBehindMarker s → newElementName (some s) = s) ∧
    (∀ p a z : Str, s = p ++ ';' :: a ++ '.' :: z → '.' ∉ a → '.' ∉ z →
      (p = [] ∨ ∃ q : Str, q ≠ [] ∧ p = q ++ ['.']) →
      newElementName (some s) = p ++ ';' :: a) := by
  refine ⟨newElementName_fixed_iff _, (newElementName_fixed_iff s).mpr, ?_⟩
  intro p a z hs ha hz hp
  rw [hs]
  exact newElementName_strip p a z ha hz hp

/-- C30, counterexample: `;a.;b.c` gives `;a.;b`, and that gives `;a`. -/
theorem C30_counterexample :
    newElementName (some ";a.;b.c".toList) = ";a.;b".toList ∧
    newElementName (some (newElementName (some ";a.;b.c".toList))) = ";a".toList ∧
    newElementName (some (newElementName (some ";a.;b.c".toList)))
      ≠ newElementName (some ";a.;b.c".toList) := by
  refine ⟨rfl, rfl, ?_⟩
  decide

end Data
